import Mathlib

/-! # Referee: random-access decompression core

A shallow embedding of `include/decompress/InputBuffer.hpp` and of the parsers of
`include/RefereeDecompress.hpp`, with the properties of the block container
reader, the interval index, the input buffer and the parsers proved about it.

Conventions of the embedding.

* A C++ `int` is an `Int`; a conversion of a wider value to `int` is written
  `toInt32` (wrap-around modulo `2^32`).  The 64-bit counters `pos` and `total`
  of `seek_blocks` move by an `int` per pass and stay far from the bounds of
  their type, so they are plain integers.
* A `std::map` is the list of its entries in ascending order of the keys.
* A file is the list of its bytes; an `ifstream` is the file together with its
  read position, its `failbit` and its exception mask.
* A `std::string` is the list of its characters; `string::npos` is `none`.
* A function that can abort returns a result type with one constructor per
  way out; a function whose only way out besides its return is an exception
  returns an `Option`.
-/

set_option autoImplicit false

namespace Referee

/-! ## Machine integers -/

/-- Conversion of an integer to a 32-bit signed `int` (two's complement wrap-around). -/
def toInt32 (x : Int) : Int := (x + 2147483648) % 4294967296 - 2147483648

/-! ## Container blocks -/

/-- The class `MyBlock`: one member of the container file. -/
structure MyBlock where
  /-- block's size (including header and trailer) -/
  compressed_size : Int
  /-- expected size of the decompressed data -/
  decompressed_size : Int
  /-- offset to the block's header from the beginning of the file -/
  offset : Int
deriving DecidableEq, Repr

/-- Value of a little-endian byte string. -/
def le_value : List UInt8 → Nat
  | [] => 0
  | b :: bs => b.toNat + 256 * le_value bs

/-- Modelled from the spec: `File_trailer` is declared in `lzip.h`, which is not among the
sources. The trailer records the member's total on-disk size and its decompressed payload
size; the layout is the one of the lzip format: 20 bytes, bytes 0-3 the CRC32 of the data,
bytes 4-11 the data size, bytes 12-19 the member size, both little-endian. -/
def File_trailer.size : Nat := 20

/-- Modelled from the spec: `File_trailer::data_size()`, the little-endian value of bytes
4-11 of the trailer (declared in `lzip.h`, not among the sources). -/
def File_trailer.data_size (t : List UInt8) : Nat := le_value ((t.drop 4).take 8)

/-- Modelled from the spec: `File_trailer::member_size()`, the little-endian value of bytes
12-19 of the trailer (declared in `lzip.h`, not among the sources). -/
def File_trailer.member_size (t : List UInt8) : Nat := le_value ((t.drop 12).take 8)

/-! ## The input stream -/

/-- An `ifstream` opened on a file: the bytes of the file, the read position, the
`failbit`, and whether `exceptions(failbit)` is in force. -/
structure IStream where
  data : List UInt8
  cur : Int
  failbit : Bool
  exc : Bool
deriving DecidableEq, Repr

/-- Set `failbit`: throws `ios_base::failure` (`none`) when the exception mask is set. -/
def IStream.setfail (s : IStream) : Option IStream :=
  if s.exc then none else some { s with failbit := true }

/-- The call `seekg(off, cur)`. On a failed stream nothing moves (and the failure is
thrown when the mask is set); a target before the beginning of the file fails; a
target past the end is accepted, as by `lseek`. -/
def IStream.seekg_cur (s : IStream) (off : Int) : Option IStream :=
  if s.failbit then s.setfail
  else if s.cur + off < 0 then s.setfail
  else some { s with cur := s.cur + off }

/-- The call `read(buf, n)`: copies the bytes available at the read position over the
front of `buf`; fewer than `n` bytes set `failbit`. On a failed stream nothing is read. -/
def IStream.read (s : IStream) (buf : List UInt8) (n : Nat) : Option (IStream × List UInt8) :=
  if s.failbit then s.setfail.map (fun s1 => (s1, buf))
  else
    let got := (s.data.drop s.cur.toNat).take n
    let s1 : IStream := { s with cur := s.cur + got.length }
    if got.length < n then s1.setfail.map (fun s2 => (s2, got ++ buf.drop got.length))
    else some (s1, got ++ buf.drop got.length)

/-- The statement `try { f_in.exceptions(f_in.failbit); } catch (...) { cerr << ... }`:
the mask is set; the failure thrown when `failbit` is already set is caught and reported,
and the scan goes on. -/
def IStream.exceptions_failbit (s : IStream) : IStream := { s with exc := true }

/-! ## `InputBuffer::seek_blocks` -/

/-- The ways out of `seek_blocks`. -/
inductive SeekResult where
  /-- the function returned this block list -/
  | blocks (bs : List MyBlock)
  /-- `assert(total == file_len)` failed: the container is corrupt -/
  | assertFailed
  /-- an `ios_base::failure` left the function -/
  | streamFailure
  /-- the scan did not finish within the given number of passes -/
  | outOfFuel
deriving DecidableEq, Repr

/-- The local variables of `seek_blocks` at the head of its loop. -/
structure SeekState where
  f_in : IStream
  trailer : List UInt8
  member_size : Int
  pos : Int
  total : Int
  blocks : List MyBlock
deriving DecidableEq, Repr

/-- One pass through the body of the `while (pos > 0)` loop; `none` when an
`ios_base::failure` leaves the function. -/
def seek_body (st : SeekState) : Option SeekState := do
  let f1 ← st.f_in.seekg_cur (-st.member_size - File_trailer.size)
  let (f2, trailer) ← f1.read st.trailer File_trailer.size
  let member_size := toInt32 (File_trailer.member_size trailer)
  let data_size := File_trailer.data_size trailer
  let pos := st.pos - member_size
  let total := st.total + member_size
  pure { f_in := f2.exceptions_failbit
         trailer := trailer
         member_size := member_size
         pos := pos
         total := total
         blocks := st.blocks ++ [⟨member_size, toInt32 data_size, toInt32 pos⟩] }

/-- The ways out of the loop of `seek_blocks`. -/
inductive LoopResult where
  /-- the loop ended (`pos <= 0`) with these local variables -/
  | done (st : SeekState)
  /-- an `ios_base::failure` left the function -/
  | threw
  /-- the loop did not end within the given number of passes -/
  | outOfFuel
deriving DecidableEq, Repr

/-- The loop `while (pos > 0) { ... }`, run for at most `fuel` passes. -/
def seek_while : Nat → SeekState → LoopResult
  | fuel, st =>
    if st.pos > 0 then
      match fuel with
      | 0 => .outOfFuel
      | fuel + 1 =>
        match seek_body st with
        | none => .threw
        | some st1 => seek_while fuel st1
    else .done st

/-- The local variables of `seek_blocks` when its loop is entered: the cursor is at the
end of the file, `file_len = pos = tellg()`. The trailer buffer is declared without an
initialiser, so its contents `trailer0` are an input. -/
def seek_init (trailer0 : List UInt8) (data : List UInt8) : SeekState :=
  { f_in := { data := data, cur := data.length, failbit := false, exc := false }
    trailer := trailer0
    member_size := 0
    pos := data.length
    total := 0
    blocks := [] }

/-- The function `InputBuffer::seek_blocks` on the file `data`: the loop, then
`assert(total == file_len)`, the reversal of the block list and the return. -/
def seek_blocks (fuel : Nat) (trailer0 : List UInt8) (data : List UInt8) : SeekResult :=
  match seek_while fuel (seek_init trailer0 data) with
  | .done st => if st.total = data.length then .blocks st.blocks.reverse else .assertFailed
  | .threw => .streamFailure
  | .outOfFuel => .outOfFuel

/-- The local variables after one pass of the loop body that read `trailer` and left the
stream in state `f2`. -/
def seek_next (st : SeekState) (f2 : IStream) (trailer : List UInt8) : SeekState :=
  { f_in := f2.exceptions_failbit
    trailer := trailer
    member_size := toInt32 (File_trailer.member_size trailer)
    pos := st.pos - toInt32 (File_trailer.member_size trailer)
    total := st.total + toInt32 (File_trailer.member_size trailer)
    blocks := st.blocks ++ [⟨toInt32 (File_trailer.member_size trailer),
      toInt32 (File_trailer.data_size trailer),
      toInt32 (st.pos - toInt32 (File_trailer.member_size trailer))⟩] }

/-- Sum of the compressed sizes of a block list. -/
def sum_compressed (bs : List MyBlock) : Int := (bs.map MyBlock.compressed_size).sum

/-! ## Well-formed containers -/

/-- Little-endian bytes: the `n` low-order bytes of `v`. -/
def le_bytes : Nat → Nat → List UInt8
  | 0, _ => []
  | n + 1, v => UInt8.ofNat (v % 256) :: le_bytes n (v / 256)

/-- Modelled from the spec: one member of a container, `{header, payload, trailer}`, the
trailer holding the CRC, the decompressed size of the payload and the member's total
on-disk size. -/
structure Member where
  header : List UInt8
  payload : List UInt8
  crc : List UInt8
  data_size : Nat
deriving DecidableEq, Repr

/-- Total on-disk size of a member: header, payload and the 20-byte trailer. -/
def Member.size (m : Member) : Nat := m.header.length + m.payload.length + File_trailer.size

/-- The trailer of a member, as it stands in the file. -/
def Member.trailer (m : Member) : List UInt8 :=
  m.crc ++ le_bytes 8 m.data_size ++ le_bytes 8 m.size

/-- The bytes of a member, as they stand in the file. -/
def Member.bytes (m : Member) : List UInt8 := m.header ++ m.payload ++ m.trailer

/-- A member is well formed when its header has the 6 bytes of the lzip header, its CRC
has 4 bytes, and both sizes fit the 8-byte fields of the trailer. -/
def Member.wf (m : Member) : Prop :=
  m.header.length = 6 ∧ m.crc.length = 4 ∧ m.data_size < 2 ^ 64 ∧ m.size < 2 ^ 64

instance (m : Member) : Decidable m.wf := by unfold Member.wf; infer_instance

/-- Modelled from the spec: a container is a sequence of self-delimiting members. -/
def container : List Member → List UInt8
  | [] => []
  | m :: ms => m.bytes ++ container ms

/-- The block list the spec describes for the members `ms`, the first of them starting at
offset `off`: one block per member in file order, with the member's sizes, each block
starting where the previous one ends. -/
def expected_blocks : Int → List Member → List MyBlock
  | _, [] => []
  | off, m :: ms => ⟨m.size, m.data_size, off⟩ :: expected_blocks (off + m.size) ms

/-- The state of the scan of `container (front ++ back)` when the members of `back` have
been recorded and those of `front` are still to be read. -/
def SeekInv (front back : List Member) (st : SeekState) : Prop :=
  st.f_in.data = container (front ++ back) ∧ st.f_in.failbit = false ∧
  st.f_in.cur = st.pos + st.member_size ∧ st.pos = (container front).length ∧
  st.total = (container back).length ∧ st.blocks = (expected_blocks st.pos back).reverse

/-- The lzip header: magic `LZIP`, version 1, coded dictionary size. -/
def lzip_header : List UInt8 := [76, 90, 73, 80, 1, 12]

/-- A member with a 3-byte payload that decompresses to 5 bytes. -/
def member_a : Member := ⟨lzip_header, [1, 2, 3], [0, 0, 0, 0], 5⟩

/-- A member with a 1-byte payload that decompresses to 9 bytes. -/
def member_b : Member := ⟨lzip_header, [7], [0, 0, 0, 0], 9⟩

/-- A member whose trailer gives a decompressed size of `2^31` bytes. -/
def member_big : Member := ⟨lzip_header, [1], [0, 0, 0, 0], 2147483648⟩

/-- A 20-byte file of zeros: one trailer, reporting a member size of 0. -/
def zero_file : List UInt8 := [0, 0, 0, 0, 0, 0, 0, 0, 0, 0, 0, 0, 0, 0, 0, 0, 0, 0, 0, 0]

/-- A 20-byte file that is one trailer reporting a member size of 40. -/
def long_file : List UInt8 := [0, 0, 0, 0, 0, 0, 0, 0, 0, 0, 0, 0, 40, 0, 0, 0, 0, 0, 0, 0]

/-- The local variables of `seek_blocks` at the end of its loop on `long_file`. -/
def long_file_end : SeekState :=
  { f_in := { data := long_file, cur := 20, failbit := false, exc := true }
    trailer := long_file
    member_size := 40
    pos := -20
    total := 40
    blocks := [⟨40, 0, -20⟩] }

/-! ## The interval index -/

/-- The constant `chromo_min`. -/
def chromo_min : Int := 0

/-- The constant `chromo_max`. -/
def chromo_max : Int := 300000000

/-- Modelled from the spec: a genomic coordinate, a pair `(chromosome, offset)`; the class
is declared outside the sources. -/
structure GenomicCoordinate where
  chromosome : Int
  offset : Int
deriving DecidableEq, Repr

/-- Modelled from the spec: `TrueGenomicInterval`, one tuple of the sidecar index, with
`start`, `end`, `num_alignments` and `is_aligned`; the class is declared outside the
sources. -/
structure TrueGenomicInterval where
  start : GenomicCoordinate
  end_ : GenomicCoordinate
  num_alignments : Nat
  is_aligned : Bool
deriving DecidableEq, Repr

/-- Modelled from the spec: `RawDataInterval`, an indexed block: a container block with
the genomic interval it covers. The class is declared in `IntervalTree.h`, outside the
sources; the fields are in the order of the constructor calls of
`createChromosomeIntervalTree`. -/
structure RawDataInterval where
  byte_offset : Int
  block_size : Int
  decompressed_size : Int
  chromosome : Int
  start : Int
  end_ : Int
  num_alignments : Nat
  is_aligned : Bool
deriving DecidableEq, Repr

/-- Modelled from the spec: `RawDataInterval::isAlignedWithTranscriptStart()`, the
`is_aligned` flag of the block. -/
def RawDataInterval.isAlignedWithTranscriptStart (b : RawDataInterval) : Bool := b.is_aligned

/-- Modelled from the spec: `IntervalTree<int,int>`, declared in `IntervalTree.h`, outside
the sources. The tree built from a list of indexed blocks iterates over them in block
order (`intervals`). -/
structure IntervalTree where
  intervals : List RawDataInterval
deriving DecidableEq, Repr

/-- The block of smallest start among `b` and the blocks of `bs`, the earliest one among
equals. -/
def min_start (b : RawDataInterval) : List RawDataInterval → RawDataInterval
  | [] => b
  | c :: cs => if c.start < b.start then min_start c cs else min_start b cs

/-- Modelled from the spec: `IntervalTree::getFirstInterval()`, the indexed block with
the smallest start on this chromosome; on an empty tree a block whose chromosome is
negative, which is what `loadOverlappingBlock` tests for. -/
def IntervalTree.getFirstInterval (t : IntervalTree) : RawDataInterval :=
  match t.intervals with
  | [] => ⟨-1, -1, -1, -1, -1, -1, 0, false⟩
  | b :: bs => min_start b bs

/-- Modelled from the spec: `IntervalTree::findOverlapping(lo, hi, out)`, the indexed
blocks whose `[start, end]` intersects `[lo, hi]`, in block order. -/
def IntervalTree.findOverlapping (t : IntervalTree) (lo hi : Int) : List RawDataInterval :=
  t.intervals.filter (fun b => decide (b.start ≤ hi ∧ lo ≤ b.end_))

/-- The type `map<chromo_id_t, IntervalTree<int,int>>`: the entries in ascending order of
their keys. -/
abbrev ChromosomeTrees := List (Int × IntervalTree)

/-- The assignment `m[k] = v` of `std::map`: replaces the entry of key `k`, or inserts
it at its place in the order of the keys. -/
def map_assign (k : Int) (v : IntervalTree) : ChromosomeTrees → ChromosomeTrees
  | [] => [(k, v)]
  | (k1, v1) :: rest =>
    if k < k1 then (k, v) :: (k1, v1) :: rest
    else if k = k1 then (k, v) :: rest
    else (k1, v1) :: map_assign k v rest

/-- The lookup `m.find(k)` of `std::map`: `none` stands for `m.end()`. -/
def map_find (k : Int) : ChromosomeTrees → Option IntervalTree
  | [] => none
  | (k1, v1) :: rest => if k = k1 then some v1 else map_find k rest

/-- The function `InputBuffer::createTree`. -/
def createTree (chromo : Int) (chromo_intervals : List RawDataInterval)
    (chromosome_trees : ChromosomeTrees) : ChromosomeTrees :=
  map_assign chromo (IntervalTree.mk chromo_intervals) chromosome_trees

/-- The constructor call made by every `chromo_intervals.emplace_back(...)` of
`createChromosomeIntervalTree`: the offset and sizes of the container block, a
chromosome and a range, and the alignment count and flag of the tuple. -/
def fragment (block : MyBlock) (interval : TrueGenomicInterval) (chromosome start end_ : Int) :
    RawDataInterval :=
  ⟨block.offset, block.compressed_size, block.decompressed_size, chromosome, start, end_,
    interval.num_alignments, interval.is_aligned⟩

/-- The local variables of `createChromosomeIntervalTree` that its loop updates. -/
structure TreeState where
  prev_chromo : Int
  chromo_intervals : List RawDataInterval
  chromosome_trees : ChromosomeTrees
deriving DecidableEq, Repr

/-- The inner loop `while (k < chromo_span) { ... k++; }`, with `n` passes left to run
from the value `k`: one tree of one fragment for each chromosome strictly between the
start and the end of the tuple. -/
def span_loop (block : MyBlock) (interval : TrueGenomicInterval) :
    Nat → Int → ChromosomeTrees → ChromosomeTrees
  | 0, _, trees => trees
  | n + 1, k, trees =>
    span_loop block interval n (k + 1)
      (createTree (interval.start.chromosome + k + 1)
        [fragment block interval (interval.start.chromosome + k + 1) chromo_min chromo_max]
        trees)

/-- The statement `if (prev_chromo != interval.start.chromosome) { ... }` at the head of
the loop body: the running list is sealed into a tree and reset. -/
def tree_seal (st : TreeState) (interval : TrueGenomicInterval) : TreeState :=
  if st.prev_chromo ≠ interval.start.chromosome then
    { prev_chromo := interval.start.chromosome
      chromo_intervals := []
      chromosome_trees := createTree st.prev_chromo st.chromo_intervals st.chromosome_trees }
  else st

/-- The statement `if (interval.start.chromosome == interval.end.chromosome) { ... }
else { ... }` of the loop body: the indexed blocks of the tuple are added. -/
def tree_emit (st : TreeState) (interval : TrueGenomicInterval) (block : MyBlock) : TreeState :=
  if interval.start.chromosome = interval.end_.chromosome then
    { st with chromo_intervals := st.chromo_intervals ++
        [fragment block interval interval.start.chromosome interval.start.offset
          interval.end_.offset] }
  else
    let chromo_span := interval.end_.chromosome - interval.start.chromosome - 1
    let first := st.chromo_intervals ++
      [fragment block interval interval.start.chromosome interval.start.offset chromo_max]
    let trees := createTree interval.start.chromosome first st.chromosome_trees
    { prev_chromo := interval.end_.chromosome
      chromo_intervals :=
        [fragment block interval interval.end_.chromosome chromo_min interval.end_.offset]
      chromosome_trees := span_loop block interval chromo_span.toNat 0 trees }

/-- One pass through the body of the `for` loop of `createChromosomeIntervalTree`, for
the tuple `interval` and the block `block` paired with it. -/
def tree_body (st : TreeState) (interval : TrueGenomicInterval) (block : MyBlock) : TreeState :=
  tree_emit (tree_seal st interval) interval block

/-- The ways out of `createChromosomeIntervalTree`. -/
inductive TreeResult where
  /-- the function returned, leaving these trees -/
  | built (chromosome_trees : ChromosomeTrees)
  /-- `assert(lzip_blocks.size() <= genomic_intervals->size())` failed -/
  | assertFailed
  /-- `genomic_intervals->at(0)` threw `std::out_of_range` -/
  | outOfRange
  /-- `lzip_blocks[i]` was read past the end of the vector (undefined behaviour) -/
  | blockOutOfBounds (i : Nat)
deriving DecidableEq, Repr

/-- The loop `for (int i = 0; i < genomic_intervals->size(); i++)`, from the index `i`
on, over the tuples `i, i+1, ...`; `Sum.inl i` when `lzip_blocks[i]` is past the end. -/
def tree_for (lzip_blocks : List MyBlock) :
    List TrueGenomicInterval → Nat → TreeState → Sum Nat TreeState
  | [], _, st => Sum.inr st
  | interval :: rest, i, st =>
    match lzip_blocks[i]? with
    | none => Sum.inl i
    | some block => tree_for lzip_blocks rest (i + 1) (tree_body st interval block)

/-- The function `InputBuffer::createChromosomeIntervalTree`. -/
def createChromosomeIntervalTree (genomic_intervals : List TrueGenomicInterval)
    (lzip_blocks : List MyBlock) (chromosome_trees : ChromosomeTrees) : TreeResult :=
  if lzip_blocks.length ≤ genomic_intervals.length then
    match genomic_intervals with
    | [] => .outOfRange
    | first :: _ =>
      match tree_for lzip_blocks genomic_intervals 0
          { prev_chromo := first.start.chromosome
            chromo_intervals := []
            chromosome_trees := chromosome_trees } with
      | Sum.inl i => .blockOutOfBounds i
      | Sum.inr st => .built (createTree st.prev_chromo st.chromo_intervals st.chromosome_trees)
  else .assertFailed

/-- The indexed blocks that the spec describes for a tuple spanning the chromosomes `s`
to `e`, in the order of the chromosomes: fragment `j` lies on chromosome `s + j`, the
first one starts at the start offset of the tuple, the last one ends at its end offset,
all other bounds are `0` and `CHROMO_MAX`. -/
def spec_fragments (block : MyBlock) (interval : TrueGenomicInterval) : List RawDataInterval :=
  (List.range (interval.end_.chromosome - interval.start.chromosome + 1).toNat).map
    (fun (j : Nat) => ⟨block.offset, block.compressed_size, block.decompressed_size,
      interval.start.chromosome + (j : Int),
      if j = 0 then interval.start.offset else 0,
      if interval.start.chromosome + (j : Int) = interval.end_.chromosome
      then interval.end_.offset else chromo_max,
      interval.num_alignments, interval.is_aligned⟩)

/-- A tuple from chromosome 0 to chromosome 2. -/
def tuple_a : TrueGenomicInterval := ⟨⟨0, 50000000⟩, ⟨2, 1000000⟩, 0, true⟩

/-- A tuple inside chromosome 2. -/
def tuple_b : TrueGenomicInterval := ⟨⟨2, 1000001⟩, ⟨2, 2000000⟩, 7, false⟩

/-- The first block of a container. -/
def block_a : MyBlock := ⟨36, 100, 0⟩

/-- The second block of a container. -/
def block_b : MyBlock := ⟨40, 120, 36⟩

/-! ## The input buffer -/

/-- The members of the class `InputBuffer` that its operations read and write: the
trees, the queue of blocks still to decompress, and the decompressed bytes. -/
structure InputBuffer where
  no_blocks : Bool
  chromosome_trees : ChromosomeTrees
  block_queue : List RawDataInterval
  bytes : List UInt8
deriving DecidableEq, Repr

/-- The ways out of `loadOverlappingBlock`. -/
inductive LoadResult where
  /-- the function returned `value`, leaving the buffer `buf` and the output argument
  `is_transcript_start` -/
  | returned (buf : InputBuffer) (is_transcript_start : Bool) (value : Int × Nat)
  /-- the function reported that no starting block exists and called `exit(1)` -/
  | exited
  /-- the function read through the pointer `start_block` before assigning it, or took
  the front of an empty queue (undefined behaviour) -/
  | undefinedBehaviour
deriving DecidableEq, Repr

/-- The inner loop `for (auto block : tree.intervals)` of the branch
`at_num_alignments >= 0`: the pair `(start_block, found_block)` when the loop is left.
The pointer `start_block` is taken to hold the block it was last pointed at. -/
def scan_blocks (at_num_alignments : Int) :
    List RawDataInterval → Option RawDataInterval → Option RawDataInterval × Bool
  | [], start_block => (start_block, false)
  | block :: rest, start_block =>
    if (block.num_alignments : Int) < at_num_alignments then
      scan_blocks at_num_alignments rest (some block)
    else (start_block, true)

/-- The outer loop `for (auto tree_p : chromosome_trees)` of the branch
`at_num_alignments >= 0`, left by `if (found_block) break;`. -/
def scan_trees (at_num_alignments : Int) :
    ChromosomeTrees → Option RawDataInterval → Option RawDataInterval × Bool
  | [], start_block => (start_block, false)
  | (_, tree) :: rest, start_block =>
    match scan_blocks at_num_alignments tree.intervals start_block with
    | (start_block1, true) => (start_block1, true)
    | (start_block1, false) => scan_trees at_num_alignments rest start_block1

/-- The statement `if (block_queue.size() == 0) block_queue.push_back(b); else if
(block_queue.back().byte_offset != b.byte_offset) block_queue.push_back(b);`. -/
def push_if_new (block_queue : List RawDataInterval) (b : RawDataInterval) :
    List RawDataInterval :=
  match block_queue.getLast? with
  | none => block_queue ++ [b]
  | some last => if last.byte_offset ≠ b.byte_offset then block_queue ++ [b] else block_queue

/-- The loops of the branch `chromo == -1`: all blocks of all trees, in order, go
through `push_if_new`. -/
def enqueue_all : ChromosomeTrees → List RawDataInterval → List RawDataInterval
  | [], block_queue => block_queue
  | (_, tree) :: rest, block_queue =>
    enqueue_all rest (tree.intervals.foldl push_if_new block_queue)

/-- The function `InputBuffer::loadOverlappingBlock`. The function `decompressBlock`
(a read of the file and a call of the decoder library) is an argument;
`is_transcript_start` is the value of the reference argument at the call. -/
def loadOverlappingBlock (decompressBlock : RawDataInterval → List UInt8) (buf : InputBuffer)
    (chromo start_coord end_coord : Int) (is_transcript_start : Bool)
    (at_num_alignments : Int := -1) : LoadResult :=
  let buf : InputBuffer := { buf with bytes := [], block_queue := [] }
  if at_num_alignments ≥ 0 then
    match scan_trees at_num_alignments buf.chromosome_trees none with
    | (_, false) => .exited
    | (none, true) => .undefinedBehaviour
    | (some start_block, true) =>
      .returned { buf with bytes := buf.bytes ++ decompressBlock start_block }
        start_block.isAlignedWithTranscriptStart
        (start_block.start, start_block.num_alignments)
  else if chromo = -1 then
    match enqueue_all buf.chromosome_trees buf.block_queue with
    | [] => .undefinedBehaviour
    | block :: block_queue =>
      .returned { buf with block_queue := block_queue,
                           bytes := buf.bytes ++ decompressBlock block }
        block.isAlignedWithTranscriptStart (block.start, block.num_alignments)
  else
    match map_find chromo buf.chromosome_trees with
    | none => .returned buf is_transcript_start (-1, 0)
    | some tree =>
      let first_it := tree.getFirstInterval
      if first_it.chromosome < 0 then .returned buf is_transcript_start (-1, 0)
      else
        let actual_start_coord := if start_coord < first_it.start then first_it.start else start_coord
        let is_transcript_start :=
          if start_coord < first_it.start then true else is_transcript_start
        let overlapping := tree.findOverlapping actual_start_coord end_coord
        match overlapping with
        | block :: block_queue =>
          .returned { buf with no_blocks := false, block_queue := block_queue,
                               bytes := buf.bytes ++ decompressBlock block }
            block.isAlignedWithTranscriptStart (block.start, block.num_alignments)
        | [] => .returned { buf with no_blocks := true } is_transcript_start (-1, 0)

/-- The function `InputBuffer::hasMoreBytes`. -/
def hasMoreBytes (buf : InputBuffer) : Bool :=
  decide (buf.bytes.length > 0 ∨ buf.block_queue.length > 0)

/-- All the blocks of all the trees, in the ascending order of the chromosomes and in
block order within each tree. -/
def all_blocks : ChromosomeTrees → List RawDataInterval
  | [] => []
  | (_, tree) :: rest => tree.intervals ++ all_blocks rest

/-- The blocks of a list that are kept after the block `x`: a block is dropped when it
has the file offset of the block kept last. -/
def collapse_from (x : RawDataInterval) : List RawDataInterval → List RawDataInterval
  | [] => []
  | c :: rest =>
    if x.byte_offset = c.byte_offset then collapse_from x rest else c :: collapse_from c rest

/-- A list of blocks with each run of consecutive blocks of one file offset collapsed to
the first block of the run. -/
def collapse_runs : List RawDataInterval → List RawDataInterval
  | [] => []
  | x :: rest => x :: collapse_from x rest

/-- A decoder for the examples: the decoded bytes of a block are its decompressed size in
bytes of value 7. -/
def example_decoder (b : RawDataInterval) : List UInt8 :=
  List.replicate b.decompressed_size.toNat 7

/-- A tuple from chromosome 0 to chromosome 2, whose block is `block_a`. -/
def tuple_c : TrueGenomicInterval := ⟨⟨0, 10⟩, ⟨2, 5⟩, 0, true⟩

/-- A tuple inside chromosome 1, listed after `tuple_c`, whose block is `block_b`. -/
def tuple_d : TrueGenomicInterval := ⟨⟨1, 0⟩, ⟨1, 50⟩, 3, true⟩

/-- The trees built from `tuple_c` and `tuple_d`: the trees of chromosomes 0 and 2 hold a
fragment of `block_a`, the tree of chromosome 1 holds `block_b`. -/
def crossing_trees : ChromosomeTrees :=
  [(0, ⟨[⟨0, 36, 100, 0, 10, 300000000, 0, true⟩]⟩),
   (1, ⟨[⟨36, 40, 120, 1, 0, 50, 3, true⟩]⟩),
   (2, ⟨[⟨0, 36, 100, 2, 0, 5, 0, true⟩]⟩)]

/-- An index of one chromosome and two blocks, the first of them not aligned with a
transcript start. -/
def plain_trees : ChromosomeTrees :=
  [(0, ⟨[⟨0, 36, 2, 0, 100, 200, 0, false⟩, ⟨36, 40, 3, 0, 201, 300, 5, true⟩]⟩)]

/-! ## Reading bytes from the input buffer -/

/-- The function `InputBuffer::readMoreLZIPBlocks`: the block at the front of the queue is
taken off and its decompressed bytes are pushed to the back of the deque; on an empty
queue a message is printed and nothing changes. -/
def readMoreLZIPBlocks (decompressBlock : RawDataInterval → List UInt8) (buf : InputBuffer) :
    InputBuffer :=
  match buf.block_queue with
  | block :: block_queue =>
    { buf with block_queue := block_queue, bytes := buf.bytes ++ decompressBlock block }
  | [] => buf

/-- The ways out of `getNextByte`. -/
inductive ByteResult where
  /-- the function returned the byte `c`, leaving the buffer `buf` -/
  | byte (c : UInt8) (buf : InputBuffer)
  /-- the function took `bytes.front()` of an empty deque (undefined behaviour) -/
  | undefinedBehaviour
deriving DecidableEq, Repr

/-- The function `InputBuffer::getNextByte`. -/
def getNextByte (decompressBlock : RawDataInterval → List UInt8) (buf : InputBuffer) :
    ByteResult :=
  let buf1 := if buf.bytes.length < 1 then readMoreLZIPBlocks decompressBlock buf else buf
  match buf1.bytes with
  | c :: bytes => .byte c { buf1 with bytes := bytes }
  | [] => .undefinedBehaviour

/-- The loop `while (n > 0 && bytes.size() > 0) { local_bytes.push_back(bytes.front());
bytes.pop_front(); n--; }` of `getNextNBytes`: the pair of `local_bytes` and `bytes` when
the loop is left. -/
def take_loop : Int → List UInt8 → List UInt8 → List UInt8 × List UInt8
  | _, [], local_bytes => (local_bytes, [])
  | n, b :: bytes, local_bytes =>
    if n > 0 then take_loop (n - 1) bytes (local_bytes ++ [b]) else (local_bytes, b :: bytes)

/-- The conversion of an `int` to `size_t` made by the comparison `bytes.size() < n`. -/
def to_size_t (n : Int) : Int := n % 18446744073709551616

/-- The function `InputBuffer::getNextNBytes`: the vector returned and the buffer left. -/
def getNextNBytes (decompressBlock : RawDataInterval → List UInt8) (buf : InputBuffer)
    (n : Int) : List UInt8 × InputBuffer :=
  let buf1 :=
    if (buf.bytes.length : Int) < to_size_t n then readMoreLZIPBlocks decompressBlock buf
    else buf
  let (local_bytes, bytes) := take_loop n buf1.bytes []
  (local_bytes, { buf1 with bytes := bytes })

/-- The ways out of a caller's loop `while (hasMoreBytes()) getNextByte()`. -/
inductive DrainResult where
  /-- the loop ended, having read `bytes` and having seen the blocks `decoded` leave the
  queue, in this order -/
  | drained (bytes : List UInt8) (decoded : List RawDataInterval)
  /-- a call of `getNextByte` took the front of an empty deque -/
  | undefinedBehaviour
  /-- the loop did not end within the given number of calls -/
  | outOfFuel
deriving DecidableEq, Repr

/-- The blocks that left the queue between the buffer `before` and the buffer `after`. -/
def dequeued (before after : InputBuffer) : List RawDataInterval :=
  before.block_queue.take (before.block_queue.length - after.block_queue.length)

/-- The session of a caller that calls `getNextByte` while `hasMoreBytes()` is true, for
at most `fuel` calls: the bytes returned, and the blocks taken off the queue (each was
passed to `decompressBlock` when it was taken off). -/
def drain (decompressBlock : RawDataInterval → List UInt8) : Nat → InputBuffer → DrainResult
  | fuel, buf =>
    if hasMoreBytes buf then
      match fuel with
      | 0 => .outOfFuel
      | fuel + 1 =>
        match getNextByte decompressBlock buf with
        | .undefinedBehaviour => .undefinedBehaviour
        | .byte c buf1 =>
          match drain decompressBlock fuel buf1 with
          | .drained bytes decoded => .drained (c :: bytes) (dequeued buf buf1 ++ decoded)
          | .undefinedBehaviour => .undefinedBehaviour
          | .outOfFuel => .outOfFuel
    else .drained [] []

/-- The logical stream of a buffer: the deque followed by the decoded bytes of the
pending blocks in queue order. -/
def logical_stream (decompressBlock : RawDataInterval → List UInt8) (buf : InputBuffer) :
    List UInt8 :=
  buf.bytes ++ (buf.block_queue.map decompressBlock).flatten

/-- A block of the examples that decodes to no byte. -/
def empty_block : RawDataInterval := ⟨76, 36, 0, 0, 301, 400, 9, false⟩

/-- A block of the examples that decodes to two bytes. -/
def two_block : RawDataInterval := ⟨0, 36, 2, 0, 100, 200, 0, false⟩

/-- A block of the examples that decodes to three bytes. -/
def three_block : RawDataInterval := ⟨36, 40, 3, 0, 201, 300, 5, true⟩

/-- The bytes that one call `getNextNBytes(n)` can draw on: the deque, followed by the
decoded bytes of the next pending block when the deque holds fewer than `n` bytes. -/
def within_reach (decompressBlock : RawDataInterval → List UInt8) (buf : InputBuffer)
    (n : Int) : List UInt8 :=
  if (buf.bytes.length : Int) < n then
    buf.bytes ++ ((buf.block_queue.take 1).map decompressBlock).flatten
  else buf.bytes

/-! ## The parsers of `RefereeDecompress.hpp` -/

/-- The index of the first `c` in `s`, if any. -/
def find_char (c : Char) : List Char → Option Nat
  | [] => none
  | x :: xs => if x = c then some 0 else (find_char c xs).map (· + 1)

/-- The call `s.find(c, pos)` of `std::string`: the index of the first `c` at or after
`pos`; `none` stands for `string::npos`. -/
def str_find (c : Char) (s : List Char) (pos : Nat) : Option Nat :=
  (find_char c (s.drop pos)).map (· + pos)

/-- The call `s.substr(pos, len)` of `std::string`, `len = none` standing for
`string::npos`: `none` when `pos > s.size()` (the call throws `std::out_of_range`). -/
def substr (s : List Char) (pos : Nat) (len : Option Nat) : Option (List Char) :=
  if pos > s.length then none
  else
    match len with
    | none => some (s.drop pos)
    | some n => some ((s.drop pos).take n)

/-- The value `i + 1` of type `size_t` for a result `i` of `find`: `npos + 1` wraps
around to 0. -/
def plus_one : Option Nat → Nat
  | none => 0
  | some i => i + 1

/-- The white space that `strtol` and `strtoul` skip (`isspace` in the C locale). -/
def is_space (c : Char) : Bool := decide (c.toNat = 32 ∨ (9 ≤ c.toNat ∧ c.toNat ≤ 13))

/-- The value of a decimal digit. -/
def digit_value (c : Char) : Nat := c.toNat - 48

/-- The value of a string of decimal digits. -/
def digits_value (ds : List Char) : Nat := ds.foldl (fun acc c => acc * 10 + digit_value c) 0

/-- The number read by `strtol` and `strtoul` in base 10 at the front of a string: white
space is skipped, a sign is taken, and the longest run of digits is read; `none` when no
digit is there. -/
def parse_number (s : List Char) : Option Int :=
  let s1 := s.dropWhile is_space
  let s2 := if s1.head? = some '-' ∨ s1.head? = some '+' then s1.tail else s1
  let ds := s2.takeWhile Char.isDigit
  if ds = [] then none
  else if s1.head? = some '-' then some (-(digits_value ds : Int))
  else some (digits_value ds : Int)

/-- The function `std::stoi`: `none` when it throws, `std::invalid_argument` for want of
a digit or `std::out_of_range` for a value that does not fit an `int`. -/
def stoi (s : List Char) : Option Int :=
  match parse_number s with
  | none => none
  | some v => if -2147483648 ≤ v ∧ v ≤ 2147483647 then some v else none

/-- The function `std::stoul`: `none` when it throws, for want of a digit or for a
magnitude that does not fit an `unsigned long`; a negative number is negated in the
unsigned type. -/
def stoul (s : List Char) : Option Nat :=
  match parse_number s with
  | none => none
  | some v =>
    if v.natAbs < 18446744073709551616 then some (v % 18446744073709551616).toNat else none

/-- The ways out of `parseInputInterval`. -/
inductive IntervalResult where
  /-- the function returned `GenomicInterval(chr, start_coord, end_coord)` -/
  | interval (chr start_coord end_coord : Int)
  /-- the function printed `[ERROR] Can not parse the input interval` and called
  `exit(1)` -/
  | parseError
  /-- an exception of `stoi` or of `substr` left the function -/
  | threw
deriving DecidableEq, Repr

/-- The function `parseInputInterval`. -/
def parseInputInterval (location : List Char) : IntervalResult :=
  match str_find ':' location 0 with
  | none => .parseError
  | some idx =>
    match ((substr location 0 (some idx)).bind (fun s => substr s 3 none)).bind stoi with
    | none => .threw
    | some chr =>
      match str_find '-' location idx with
      | none => .parseError
      | some idx2 =>
        match (substr location (idx + 1) (some (idx2 - idx))).bind stoi with
        | none => .threw
        | some start_coord =>
          match (substr location (idx2 + 1) none).bind stoi with
          | none => .threw
          | some end_coord => .interval chr start_coord end_coord

/-- The type `unordered_map<string, shared_ptr<vector<TrueGenomicInterval>>>`: its
entries; no order of the keys is observed. -/
abbrev IntervalMap := List (List Char × List TrueGenomicInterval)

/-- The lookup `map.find(suffix)`: `none` stands for `map.end()`. -/
def interval_map_find (suffix : List Char) : IntervalMap → Option (List TrueGenomicInterval)
  | [] => none
  | (k, v) :: rest => if k = suffix then some v else interval_map_find suffix rest

/-- The statement `if (map.find(suffix) == map.end()) { map[suffix] = new vector; }`. -/
def interval_map_ensure (suffix : List Char) (m : IntervalMap) : IntervalMap :=
  if interval_map_find suffix m = none then m ++ [(suffix, [])] else m

/-- The call `map[suffix]->emplace_back(e)` on a map that has the key `suffix`. -/
def interval_map_push (suffix : List Char) (e : TrueGenomicInterval) : IntervalMap → IntervalMap
  | [] => []
  | (k, v) :: rest =>
    if k = suffix then (k, v ++ [e]) :: rest else (k, v) :: interval_map_push suffix e rest

/-- The body of the loop `while (getline(f_in, line))` of `parseGenomicIntervals`, for one
line; `none` when `stoul` or `substr` throws. The constructor
`TrueGenomicInterval(string, unsigned long)` is declared outside the sources and is the
argument `make_interval`. -/
def parse_line (make_interval : List Char → Nat → TrueGenomicInterval) (m : IntervalMap)
    (line : List Char) : Option IntervalMap :=
  let space := str_find ' ' line 0
  match substr line 0 space with
  | none => none
  | some suffix =>
    let m1 := interval_map_ensure suffix m
    let second_space := str_find ' ' line (plus_one space)
    match (substr line (plus_one space) second_space).bind stoul with
    | none => none
    | some num_alignments =>
      match substr line (plus_one second_space) none with
      | none => none
      | some coordinates =>
        some (interval_map_push suffix (make_interval coordinates num_alignments) m1)

/-- The loop `while (getline(f_in, line))` of `parseGenomicIntervals` over the lines left
to read. -/
def parse_lines (make_interval : List Char → Nat → TrueGenomicInterval) :
    List (List Char) → IntervalMap → Option IntervalMap
  | [], m => some m
  | line :: rest, m =>
    match parse_line make_interval m line with
    | none => none
    | some m1 => parse_lines make_interval rest m1

/-- The function `parseGenomicIntervals` on the lines of the file, as `getline` gives
them; `none` when an exception leaves the function. -/
def parseGenomicIntervals (make_interval : List Char → Nat → TrueGenomicInterval)
    (lines : List (List Char)) : Option IntervalMap :=
  parse_lines make_interval lines []

/-- The decimal digits of `n`, most significant first, for `n < 10 ^ fuel`. -/
def decimal_digits : Nat → Nat → List Char
  | 0, _ => []
  | fuel + 1, n =>
    if n < 10 then [Nat.digitChar n]
    else decimal_digits fuel (n / 10) ++ [Nat.digitChar (n % 10)]

/-- The decimal numeral of `n`, without sign and without leading zeros. -/
def decimal (n : Nat) : List Char := decimal_digits (n + 1) n

/-- The query string `chr<N>:<S>-<E>`. -/
def query_string (N S E : Nat) : List Char :=
  ['c', 'h', 'r'] ++ decimal N ++ ':' :: decimal S ++ '-' :: decimal E

/-- One line of the sidecar index: the stream suffix, the number of alignments, and the
text of the coordinates (everything after the second space). -/
structure IndexLine where
  suffix : List Char
  num_alignments : Nat
  coordinates : List Char
deriving DecidableEq, Repr

/-- The text of a line of the sidecar index:
`<suffix> <num_alignments> <coordinates...>`. -/
def IndexLine.text (l : IndexLine) : List Char :=
  l.suffix ++ ' ' :: decimal l.num_alignments ++ ' ' :: l.coordinates

/-- A line of the sidecar index has the form of the format when its suffix holds no
space and its number of alignments fits an `unsigned long`. -/
def IndexLine.wf (l : IndexLine) : Prop :=
  ' ' ∉ l.suffix ∧ l.num_alignments < 18446744073709551616

instance (l : IndexLine) : Decidable l.wf := by unfold IndexLine.wf; infer_instance

/-- The entries that the lines of suffix `suffix` give, in file order. -/
def grouped (make_interval : List Char → Nat → TrueGenomicInterval) (ls : List IndexLine)
    (suffix : List Char) : List TrueGenomicInterval :=
  (ls.filter (fun l => decide (l.suffix = suffix))).map
    (fun l => make_interval l.coordinates l.num_alignments)

/-- A constructor for the examples: it keeps the number of alignments and the length of
the text of the coordinates. -/
def example_interval (coordinates : List Char) (num_alignments : Nat) : TrueGenomicInterval :=
  ⟨⟨0, coordinates.length⟩, ⟨0, 0⟩, num_alignments, false⟩

/-- Three lines of a sidecar index, for two streams. -/
def example_lines : List IndexLine :=
  [⟨".offs.lz".toList, 0, "0:100-0:200 1".toList⟩,
   ⟨".edits.lz".toList, 0, "0:100-0:150 1".toList⟩,
   ⟨".offs.lz".toList, 12, "0:201-1:30 0".toList⟩]

/-! ## Invariants of the index build -/

/-- Every tree of the map holds only blocks whose chromosome is the key of the tree. -/
def keyed (trees : ChromosomeTrees) : Prop :=
  ∀ p ∈ trees, ∀ b ∈ p.2.intervals, b.chromosome = p.1

/-- The invariant of the loop of `createChromosomeIntervalTree`: the trees are keyed by
the chromosome of their blocks, and the running list holds blocks of `prev_chromo`. -/
def TreeInv (st : TreeState) : Prop :=
  keyed st.chromosome_trees ∧ ∀ b ∈ st.chromo_intervals, b.chromosome = st.prev_chromo

/-! ## The calls of `createTree` made by the index build -/

/-- The calls of `createTree` made by the inner loop `while (k < chromo_span)`, with `n`
passes left to run from the value `k`: the chromosome and the list given to each call,
in the order of the calls. -/
def seal_log_span (block : MyBlock) (interval : TrueGenomicInterval) :
    Nat → Int → List (Int × List RawDataInterval)
  | 0, _ => []
  | n + 1, k =>
    (interval.start.chromosome + k + 1,
      [fragment block interval (interval.start.chromosome + k + 1) chromo_min chromo_max]) ::
      seal_log_span block interval n (k + 1)

/-- The calls of `createTree` made by one pass through the body of the `for` loop, from
the state `st`: the call at the head of the body when the start chromosome changes, and
the calls of the `else` branch for a tuple that spans several chromosomes. -/
def seal_log_body (st : TreeState) (interval : TrueGenomicInterval) (block : MyBlock) :
    List (Int × List RawDataInterval) :=
  (if st.prev_chromo ≠ interval.start.chromosome then [(st.prev_chromo, st.chromo_intervals)]
   else []) ++
  (if interval.start.chromosome = interval.end_.chromosome then []
   else
     (interval.start.chromosome,
       (tree_seal st interval).chromo_intervals ++
         [fragment block interval interval.start.chromosome interval.start.offset
           chromo_max]) ::
       seal_log_span block interval
         (interval.end_.chromosome - interval.start.chromosome - 1).toNat 0)

/-- The calls of `createTree` made by the `for` loop from the index `i` on. -/
def seal_log_for (lzip_blocks : List MyBlock) :
    List TrueGenomicInterval → Nat → TreeState → List (Int × List RawDataInterval)
  | [], _, _ => []
  | interval :: rest, i, st =>
    match lzip_blocks[i]? with
    | none => []
    | some block =>
      seal_log_body st interval block ++
        seal_log_for lzip_blocks rest (i + 1) (tree_body st interval block)

/-- All the calls of `createTree` made by `createChromosomeIntervalTree` when it returns:
those of the loop, then the call that follows the loop. -/
def seal_log (genomic_intervals : List TrueGenomicInterval) (lzip_blocks : List MyBlock)
    (chromosome_trees : ChromosomeTrees) : List (Int × List RawDataInterval) :=
  match genomic_intervals with
  | [] => []
  | first :: _ =>
    match tree_for lzip_blocks genomic_intervals 0
        ⟨first.start.chromosome, [], chromosome_trees⟩ with
    | Sum.inl _ => []
    | Sum.inr st =>
      seal_log_for lzip_blocks genomic_intervals 0
          ⟨first.start.chromosome, [], chromosome_trees⟩ ++
        [(st.prev_chromo, st.chromo_intervals)]

/-- The trees left by a sequence of calls of `createTree`. -/
def replay (log : List (Int × List RawDataInterval)) (trees : ChromosomeTrees) :
    ChromosomeTrees :=
  log.foldl (fun m p => createTree p.1 p.2 m) trees

/-! ## The index that the build leaves for ordered tuples -/

/-- The tuples have non-decreasing chromosomes from `lo` on: each tuple starts on a
chromosome at or after `lo`, ends on a chromosome at or after the one it starts on, and
is followed by tuples that start at or after the chromosome it ends on. -/
def ordered_from : Int → List TrueGenomicInterval → Prop
  | _, [] => True
  | lo, t :: rest =>
    lo ≤ t.start.chromosome ∧ t.start.chromosome ≤ t.end_.chromosome ∧
      ordered_from t.end_.chromosome rest

/-- The chromosomes of a tuple list are non-decreasing. -/
def chromosomes_ordered : List TrueGenomicInterval → Prop
  | [] => True
  | t :: rest => ordered_from t.start.chromosome (t :: rest)

instance ordered_from_decidable :
    ∀ (lo : Int) (tuples : List TrueGenomicInterval), Decidable (ordered_from lo tuples)
  | _, [] => isTrue trivial
  | lo, t :: rest =>
    have := ordered_from_decidable t.end_.chromosome rest
    inferInstanceAs (Decidable (lo ≤ t.start.chromosome ∧
      t.start.chromosome ≤ t.end_.chromosome ∧ ordered_from t.end_.chromosome rest))

instance chromosomes_ordered_decidable :
    ∀ (tuples : List TrueGenomicInterval), Decidable (chromosomes_ordered tuples)
  | [] => isTrue trivial
  | t :: rest => inferInstanceAs (Decidable (ordered_from t.start.chromosome (t :: rest)))

/-- The chromosome `c` lies in the range of chromosomes of the tuple. -/
def covers (c : Int) (interval : TrueGenomicInterval) : Bool :=
  decide (interval.start.chromosome ≤ c ∧ c ≤ interval.end_.chromosome)

/-- The indexed block that the tuple and block `p` give on the chromosome `c`, if the
tuple covers `c`: it starts at the start offset of the tuple on its start chromosome and
at 0 elsewhere, and ends at the end offset of the tuple on its end chromosome and at
`CHROMO_MAX` elsewhere. -/
def frag_on (c : Int) (p : TrueGenomicInterval × MyBlock) : Option RawDataInterval :=
  if covers c p.1 then
    some (fragment p.2 p.1 c
      (if c = p.1.start.chromosome then p.1.start.offset else chromo_min)
      (if c = p.1.end_.chromosome then p.1.end_.offset else chromo_max))
  else none

/-- The indexed blocks on the chromosome `c` of a list of tuples with their blocks, in
the order of the tuples. -/
def frags_on (c : Int) (pairs : List (TrueGenomicInterval × MyBlock)) : List RawDataInterval :=
  pairs.filterMap (frag_on c)

/-- The entry of the map for a chromosome whose indexed blocks are `l`, when the entry
was `old` before the build: the tree of `l`, or the old entry when `l` is empty. -/
def tree_of (old : Option IntervalTree) (l : List RawDataInterval) : Option IntervalTree :=
  if l = [] then old else some ⟨l⟩

/-- The state of the loop of `createChromosomeIntervalTree`, started on the map `init`,
when the tuples of `done`, of non-decreasing chromosomes, have been walked: below
`prev_chromo` every chromosome has the tree of its blocks, from `prev_chromo` on the map
is as it was, and the running list holds the blocks on `prev_chromo`. -/
def BuildInv (init : ChromosomeTrees) (done : List (TrueGenomicInterval × MyBlock))
    (st : TreeState) : Prop :=
  (∀ c, c < st.prev_chromo →
    map_find c st.chromosome_trees = tree_of (map_find c init) (frags_on c done)) ∧
  (∀ c, st.prev_chromo ≤ c → map_find c st.chromosome_trees = map_find c init) ∧
  st.chromo_intervals = frags_on st.prev_chromo done ∧
  (∀ p ∈ done, p.1.end_.chromosome ≤ st.prev_chromo)


/-! # Lemmas and theorems -/

/-! ## The container reader -/

theorem sum_compressed_append (xs ys : List MyBlock) :
    sum_compressed (xs ++ ys) = sum_compressed xs + sum_compressed ys := by
  simp [sum_compressed]

theorem sum_compressed_reverse (xs : List MyBlock) :
    sum_compressed xs.reverse = sum_compressed xs := by
  simp [sum_compressed, List.sum_reverse]

theorem seek_body_of_eq (st : SeekState) (f1 f2 : IStream) (trailer : List UInt8)
    (h1 : st.f_in.seekg_cur (-st.member_size - File_trailer.size) = some f1)
    (h2 : f1.read st.trailer File_trailer.size = some (f2, trailer)) :
    seek_body st = some (seek_next st f2 trailer) := by
  unfold seek_body
  rw [h1]
  simp only [Option.bind_eq_bind, Option.some_bind]
  rw [h2]
  rfl

theorem seek_body_eq_some (st st1 : SeekState) (h : seek_body st = some st1) :
    ∃ f1 f2 trailer, st.f_in.seekg_cur (-st.member_size - File_trailer.size) = some f1 ∧
      f1.read st.trailer File_trailer.size = some (f2, trailer) ∧
      st1 = seek_next st f2 trailer := by
  unfold seek_body at h
  cases h1 : st.f_in.seekg_cur (-st.member_size - File_trailer.size) with
  | none => rw [h1] at h; exact absurd h (by simp)
  | some f1 =>
    rw [h1] at h
    simp only [Option.bind_eq_bind, Option.some_bind] at h
    cases h2 : f1.read st.trailer File_trailer.size with
    | none => rw [h2] at h; exact absurd h (by simp)
    | some p =>
      obtain ⟨f2, trailer⟩ := p
      rw [h2] at h
      exact ⟨f1, f2, trailer, rfl, h2, (Option.some.inj h).symm⟩

theorem sum_compressed_snoc (xs : List MyBlock) (m d p : Int) :
    sum_compressed (xs ++ [⟨m, d, p⟩]) = sum_compressed xs + m := by
  simp [sum_compressed]

theorem seek_next_total (st : SeekState) (f2 : IStream) (trailer : List UInt8) :
    (seek_next st f2 trailer).total = st.total + toInt32 (File_trailer.member_size trailer) := rfl

theorem seek_next_blocks (st : SeekState) (f2 : IStream) (trailer : List UInt8) :
    (seek_next st f2 trailer).blocks = st.blocks ++ [⟨toInt32 (File_trailer.member_size trailer),
      toInt32 (File_trailer.data_size trailer),
      toInt32 (st.pos - toInt32 (File_trailer.member_size trailer))⟩] := rfl

theorem seek_next_pos (st : SeekState) (f2 : IStream) (trailer : List UInt8) :
    (seek_next st f2 trailer).pos = st.pos - toInt32 (File_trailer.member_size trailer) := rfl

theorem seek_next_member_size (st : SeekState) (f2 : IStream) (trailer : List UInt8) :
    (seek_next st f2 trailer).member_size = toInt32 (File_trailer.member_size trailer) := rfl

theorem seek_next_arith (a p m : Int) : a + m + (p - m) = a + p := by omega

theorem seek_body_total (st st1 : SeekState) (h : seek_body st = some st1)
    (hinv : st.total = sum_compressed st.blocks) : st1.total = sum_compressed st1.blocks := by
  obtain ⟨f1, f2, trailer, -, -, rfl⟩ := seek_body_eq_some st st1 h
  rw [seek_next_total, seek_next_blocks, sum_compressed_snoc, hinv]


theorem seek_while_unfold (fuel : Nat) (st : SeekState) :
    seek_while fuel st =
      if st.pos > 0 then
        match fuel with
        | 0 => .outOfFuel
        | fuel + 1 =>
          match seek_body st with
          | none => .threw
          | some st1 => seek_while fuel st1
      else .done st := by
  cases fuel <;> rfl

theorem seek_while_done (fuel : Nat) (st : SeekState) (h : ¬ st.pos > 0) :
    seek_while fuel st = .done st := by
  rw [seek_while_unfold, if_neg h]

theorem seek_while_step (fuel : Nat) (st st1 : SeekState) (h : st.pos > 0)
    (hb : seek_body st = some st1) : seek_while (fuel + 1) st = seek_while fuel st1 := by
  rw [seek_while_unfold, if_pos h]
  simp only [hb]

theorem seek_while_throw (fuel : Nat) (st : SeekState) (h : st.pos > 0)
    (hb : seek_body st = none) : seek_while (fuel + 1) st = .threw := by
  rw [seek_while_unfold, if_pos h]
  simp only [hb]

theorem seek_while_zero (st : SeekState) (h : st.pos > 0) :
    seek_while 0 st = .outOfFuel := by
  rw [seek_while_unfold, if_pos h]

/-- At the end of the loop `total` is the sum of the sizes recorded in `blocks`, and
`pos` is what is left of the file length. -/
theorem seek_while_total (file_len : Int) (fuel : Nat) (st st2 : SeekState)
    (hinv : st.total = sum_compressed st.blocks ∧ st.total + st.pos = file_len)
    (h : seek_while fuel st = .done st2) :
    st2.total = sum_compressed st2.blocks ∧ st2.total + st2.pos = file_len := by
  induction fuel generalizing st with
  | zero =>
    by_cases hp : st.pos > 0
    · rw [seek_while_zero _ hp] at h; exact absurd h (by simp)
    · rw [seek_while_done _ _ hp] at h
      rw [← LoopResult.done.inj h]; exact hinv
  | succ n ih =>
    by_cases hp : st.pos > 0
    · cases hb : seek_body st with
      | none => rw [seek_while_throw _ _ hp hb] at h; exact absurd h (by simp)
      | some st1 =>
        rw [seek_while_step _ _ _ hp hb] at h
        refine ih st1 ⟨seek_body_total st st1 hb hinv.1, ?_⟩ h
        obtain ⟨f1, f2, trailer, -, -, rfl⟩ := seek_body_eq_some st st1 hb
        rw [seek_next_total, seek_next_pos, ← hinv.2]
        exact seek_next_arith _ _ _
    · rw [seek_while_done _ _ hp] at h
      rw [← LoopResult.done.inj h]; exact hinv

theorem seek_init_inv (trailer0 data : List UInt8) :
    (seek_init trailer0 data).total = sum_compressed (seek_init trailer0 data).blocks ∧
      (seek_init trailer0 data).total + (seek_init trailer0 data).pos = data.length := by
  constructor
  · rfl
  · show (0 : Int) + (data.length : Int) = data.length
    exact zero_add _

theorem seek_blocks_of_done (fuel : Nat) (trailer0 data : List UInt8) (st : SeekState)
    (h : seek_while fuel (seek_init trailer0 data) = .done st) :
    seek_blocks fuel trailer0 data =
      if st.total = data.length then .blocks st.blocks.reverse else .assertFailed := by
  unfold seek_blocks
  rw [h]

theorem seek_blocks_eq_blocks (fuel : Nat) (trailer0 data : List UInt8) (bs : List MyBlock)
    (h : seek_blocks fuel trailer0 data = .blocks bs) :
    ∃ st, seek_while fuel (seek_init trailer0 data) = .done st ∧ st.total = data.length ∧
      bs = st.blocks.reverse := by
  unfold seek_blocks at h
  cases hw : seek_while fuel (seek_init trailer0 data) with
  | done st =>
    rw [hw] at h
    simp only at h
    by_cases ht : st.total = data.length
    · rw [if_pos ht] at h
      exact ⟨st, rfl, ht, (SeekResult.blocks.inj h).symm⟩
    · rw [if_neg ht] at h; exact absurd h (by simp)
  | threw => rw [hw] at h; exact absurd h (by simp)
  | outOfFuel => rw [hw] at h; exact absurd h (by simp)

theorem length_le_bytes (n v : Nat) : (le_bytes n v).length = n := by
  induction n generalizing v with
  | zero => rfl
  | succ n ih => simp [le_bytes, ih]

theorem le_value_le_bytes (n v : Nat) : le_value (le_bytes n v) = v % 256 ^ n := by
  induction n generalizing v with
  | zero => simp [le_bytes, le_value, Nat.mod_one]
  | succ n ih =>
    have h1 : (UInt8.ofNat (v % 256)).toNat = v % 256 := by
      exact UInt8.toNat_ofNat_of_lt (Nat.mod_lt _ (by decide))
    simp only [le_bytes, le_value, ih, h1]
    rw [pow_succ, mul_comm (256 ^ n) 256, Nat.mod_mul]

theorem toInt32_of_lt (n : Nat) (h : n < 2147483648) : toInt32 (n : Int) = n := by
  unfold toInt32
  omega

/-- The trailer of a well-formed member decodes to the member's size. -/
theorem member_size_trailer (m : Member) (hwf : m.wf) (junk : List UInt8) :
    File_trailer.member_size (m.trailer ++ junk) = m.size := by
  obtain ⟨-, hc, -, hs⟩ := hwf
  unfold File_trailer.member_size Member.trailer
  have h12 : (m.crc ++ le_bytes 8 m.data_size).length = 12 := by
    simp [length_le_bytes, hc]
  rw [List.append_assoc (m.crc ++ le_bytes 8 m.data_size), List.drop_left' h12,
    List.take_left' (length_le_bytes 8 m.size), le_value_le_bytes]
  exact Nat.mod_eq_of_lt hs

/-- The trailer of a well-formed member decodes to the member's data size. -/
theorem data_size_trailer (m : Member) (hwf : m.wf) (junk : List UInt8) :
    File_trailer.data_size (m.trailer ++ junk) = m.data_size := by
  obtain ⟨-, hc, hd, -⟩ := hwf
  unfold File_trailer.data_size Member.trailer
  rw [List.append_assoc, List.append_assoc, List.drop_left' hc,
    List.take_left' (length_le_bytes 8 m.data_size), le_value_le_bytes]
  exact Nat.mod_eq_of_lt hd

theorem length_trailer (m : Member) (hwf : m.wf) : m.trailer.length = 20 := by
  obtain ⟨-, hc, -, -⟩ := hwf
  simp [Member.trailer, length_le_bytes, hc]

theorem length_bytes (m : Member) (hwf : m.wf) : m.bytes.length = m.size := by
  simp [Member.bytes, Member.size, length_trailer m hwf, File_trailer.size, Nat.add_assoc]


theorem container_append (xs ys : List Member) :
    container (xs ++ ys) = container xs ++ container ys := by
  induction xs with
  | nil => rfl
  | cons m xs ih => simp [container, ih]

theorem container_singleton (m : Member) : container [m] = m.bytes := by
  simp [container]

theorem seekg_cur_ok (s : IStream) (off : Int) (hf : s.failbit = false) (h : 0 ≤ s.cur + off) :
    s.seekg_cur off = some { s with cur := s.cur + off } := by
  unfold IStream.seekg_cur
  rw [hf, if_neg (by simp), if_neg (by omega)]

theorem read_ok (s : IStream) (buf front t back : List UInt8) (hf : s.failbit = false)
    (hd : s.data = front ++ t ++ back) (hc : s.cur = front.length) (ht : t.length = 20) :
    s.read buf 20 = some ({ s with cur := s.cur + 20 }, t ++ buf.drop 20) := by
  have hgot : (s.data.drop s.cur.toNat).take 20 = t := by
    rw [hd, hc, Int.toNat_ofNat, List.append_assoc, List.drop_left, ← ht, List.take_left]
  unfold IStream.read
  rw [hf, if_neg (by simp)]
  simp only [hgot, ht, lt_irrefl, if_false, Nat.cast_ofNat]

theorem seek_next_f_in (st : SeekState) (f2 : IStream) (trailer : List UInt8) :
    (seek_next st f2 trailer).f_in = f2.exceptions_failbit := rfl

theorem seek_body_member (front back : List Member) (m : Member) (st : SeekState)
    (hinv : SeekInv (front ++ [m]) back st) (hwf : m.wf) (hds : m.data_size < 2147483648)
    (hlen : (container (front ++ [m] ++ back)).length < 2147483648) :
    ∃ st1, seek_body st = some st1 ∧ SeekInv front (m :: back) st1 ∧ 0 < st.pos := by
  obtain ⟨hdata, hfail, hcur, hpos, htotal, hblocks⟩ := hinv
  have hlb := length_bytes m hwf
  have hlt := length_trailer m hwf
  have hsz : m.size = m.header.length + m.payload.length + 20 := rfl
  rw [container_append, container_singleton, List.length_append, hlb] at hpos
  rw [container_append, container_append, container_singleton, List.length_append,
    List.length_append, hlb] at hlen
  have hoff : st.f_in.cur + (-st.member_size - (File_trailer.size : Nat)) =
      ((container front ++ m.header ++ m.payload).length : Nat) := by
    simp only [File_trailer.size, List.length_append]; push_cast; omega
  have hseek := seekg_cur_ok st.f_in (-st.member_size - File_trailer.size) hfail
    (by rw [hoff]; exact Int.natCast_nonneg _)
  have hread := read_ok { st.f_in with cur := st.f_in.cur + (-st.member_size - File_trailer.size) }
    st.trailer (container front ++ m.header ++ m.payload) m.trailer (container back) hfail
    (by
      show st.f_in.data = _
      rw [hdata, container_append, container_append, container_singleton, Member.bytes]
      simp only [List.append_assoc])
    hoff hlt
  have hpos0 : 0 < st.pos := by omega
  refine ⟨_, seek_body_of_eq st _ _ _ hseek hread, ?_, hpos0⟩
  have h31 : (container front).length < 2147483648 := by omega
  have hm31 : m.size < 2147483648 := by omega
  have hp : st.pos - (m.size : Int) = ((container front).length : Nat) := by omega
  have hcur1 : st.f_in.cur + (-st.member_size - (File_trailer.size : Nat)) + (20 : Nat) =
      ((container front).length : Nat) + (m.size : Nat) := by
    rw [hoff]; simp only [List.length_append]; push_cast; omega
  have htot1 : st.total + (m.size : Int) = ((container (m :: back)).length : Nat) := by
    rw [htotal]; simp only [container, List.length_append, hlb]; push_cast; omega
  have hms : toInt32 (File_trailer.member_size (m.trailer ++ List.drop 20 st.trailer)) = m.size := by
    rw [member_size_trailer m hwf, toInt32_of_lt _ hm31]
  have hdsz : toInt32 (File_trailer.data_size (m.trailer ++ List.drop 20 st.trailer)) =
      m.data_size := by
    rw [data_size_trailer m hwf, toInt32_of_lt _ hds]
  refine ⟨?_, ?_, ?_, ?_, ?_, ?_⟩
  · rw [seek_next_f_in]
    show st.f_in.data = _
    rw [hdata]; simp only [List.append_assoc, List.singleton_append]
  · rw [seek_next_f_in]; exact hfail
  · rw [seek_next_pos, seek_next_member_size, seek_next_f_in, hms, hp]
    exact hcur1
  · rw [seek_next_pos, hms]; exact hp
  · rw [seek_next_total, hms]; exact htot1
  · rw [seek_next_blocks, seek_next_pos, hms, hdsz, hblocks, hp, toInt32_of_lt _ h31]
    simp only [expected_blocks, List.reverse_cons]
    rw [hpos]; push_cast; rfl



theorem seek_while_container (front : List Member) :
    ∀ (back : List Member) (fuel : Nat) (st : SeekState), SeekInv front back st →
      (∀ m ∈ front, m.wf ∧ m.data_size < 2147483648) →
      (container (front ++ back)).length < 2147483648 → front.length ≤ fuel →
      ∃ st2, seek_while fuel st = .done st2 ∧
        st2.total = ((container (front ++ back)).length : Nat) ∧
        st2.blocks.reverse = expected_blocks 0 (front ++ back) := by
  induction front using List.reverseRecOn with
  | nil =>
    intro back fuel st hinv _ _ _
    obtain ⟨-, -, -, hpos, htotal, hblocks⟩ := hinv
    have hp0 : st.pos = 0 := by rw [hpos]; rfl
    refine ⟨st, seek_while_done _ _ (by rw [hp0]; exact lt_irrefl _), ?_, ?_⟩
    · rw [List.nil_append]; exact htotal
    · rw [hblocks, List.reverse_reverse, hp0, List.nil_append]
  | append_singleton xs m ih =>
    intro back fuel st hinv hwf hlen hfuel
    have hm := hwf m (by simp)
    obtain ⟨st1, hbody, hinv1, hpos⟩ := seek_body_member xs back m st hinv hm.1 hm.2 hlen
    cases fuel with
    | zero => simp at hfuel
    | succ n =>
      rw [seek_while_step _ _ _ hpos hbody]
      have hl : xs ++ [m] ++ back = xs ++ m :: back := by simp
      rw [hl] at hlen ⊢
      exact ih (m :: back) n st1 hinv1 (fun x hx => hwf x (by simp [hx])) hlen
        (by simp at hfuel; exact hfuel)

theorem seek_init_SeekInv (trailer0 : List UInt8) (ms : List Member) :
    SeekInv ms [] (seek_init trailer0 (container ms)) := by
  refine ⟨?_, rfl, ?_, rfl, rfl, rfl⟩
  · show container ms = container (ms ++ [])
    rw [List.append_nil]
  · show ((container ms).length : Int) = (container ms).length + 0
    rw [add_zero]

/-- On a well-formed container whose sizes fit an `int`, `seek_blocks` returns the block
list the spec describes. -/
theorem seek_blocks_container (ms : List Member) (fuel : Nat) (trailer0 : List UInt8)
    (hwf : ∀ m ∈ ms, m.wf ∧ m.data_size < 2147483648)
    (hlen : (container ms).length < 2147483648) (hfuel : ms.length ≤ fuel) :
    seek_blocks fuel trailer0 (container ms) = .blocks (expected_blocks 0 ms) := by
  obtain ⟨st2, hw, ht, hb⟩ := seek_while_container ms [] fuel _
    (seek_init_SeekInv trailer0 ms) hwf (by rw [List.append_nil]; exact hlen) hfuel
  rw [List.append_nil] at ht hb
  rw [seek_blocks_of_done _ _ _ _ hw, if_pos ht, hb]

theorem length_expected_blocks (off : Int) (ms : List Member) :
    (expected_blocks off ms).length = ms.length := by
  induction ms generalizing off with
  | nil => rfl
  | cons m ms ih => simp [expected_blocks, ih]

theorem expected_blocks_sizes (off : Int) (ms : List Member) (i : Nat) (m : Member)
    (h : ms[i]? = some m) :
    ∃ b, (expected_blocks off ms)[i]? = some b ∧ b.compressed_size = m.size ∧
      b.decompressed_size = m.data_size := by
  induction ms generalizing off i with
  | nil => simp at h
  | cons x xs ih =>
    cases i with
    | zero =>
      simp only [List.getElem?_cons_zero, Option.some.injEq] at h
      subst h
      exact ⟨⟨x.size, x.data_size, off⟩, by simp [expected_blocks], rfl, rfl⟩
    | succ j =>
      simp only [List.getElem?_cons_succ] at h
      obtain ⟨b, hb, h1, h2⟩ := ih (off + x.size) j h
      exact ⟨b, by simpa [expected_blocks] using hb, h1, h2⟩

theorem expected_blocks_offsets (off : Int) (ms : List Member) (i : Nat) (b c : MyBlock)
    (hb : (expected_blocks off ms)[i]? = some b) (hc : (expected_blocks off ms)[i + 1]? = some c) :
    c.offset = b.offset + b.compressed_size := by
  induction ms generalizing off i with
  | nil => simp [expected_blocks] at hb
  | cons x xs ih =>
    cases i with
    | zero =>
      cases xs with
      | nil => simp [expected_blocks] at hc
      | cons y ys =>
        simp only [expected_blocks, List.getElem?_cons_zero, Option.some.injEq, zero_add,
          List.getElem?_cons_succ] at hb hc
        subst hb; subst hc; rfl
    | succ j =>
      simp only [expected_blocks, List.getElem?_cons_succ] at hb hc
      exact ih _ j hb hc

theorem expected_blocks_head (off : Int) (ms : List Member) (b : MyBlock)
    (hb : (expected_blocks off ms)[0]? = some b) : b.offset = off := by
  cases ms with
  | nil => simp [expected_blocks] at hb
  | cons x xs =>
    simp only [expected_blocks, List.getElem?_cons_zero, Option.some.injEq] at hb
    subst hb; rfl


theorem member_size_zero_file (junk : List UInt8) :
    File_trailer.member_size (zero_file ++ junk) = 0 := by
  simp [File_trailer.member_size, zero_file, le_value]

theorem toInt32_zero : toInt32 ((0 : Nat) : Int) = 0 := by decide

theorem seek_while_zero_file (fuel : Nat) :
    ∀ st : SeekState, st.f_in.data = zero_file → st.f_in.failbit = false → st.f_in.cur = 20 →
      st.pos = 20 → st.member_size = 0 → seek_while fuel st = .outOfFuel := by
  induction fuel with
  | zero =>
    intro st _ _ _ hpos _
    exact seek_while_zero st (by rw [hpos]; decide)
  | succ n ih =>
    intro st hdata hfail hcur hpos hms
    have hoff : st.f_in.cur + (-st.member_size - (File_trailer.size : Nat)) = 0 := by
      rw [hcur, hms]; rfl
    have hseek := seekg_cur_ok st.f_in (-st.member_size - File_trailer.size) hfail
      (by rw [hoff])
    have hread := read_ok
      { st.f_in with cur := st.f_in.cur + (-st.member_size - File_trailer.size) }
      st.trailer [] zero_file [] hfail (by show st.f_in.data = _; rw [hdata]; rfl) hoff rfl
    rw [seek_while_step n st _ (by rw [hpos]; decide) (seek_body_of_eq st _ _ _ hseek hread)]
    apply ih
    · rw [seek_next_f_in]; exact hdata
    · rw [seek_next_f_in]; exact hfail
    · rw [seek_next_f_in]
      show st.f_in.cur + (-st.member_size - (File_trailer.size : Nat)) + 20 = 20
      rw [hoff]; rfl
    · rw [seek_next_pos, member_size_zero_file, toInt32_zero, hpos]; rfl
    · rw [seek_next_member_size, member_size_zero_file, toInt32_zero]

/-- A trailer that reports a member size larger than the bytes that precede its end ends
the loop at once, with `pos` negative. -/
theorem seek_while_too_large (fuel : Nat) (st st1 : SeekState) (hpos : st.pos > 0)
    (hb : seek_body st = some st1) (hlarge : st1.member_size > st.pos) :
    seek_while (fuel + 1) st = .done st1 ∧ st1.pos < 0 := by
  obtain ⟨f1, f2, trailer, -, -, rfl⟩ := seek_body_eq_some st _ hb
  rw [seek_next_member_size] at hlarge
  have hneg : (seek_next st f2 trailer).pos < 0 := by
    rw [seek_next_pos]; exact sub_neg.mpr hlarge
  rw [seek_while_step fuel st _ hpos hb]
  exact ⟨seek_while_done _ _ (not_lt.mpr (le_of_lt hneg)), hneg⟩

/-! ### The claims on the container reader -/

/-- C1. Whenever `seek_blocks` returns a block list, the compressed sizes of the returned
blocks sum to the byte length of the file. -/
theorem seek_blocks_sum_compressed (fuel : Nat) (trailer0 data : List UInt8)
    (bs : List MyBlock) (h : seek_blocks fuel trailer0 data = .blocks bs) :
    (bs.map MyBlock.compressed_size).sum = (data.length : Int) := by
  obtain ⟨st, hw, ht, rfl⟩ := seek_blocks_eq_blocks fuel trailer0 data bs h
  have hinv := seek_while_total data.length fuel _ st (seek_init_inv trailer0 data) hw
  have hs := sum_compressed_reverse st.blocks
  unfold sum_compressed at hs hinv
  rw [hs, ← hinv.1, ht]

/-- Witness of C1: on the two-member container the two blocks returned have sizes 29 and
27, the file has 56 bytes. -/
theorem seek_blocks_sum_compressed_witness :
    seek_blocks 2 [] (container [member_a, member_b]) = .blocks [⟨29, 5, 0⟩, ⟨27, 9, 29⟩] ∧
      (([⟨29, 5, 0⟩, ⟨27, 9, 29⟩] : List MyBlock).map MyBlock.compressed_size).sum =
        ((container [member_a, member_b]).length : Int) :=
  ⟨by decide, seek_blocks_sum_compressed 2 [] (container [member_a, member_b]) _ (by decide)⟩

/-- C2 as stated fails: the one-member container `[member_big]` is well formed, its
trailer gives a data size of `2^31`, and the block returned carries `-2^31`: the sizes of a
`MyBlock` are `int`s. -/
theorem seek_blocks_wellformed_counterexample :
    member_big.wf ∧
      seek_blocks 1 [] (container [member_big]) = .blocks [⟨27, -2147483648, 0⟩] ∧
      File_trailer.data_size member_big.trailer = 2147483648 ∧
      (-2147483648 : Int) ≠ (File_trailer.data_size member_big.trailer : Int) := by
  decide

/-- C2, amended. For every well-formed container of `k` members whose data sizes and file
length are below `2^31`, `seek_blocks` returns exactly `k` blocks in forward file order:
block `i` carries the member size and the data size of the `i`-th member, block 0 has
offset 0, and each block's offset is the previous block's offset plus the previous
block's compressed size. -/
theorem seek_blocks_wellformed (ms : List Member) (fuel : Nat) (trailer0 : List UInt8)
    (hwf : ∀ m ∈ ms, m.wf) (hds : ∀ m ∈ ms, m.data_size < 2147483648)
    (hlen : (container ms).length < 2147483648) (hfuel : ms.length ≤ fuel) :
    ∃ bs, seek_blocks fuel trailer0 (container ms) = .blocks bs ∧ bs.length = ms.length ∧
      (∀ (i : Nat) (m : Member), ms[i]? = some m → ∃ b : MyBlock, bs[i]? = some b ∧
        b.compressed_size = m.size ∧ b.decompressed_size = m.data_size) ∧
      (∀ b : MyBlock, bs[0]? = some b → b.offset = 0) ∧
      (∀ (i : Nat) (b c : MyBlock), bs[i]? = some b → bs[i + 1]? = some c →
        c.offset = b.offset + b.compressed_size) :=
  ⟨expected_blocks 0 ms,
    seek_blocks_container ms fuel trailer0 (fun m hm => ⟨hwf m hm, hds m hm⟩) hlen hfuel,
    length_expected_blocks 0 ms,
    fun i m h => expected_blocks_sizes 0 ms i m h,
    fun b h => expected_blocks_head 0 ms b h,
    fun i b c hb hc => expected_blocks_offsets 0 ms i b c hb hc⟩

/-- Witness of C2, amended: the container of `member_a` and `member_b`. -/
theorem seek_blocks_wellformed_witness :
    ∃ bs, seek_blocks 2 [] (container [member_a, member_b]) = .blocks bs ∧
      bs.length = [member_a, member_b].length ∧
      (∀ (i : Nat) (m : Member), [member_a, member_b][i]? = some m → ∃ b : MyBlock, bs[i]? = some b ∧
        b.compressed_size = m.size ∧ b.decompressed_size = m.data_size) ∧
      (∀ b : MyBlock, bs[0]? = some b → b.offset = 0) ∧
      (∀ (i : Nat) (b c : MyBlock), bs[i]? = some b → bs[i + 1]? = some c →
        c.offset = b.offset + b.compressed_size) :=
  seek_blocks_wellformed [member_a, member_b] 2 [] (by decide) (by decide) (by decide)
    (by decide)

/-- C3 as stated fails: the last (and only) trailer of `zero_file` reports a member size
of zero, and the scan of `zero_file` never ends: whatever the number of passes allowed,
`seek_blocks` is still in its loop. -/
theorem seek_blocks_corrupt_counterexample :
    File_trailer.member_size zero_file = 0 ∧
      ∀ (fuel : Nat) (trailer0 : List UInt8),
        seek_blocks fuel trailer0 zero_file = .outOfFuel := by
  refine ⟨rfl, fun fuel trailer0 => ?_⟩
  unfold seek_blocks
  rw [seek_while_zero_file fuel (seek_init trailer0 zero_file) rfl rfl rfl rfl rfl]

/-- C3, amended. For every container file on which the backward scan comes to its end,
if the member sizes read from the trailers (the sizes recorded in the blocks) do not sum
exactly to the file length, or the last trailer read reported a member size larger than
the bytes preceding its end (`pos` went below zero), `seek_blocks` fails on its assertion
and returns no block list. -/
theorem seek_blocks_corrupt (fuel : Nat) (trailer0 data : List UInt8) (st : SeekState)
    (hdone : seek_while fuel (seek_init trailer0 data) = .done st)
    (hbad : (st.blocks.map MyBlock.compressed_size).sum ≠ (data.length : Int) ∨ st.pos < 0) :
    seek_blocks fuel trailer0 data = .assertFailed := by
  have hinv := seek_while_total data.length fuel _ st (seek_init_inv trailer0 data) hdone
  rw [seek_blocks_of_done fuel trailer0 data st hdone, if_neg]
  intro ht
  rcases hbad with h | h
  · apply h
    have h1 := hinv.1
    unfold sum_compressed at h1
    rw [← h1, ht]
  · have h2 := hinv.2
    rw [ht] at h2
    have : st.pos = 0 := by linarith
    rw [this] at h
    exact lt_irrefl _ h

/-- Witness of C3, amended: the one trailer of `long_file` reports 40 bytes in a file
of 20. -/
theorem seek_blocks_corrupt_witness : seek_blocks 1 [] long_file = .assertFailed :=
  seek_blocks_corrupt 1 [] long_file long_file_end (by decide) (Or.inr (by decide))

/-! ## The interval index -/

theorem map_find_assign_same (k : Int) (v : IntervalTree) (m : ChromosomeTrees) :
    map_find k (map_assign k v m) = some v := by
  induction m with
  | nil => simp [map_assign, map_find]
  | cons p rest ih =>
    obtain ⟨k1, v1⟩ := p
    unfold map_assign
    by_cases h1 : k < k1
    · simp [h1, map_find]
    · by_cases h2 : k = k1
      · simp [h2, map_find]
      · simp [h1, h2, map_find, ih]

theorem map_find_assign_other (k k2 : Int) (v : IntervalTree) (m : ChromosomeTrees)
    (h : k ≠ k2) : map_find k (map_assign k2 v m) = map_find k m := by
  induction m with
  | nil => simp [map_assign, map_find, h]
  | cons p rest ih =>
    obtain ⟨k1, v1⟩ := p
    unfold map_assign
    by_cases h1 : k2 < k1
    · simp [h1, map_find, h]
    · by_cases h2 : k2 = k1
      · subst h2
        simp [map_find, h]
      · simp only [h1, h2, if_false, map_find, ih]

theorem map_find_createTree (k k2 : Int) (l : List RawDataInterval) (m : ChromosomeTrees) :
    map_find k (createTree k2 l m) = if k = k2 then some ⟨l⟩ else map_find k m := by
  unfold createTree
  by_cases h : k = k2
  · rw [if_pos h, h, map_find_assign_same]
  · rw [if_neg h, map_find_assign_other _ _ _ _ h]

/-- The inner loop leaves, for each chromosome it visits, a tree of one fragment, and
leaves the other trees as they were. -/
theorem map_find_span_loop (block : MyBlock) (interval : TrueGenomicInterval) (n : Nat) :
    ∀ (k : Int) (trees : ChromosomeTrees) (c : Int),
      map_find c (span_loop block interval n k trees) =
        if interval.start.chromosome + k + 1 ≤ c ∧ c < interval.start.chromosome + k + 1 + n
        then some ⟨[fragment block interval c chromo_min chromo_max]⟩
        else map_find c trees := by
  induction n with
  | zero =>
    intro k trees c
    rw [if_neg (by push_cast; omega)]
    rfl
  | succ n ih =>
    intro k trees c
    show map_find c (span_loop block interval n (k + 1) _) = _
    rw [ih, map_find_createTree]
    by_cases h1 : interval.start.chromosome + (k + 1) + 1 ≤ c ∧
        c < interval.start.chromosome + (k + 1) + 1 + n
    · rw [if_pos h1, if_pos (by push_cast; omega)]
    · rw [if_neg h1]
      by_cases h2 : c = interval.start.chromosome + k + 1
      · rw [if_pos h2, if_pos (by push_cast; omega), h2]
      · rw [if_neg h2, if_neg (by push_cast; omega)]

theorem mem_keys_map_assign (k : Int) (v : IntervalTree) (m : ChromosomeTrees) (a : Int)
    (ha : a ∈ (map_assign k v m).map Prod.fst) : a = k ∨ a ∈ m.map Prod.fst := by
  induction m with
  | nil =>
    simp only [map_assign, List.map_cons, List.map_nil, List.mem_singleton] at ha
    exact Or.inl ha
  | cons p rest ih =>
    obtain ⟨k1, v1⟩ := p
    unfold map_assign at ha
    by_cases h1 : k < k1
    · rw [if_pos h1] at ha
      simp only [List.map_cons, List.mem_cons] at ha ⊢
      exact ha
    · rw [if_neg h1] at ha
      by_cases h2 : k = k1
      · rw [if_pos h2] at ha
        simp only [List.map_cons, List.mem_cons] at ha ⊢
        rcases ha with ha | ha
        · exact Or.inl ha
        · exact Or.inr (Or.inr ha)
      · rw [if_neg h2] at ha
        simp only [List.map_cons, List.mem_cons] at ha ⊢
        rcases ha with ha | ha
        · exact Or.inr (Or.inl ha)
        · rcases ih ha with h | h
          · exact Or.inl h
          · exact Or.inr (Or.inr h)

/-- The assignment `m[k] = v` keeps the keys of the map in strictly ascending order: the
trees are walked in ascending order of the chromosomes. -/
theorem map_assign_sorted (k : Int) (v : IntervalTree) (m : ChromosomeTrees)
    (hs : (m.map Prod.fst).Pairwise (· < ·)) :
    ((map_assign k v m).map Prod.fst).Pairwise (· < ·) := by
  induction m with
  | nil => simp [map_assign]
  | cons p rest ih =>
    obtain ⟨k1, v1⟩ := p
    simp only [List.map_cons, List.pairwise_cons] at hs
    obtain ⟨hk1, hrest⟩ := hs
    unfold map_assign
    by_cases h1 : k < k1
    · rw [if_pos h1]
      simp only [List.map_cons, List.pairwise_cons, List.mem_cons]
      refine ⟨?_, hk1, hrest⟩
      intro a ha
      rcases ha with rfl | ha
      · exact h1
      · exact lt_trans h1 (hk1 a ha)
    · rw [if_neg h1]
      by_cases h2 : k = k1
      · rw [if_pos h2]
        simp only [List.map_cons, List.pairwise_cons]
        exact ⟨fun a ha => h2 ▸ hk1 a ha, hrest⟩
      · rw [if_neg h2]
        simp only [List.map_cons, List.pairwise_cons]
        refine ⟨?_, ih hrest⟩
        intro a ha
        rcases mem_keys_map_assign k v rest a ha with rfl | ha
        · exact lt_of_le_of_ne (not_lt.mp h1) (Ne.symm h2)
        · exact hk1 a ha

theorem tree_seal_start (st : TreeState) (interval : TrueGenomicInterval) :
    (tree_seal st interval).prev_chromo = interval.start.chromosome := by
  unfold tree_seal
  by_cases h : st.prev_chromo ≠ interval.start.chromosome
  · rw [if_pos h]
  · rw [if_neg h]; exact not_not.mp h

theorem tree_emit_split (st : TreeState) (interval : TrueGenomicInterval) (block : MyBlock)
    (h : interval.start.chromosome ≠ interval.end_.chromosome) :
    tree_emit st interval block =
      { prev_chromo := interval.end_.chromosome
        chromo_intervals :=
          [fragment block interval interval.end_.chromosome chromo_min interval.end_.offset]
        chromosome_trees := span_loop block interval
          (interval.end_.chromosome - interval.start.chromosome - 1).toNat 0
          (createTree interval.start.chromosome
            (st.chromo_intervals ++
              [fragment block interval interval.start.chromosome interval.start.offset
                chromo_max])
            st.chromosome_trees) } := by
  unfold tree_emit
  rw [if_neg h]

theorem tree_emit_same (st : TreeState) (interval : TrueGenomicInterval) (block : MyBlock)
    (h : interval.start.chromosome = interval.end_.chromosome) :
    tree_emit st interval block =
      { st with chromo_intervals := st.chromo_intervals ++
          [fragment block interval interval.start.chromosome interval.start.offset
            interval.end_.offset] } := by
  unfold tree_emit
  rw [if_pos h]

theorem spec_fragments_getElem (block : MyBlock) (interval : TrueGenomicInterval) (j : Nat)
    (f : RawDataInterval) (h : (spec_fragments block interval)[j]? = some f) :
    (j : Int) ≤ interval.end_.chromosome - interval.start.chromosome ∧
      f = ⟨block.offset, block.compressed_size, block.decompressed_size,
        interval.start.chromosome + j,
        if j = 0 then interval.start.offset else 0,
        if interval.start.chromosome + j = interval.end_.chromosome then interval.end_.offset
        else chromo_max,
        interval.num_alignments, interval.is_aligned⟩ := by
  unfold spec_fragments at h
  rw [List.getElem?_map] at h
  cases hr : (List.range (interval.end_.chromosome - interval.start.chromosome + 1).toNat)[j]? with
  | none => rw [hr] at h; exact absurd h (by simp)
  | some i =>
    rw [hr] at h
    obtain ⟨hlt, rfl⟩ := List.getElem?_eq_some.mp hr
    rw [List.length_range] at hlt
    rw [List.getElem_range] at h
    refine ⟨by omega, ?_⟩
    exact (Option.some.inj h).symm

/-- C4. A tuple whose start chromosome `s` is strictly below its end chromosome `e` gives
exactly `e - s + 1` indexed blocks, one per chromosome of `[s, e]`: block `j` lies on
chromosome `s + j`, runs from the start offset of the tuple (on `s`) or from 0 to
`CHROMO_MAX` or (on `e`) to the end offset of the tuple, and carries the file offset and
the sizes of the paired container block and the alignment count and flag of the tuple.
The block on `s` is added to the running list, which is sealed under `s`; each block
strictly between is sealed alone under its chromosome; the block on `e` is the new
running list. No other tree changes. -/
theorem tree_body_split (st : TreeState) (interval : TrueGenomicInterval) (block : MyBlock)
    (h : interval.start.chromosome < interval.end_.chromosome) :
    ∃ frags : List RawDataInterval,
      (frags.length : Int) = interval.end_.chromosome - interval.start.chromosome + 1 ∧
      (∀ (j : Nat) (f : RawDataInterval), frags[j]? = some f →
        f = ⟨block.offset, block.compressed_size, block.decompressed_size,
          interval.start.chromosome + j,
          if j = 0 then interval.start.offset else 0,
          if interval.start.chromosome + j = interval.end_.chromosome
          then interval.end_.offset else chromo_max,
          interval.num_alignments, interval.is_aligned⟩ ∧
        if j = 0 then
          map_find interval.start.chromosome (tree_body st interval block).chromosome_trees =
            some ⟨(tree_seal st interval).chromo_intervals ++ [f]⟩
        else if interval.start.chromosome + j < interval.end_.chromosome then
          map_find (interval.start.chromosome + j)
            (tree_body st interval block).chromosome_trees = some ⟨[f]⟩
        else (tree_body st interval block).chromo_intervals = [f]) ∧
      (∀ c : Int, c < interval.start.chromosome ∨ interval.end_.chromosome ≤ c →
        map_find c (tree_body st interval block).chromosome_trees =
          map_find c (tree_seal st interval).chromosome_trees) ∧
      (tree_body st interval block).prev_chromo = interval.end_.chromosome := by
  have hne : interval.start.chromosome ≠ interval.end_.chromosome := ne_of_lt h
  have hbody := tree_emit_split (tree_seal st interval) interval block hne
  have hn : ((interval.end_.chromosome - interval.start.chromosome - 1).toNat : Int) =
      interval.end_.chromosome - interval.start.chromosome - 1 := by omega
  refine ⟨spec_fragments block interval, ?_, ?_, ?_, ?_⟩
  · unfold spec_fragments
    rw [List.length_map, List.length_range]
    omega
  · intro j f hj
    obtain ⟨hle, hf⟩ := spec_fragments_getElem block interval j f hj
    refine ⟨hf, ?_⟩
    unfold tree_body
    rw [hbody]
    by_cases h0 : j = 0
    · rw [if_pos h0]
      show map_find _ (span_loop _ _ _ _ _) = _
      rw [map_find_span_loop, if_neg (by omega), map_find_createTree, if_pos rfl, hf]
      subst h0
      simp only [Nat.cast_zero, add_zero, if_true, if_neg hne]
      rfl
    · rw [if_neg h0]
      by_cases h1 : interval.start.chromosome + j < interval.end_.chromosome
      · rw [if_pos h1]
        show map_find _ (span_loop _ _ _ _ _) = _
        rw [map_find_span_loop, if_pos (by omega), hf, if_neg h0, if_neg (ne_of_lt h1)]
        rfl
      · rw [if_neg h1]
        have he : interval.start.chromosome + j = interval.end_.chromosome := by omega
        show [fragment block interval interval.end_.chromosome chromo_min interval.end_.offset]
          = [f]
        rw [hf, if_neg h0, if_pos he, he]
        rfl
  · intro c hc
    unfold tree_body
    rw [hbody]
    show map_find _ (span_loop _ _ _ _ _) = _
    rw [map_find_span_loop, if_neg (by omega), map_find_createTree, if_neg (by omega)]
  · unfold tree_body
    rw [hbody]

/-- Witness of C4: the tuple from chromosome 0 to chromosome 2. -/
theorem tree_body_split_witness :
    ∃ frags : List RawDataInterval,
      (frags.length : Int) = tuple_a.end_.chromosome - tuple_a.start.chromosome + 1 ∧
      (∀ (j : Nat) (f : RawDataInterval), frags[j]? = some f →
        f = ⟨block_a.offset, block_a.compressed_size, block_a.decompressed_size,
          tuple_a.start.chromosome + j,
          if j = 0 then tuple_a.start.offset else 0,
          if tuple_a.start.chromosome + j = tuple_a.end_.chromosome
          then tuple_a.end_.offset else chromo_max,
          tuple_a.num_alignments, tuple_a.is_aligned⟩ ∧
        if j = 0 then
          map_find tuple_a.start.chromosome (tree_body ⟨0, [], []⟩ tuple_a block_a).chromosome_trees =
            some ⟨(tree_seal ⟨0, [], []⟩ tuple_a).chromo_intervals ++ [f]⟩
        else if tuple_a.start.chromosome + j < tuple_a.end_.chromosome then
          map_find (tuple_a.start.chromosome + j)
            (tree_body ⟨0, [], []⟩ tuple_a block_a).chromosome_trees = some ⟨[f]⟩
        else (tree_body ⟨0, [], []⟩ tuple_a block_a).chromo_intervals = [f]) ∧
      (∀ c : Int, c < tuple_a.start.chromosome ∨ tuple_a.end_.chromosome ≤ c →
        map_find c (tree_body ⟨0, [], []⟩ tuple_a block_a).chromosome_trees =
          map_find c (tree_seal ⟨0, [], []⟩ tuple_a).chromosome_trees) ∧
      (tree_body ⟨0, [], []⟩ tuple_a block_a).prev_chromo = tuple_a.end_.chromosome :=
  tree_body_split ⟨0, [], []⟩ tuple_a block_a (by decide)

/-- C5 fails on the code: one block and two tuples satisfy the asserted invariant
`block_count <= tuple_count`, and the walk over the tuples reads `lzip_blocks[1]` past
the end of the block list. -/
theorem createChromosomeIntervalTree_lookup_past_end :
    [block_a].length ≤ [tuple_a, tuple_b].length ∧
      createChromosomeIntervalTree [tuple_a, tuple_b] [block_a] [] = .blockOutOfBounds 1 := by
  decide

/-! ## The input buffer -/

theorem foldl_push_if_new (l : List RawDataInterval) :
    ∀ (q : List RawDataInterval) (x : RawDataInterval),
      l.foldl push_if_new (q ++ [x]) = q ++ x :: collapse_from x l := by
  induction l with
  | nil => intro q x; rfl
  | cons c rest ih =>
    intro q x
    rw [List.foldl_cons]
    have hp : push_if_new (q ++ [x]) c =
        if x.byte_offset ≠ c.byte_offset then q ++ [x] ++ [c] else q ++ [x] := by
      unfold push_if_new
      rw [List.getLast?_concat]
    rw [hp]
    by_cases h : x.byte_offset = c.byte_offset
    · rw [if_neg (not_not.mpr h), ih]
      simp only [collapse_from, if_pos h]
    · rw [if_pos h, ih]
      simp only [collapse_from, if_neg h, List.append_assoc, List.singleton_append]

theorem foldl_push_if_new_nil (l : List RawDataInterval) :
    l.foldl push_if_new [] = collapse_runs l := by
  cases l with
  | nil => rfl
  | cons x rest =>
    rw [List.foldl_cons]
    have h := foldl_push_if_new rest [] x
    rw [List.nil_append] at h
    exact h

theorem enqueue_all_eq (trees : ChromosomeTrees) :
    ∀ q : List RawDataInterval, enqueue_all trees q = (all_blocks trees).foldl push_if_new q := by
  induction trees with
  | nil => intro q; rfl
  | cons p rest ih =>
    intro q
    obtain ⟨k, tree⟩ := p
    simp only [enqueue_all, all_blocks, List.foldl_append, ih]

theorem collapse_from_sublist (l : List RawDataInterval) :
    ∀ x : RawDataInterval, (collapse_from x l).Sublist l := by
  induction l with
  | nil => intro x; exact List.Sublist.slnil
  | cons c rest ih =>
    intro x
    unfold collapse_from
    by_cases h : x.byte_offset = c.byte_offset
    · rw [if_pos h]; exact List.Sublist.cons _ (ih x)
    · rw [if_neg h]; exact List.Sublist.cons₂ _ (ih c)

theorem collapse_runs_sublist (l : List RawDataInterval) : (collapse_runs l).Sublist l := by
  cases l with
  | nil => exact List.Sublist.slnil
  | cons x rest => exact List.Sublist.cons₂ _ (collapse_from_sublist rest x)

theorem collapse_from_offsets (l : List RawDataInterval) :
    ∀ (x b : RawDataInterval), b ∈ l →
      ∃ c ∈ x :: collapse_from x l, c.byte_offset = b.byte_offset := by
  induction l with
  | nil => intro x b hb; simp at hb
  | cons c rest ih =>
    intro x b hb
    unfold collapse_from
    rcases List.mem_cons.mp hb with rfl | hb
    · by_cases h : x.byte_offset = b.byte_offset
      · exact ⟨x, List.mem_cons_self _ _, h⟩
      · rw [if_neg h]
        exact ⟨b, List.mem_cons_of_mem _ (List.mem_cons_self _ _), rfl⟩
    · by_cases h : x.byte_offset = c.byte_offset
      · rw [if_pos h]; exact ih x b hb
      · rw [if_neg h]
        obtain ⟨d, hd, hdo⟩ := ih c b hb
        exact ⟨d, List.mem_cons_of_mem _ hd, hdo⟩

theorem collapse_runs_offsets (l : List RawDataInterval) (b : RawDataInterval) (hb : b ∈ l) :
    ∃ c ∈ collapse_runs l, c.byte_offset = b.byte_offset := by
  cases l with
  | nil => simp at hb
  | cons x rest =>
    rcases List.mem_cons.mp hb with rfl | hb
    · exact ⟨b, List.mem_cons_self _ _, rfl⟩
    · exact collapse_from_offsets rest x b hb

theorem collapse_from_increasing (l : List RawDataInterval) :
    ∀ x : RawDataInterval, ((x :: l).map RawDataInterval.byte_offset).Pairwise (· ≤ ·) →
      ((x :: collapse_from x l).map RawDataInterval.byte_offset).Pairwise (· < ·) := by
  induction l with
  | nil => intro x _; simp [collapse_from]
  | cons c rest ih =>
    intro x hs
    simp only [List.map_cons, List.pairwise_cons] at hs
    obtain ⟨hx, hc, hrest⟩ := hs
    unfold collapse_from
    by_cases h : x.byte_offset = c.byte_offset
    · rw [if_pos h]
      apply ih x
      simp only [List.map_cons, List.pairwise_cons]
      exact ⟨fun a ha => hx a (List.mem_cons_of_mem _ ha), hrest⟩
    · rw [if_neg h]
      have hlt : x.byte_offset < c.byte_offset :=
        lt_of_le_of_ne (hx _ (List.mem_cons_self _ _)) h
      have hcr := ih c (by
        simp only [List.map_cons, List.pairwise_cons]
        exact ⟨hc, hrest⟩)
      simp only [List.map_cons, List.pairwise_cons] at hcr ⊢
      refine ⟨?_, hcr⟩
      intro a ha
      rcases List.mem_cons.mp ha with rfl | ha
      · exact hlt
      · exact lt_trans hlt (hcr.1 a ha)

theorem collapse_runs_nodup (l : List RawDataInterval)
    (hs : (l.map RawDataInterval.byte_offset).Pairwise (· ≤ ·)) :
    ((collapse_runs l).map RawDataInterval.byte_offset).Nodup := by
  cases l with
  | nil => simp [collapse_runs]
  | cons x rest =>
    exact (collapse_from_increasing rest x hs).imp (fun h => ne_of_lt h)

theorem loadOverlappingBlock_all (decompressBlock : RawDataInterval → List UInt8)
    (buf : InputBuffer) (start_coord end_coord : Int) (is_transcript_start : Bool) :
    loadOverlappingBlock decompressBlock buf (-1) start_coord end_coord is_transcript_start =
      match collapse_runs (all_blocks buf.chromosome_trees) with
      | [] => .undefinedBehaviour
      | block :: block_queue =>
        .returned { no_blocks := buf.no_blocks, chromosome_trees := buf.chromosome_trees,
                    block_queue := block_queue, bytes := decompressBlock block }
          block.is_aligned (block.start, block.num_alignments) := by
  unfold loadOverlappingBlock
  rw [if_neg (by decide), if_pos rfl]
  simp only [enqueue_all_eq, foldl_push_if_new_nil, List.nil_append,
    RawDataInterval.isAlignedWithTranscriptStart]

theorem min_start_mem (bs : List RawDataInterval) :
    ∀ b : RawDataInterval, min_start b bs ∈ b :: bs := by
  induction bs with
  | nil => intro b; simp [min_start]
  | cons c cs ih =>
    intro b
    unfold min_start
    by_cases h : c.start < b.start
    · rw [if_pos h]; exact List.mem_cons_of_mem _ (ih c)
    · rw [if_neg h]
      rcases List.mem_cons.mp (ih b) with h1 | h1
      · rw [h1]; exact List.mem_cons_self _ _
      · exact List.mem_cons_of_mem _ (List.mem_cons_of_mem _ h1)

theorem getFirstInterval_mem (tree : IntervalTree) (h : tree.intervals ≠ []) :
    tree.getFirstInterval ∈ tree.intervals := by
  unfold IntervalTree.getFirstInterval
  cases hi : tree.intervals with
  | nil => exact absurd hi h
  | cons b bs => exact min_start_mem bs b

theorem loadOverlappingBlock_tree (decompressBlock : RawDataInterval → List UInt8)
    (buf : InputBuffer) (chromo start_coord end_coord : Int) (is_transcript_start : Bool)
    (tree : IntervalTree) (hc : chromo ≠ -1)
    (htree : map_find chromo buf.chromosome_trees = some tree)
    (hfirst : ¬ tree.getFirstInterval.chromosome < 0) :
    loadOverlappingBlock decompressBlock buf chromo start_coord end_coord is_transcript_start =
      match tree.findOverlapping
          (if start_coord < tree.getFirstInterval.start then tree.getFirstInterval.start
           else start_coord) end_coord with
      | block :: block_queue =>
        .returned { no_blocks := false, chromosome_trees := buf.chromosome_trees,
                    block_queue := block_queue, bytes := decompressBlock block }
          block.is_aligned (block.start, block.num_alignments)
      | [] =>
        .returned { no_blocks := true, chromosome_trees := buf.chromosome_trees,
                    block_queue := [], bytes := [] }
          (if start_coord < tree.getFirstInterval.start then true else is_transcript_start)
          (-1, 0) := by
  unfold loadOverlappingBlock
  rw [if_neg (by decide), if_neg hc]
  simp only [htree, if_neg hfirst, List.nil_append,
    RawDataInterval.isAlignedWithTranscriptStart]

/-! ### The claims on `loadOverlappingBlock` -/

/-- C6 as stated fails: in the index built from `tuple_c` and `tuple_d` the file offset 0
is in the trees of chromosomes 0 and 2 and the file offset 36 in the tree between them;
the block of offset 0 is decoded as the head and queued once more. -/
theorem loadOverlappingBlock_all_counterexample :
    createChromosomeIntervalTree [tuple_c, tuple_d] [block_a, block_b] [] =
        .built crossing_trees ∧
      loadOverlappingBlock example_decoder ⟨false, crossing_trees, [], []⟩ (-1) 0 0 false =
        .returned
          { no_blocks := false, chromosome_trees := crossing_trees,
            block_queue := [⟨36, 40, 120, 1, 0, 50, 3, true⟩, ⟨0, 36, 100, 2, 0, 5, 0, true⟩],
            bytes := example_decoder ⟨0, 36, 100, 0, 10, 300000000, 0, true⟩ }
          true (10, 0) ∧
      ¬ (([⟨0, 36, 100, 0, 10, 300000000, 0, true⟩, ⟨36, 40, 120, 1, 0, 50, 3, true⟩,
          ⟨0, 36, 100, 2, 0, 5, 0, true⟩] : List RawDataInterval).map
            RawDataInterval.byte_offset).Nodup := by
  decide

/-- C6, amended. After `loadOverlappingBlock` with `chromo = -1` and no
`at_num_alignments` on a buffer with at least one indexed block, the decoded head block
followed by the pending queue is the concatenation of the block sequences of all trees
in ascending chromosome order with each run of consecutive blocks of one file offset
collapsed to its first block. The blocks keep their order, every file offset present in
some tree appears, and it appears exactly once when the file offsets do not decrease
along the concatenation. -/
theorem loadOverlappingBlock_all_collapsed (decompressBlock : RawDataInterval → List UInt8)
    (buf : InputBuffer) (start_coord end_coord : Int) (is_transcript_start : Bool)
    (h : all_blocks buf.chromosome_trees ≠ []) :
    ∃ (head : RawDataInterval) (queue : List RawDataInterval),
      loadOverlappingBlock decompressBlock buf (-1) start_coord end_coord is_transcript_start =
        .returned { no_blocks := buf.no_blocks, chromosome_trees := buf.chromosome_trees,
                    block_queue := queue, bytes := decompressBlock head }
          head.is_aligned (head.start, head.num_alignments) ∧
      head :: queue = collapse_runs (all_blocks buf.chromosome_trees) ∧
      (head :: queue).Sublist (all_blocks buf.chromosome_trees) ∧
      (∀ b ∈ all_blocks buf.chromosome_trees,
        ∃ c ∈ head :: queue, c.byte_offset = b.byte_offset) ∧
      (((all_blocks buf.chromosome_trees).map RawDataInterval.byte_offset).Pairwise (· ≤ ·) →
        ((head :: queue).map RawDataInterval.byte_offset).Nodup) := by
  have hload := loadOverlappingBlock_all decompressBlock buf start_coord end_coord
    is_transcript_start
  cases hall : all_blocks buf.chromosome_trees with
  | nil => exact absurd hall h
  | cons x rest =>
    have hcr : collapse_runs (all_blocks buf.chromosome_trees) = x :: collapse_from x rest := by
      rw [hall]; rfl
    rw [hcr] at hload
    refine ⟨x, collapse_from x rest, hload, ?_, ?_, ?_, ?_⟩
    · rfl
    · exact collapse_runs_sublist (x :: rest)
    · intro b hb
      exact collapse_runs_offsets (x :: rest) b hb
    · intro hs
      exact collapse_runs_nodup (x :: rest) hs

/-- Witness of C6, amended: the index `plain_trees`. -/
theorem loadOverlappingBlock_all_collapsed_witness :
    ∃ (head : RawDataInterval) (queue : List RawDataInterval),
      loadOverlappingBlock example_decoder ⟨false, plain_trees, [], []⟩ (-1) 0 0 false =
        .returned { no_blocks := false, chromosome_trees := plain_trees,
                    block_queue := queue, bytes := example_decoder head }
          head.is_aligned (head.start, head.num_alignments) ∧
      head :: queue = collapse_runs (all_blocks plain_trees) ∧
      (head :: queue).Sublist (all_blocks plain_trees) ∧
      (∀ b ∈ all_blocks plain_trees, ∃ c ∈ head :: queue, c.byte_offset = b.byte_offset) ∧
      (((all_blocks plain_trees).map RawDataInterval.byte_offset).Pairwise (· ≤ ·) →
        ((head :: queue).map RawDataInterval.byte_offset).Nodup) :=
  loadOverlappingBlock_all_collapsed example_decoder ⟨false, plain_trees, [], []⟩ 0 0 false
    (by decide)

/-- C7 fails on the code: chromosome 0 of `plain_trees` has a tree, its first interval
starts at 100 and is not aligned; the call with start 50 below it clamps the start,
sets `is_transcript_start`, and then overwrites it with the flag of the first
overlapping block: it is false when the call returns. -/
theorem loadOverlappingBlock_clamp_flag_lost :
    (∃ tree, map_find 0 plain_trees = some tree ∧ (50 : Int) < tree.getFirstInterval.start) ∧
      loadOverlappingBlock example_decoder ⟨false, plain_trees, [], []⟩ 0 50 150 false =
        .returned
          { no_blocks := false, chromosome_trees := plain_trees, block_queue := [],
            bytes := [7, 7] }
          false (100, 0) := by
  refine ⟨⟨⟨[⟨0, 36, 2, 0, 100, 200, 0, false⟩, ⟨36, 40, 3, 0, 201, 300, 5, true⟩]⟩, ?_, ?_⟩, ?_⟩
  · decide
  · decide
  · decide

/-- C8. When the tree of `chromo` answers the overlap query for the clamped start and
the end with a non-empty list, `loadOverlappingBlock` leaves in the byte deque exactly
the decoded bytes of the first block of the list and in the pending queue the rest of
the list in its order, returns the start offset and the alignment count of that first
block, and sets `is_transcript_start` to that block's `is_aligned` flag. The blocks of
the tree carry non-negative chromosomes, as in the data model. -/
theorem loadOverlappingBlock_overlapping (decompressBlock : RawDataInterval → List UInt8)
    (buf : InputBuffer) (chromo start_coord end_coord : Int) (is_transcript_start : Bool)
    (tree : IntervalTree) (block : RawDataInterval) (rest : List RawDataInterval)
    (hc : chromo ≠ -1)
    (htree : map_find chromo buf.chromosome_trees = some tree)
    (hchr : ∀ b ∈ tree.intervals, 0 ≤ b.chromosome)
    (hL : tree.findOverlapping
      (if start_coord < tree.getFirstInterval.start then tree.getFirstInterval.start
       else start_coord) end_coord = block :: rest) :
    loadOverlappingBlock decompressBlock buf chromo start_coord end_coord is_transcript_start =
      .returned { no_blocks := false, chromosome_trees := buf.chromosome_trees,
                  block_queue := rest, bytes := decompressBlock block }
        block.is_aligned (block.start, block.num_alignments) := by
  have hne : tree.intervals ≠ [] := by
    intro hnil
    unfold IntervalTree.findOverlapping at hL
    rw [hnil] at hL
    exact absurd hL (by simp)
  have hfirst : ¬ tree.getFirstInterval.chromosome < 0 :=
    not_lt.mpr (hchr _ (getFirstInterval_mem tree hne))
  rw [loadOverlappingBlock_tree decompressBlock buf chromo start_coord end_coord
    is_transcript_start tree hc htree hfirst, hL]

/-- Witness of C8: the query `[150, 250]` on chromosome 0 of `plain_trees` overlaps both
blocks. -/
theorem loadOverlappingBlock_overlapping_witness :
    loadOverlappingBlock example_decoder ⟨false, plain_trees, [], []⟩ 0 150 250 false =
      .returned { no_blocks := false, chromosome_trees := plain_trees,
                  block_queue := [⟨36, 40, 3, 0, 201, 300, 5, true⟩],
                  bytes := example_decoder ⟨0, 36, 2, 0, 100, 200, 0, false⟩ }
        false (100, 0) :=
  loadOverlappingBlock_overlapping example_decoder ⟨false, plain_trees, [], []⟩ 0 150 250 false
    ⟨[⟨0, 36, 2, 0, 100, 200, 0, false⟩, ⟨36, 40, 3, 0, 201, 300, 5, true⟩]⟩
    ⟨0, 36, 2, 0, 100, 200, 0, false⟩ [⟨36, 40, 3, 0, 201, 300, 5, true⟩]
    (by decide) (by decide) (by decide) (by decide)

/-- C9. For a chromosome `chromo >= 0` that has no tree, and no `at_num_alignments`,
`loadOverlappingBlock` returns `(-1, 0)` and leaves the byte deque and the pending queue
empty, whatever they held: `hasMoreBytes()` is false afterwards. -/
theorem loadOverlappingBlock_no_tree (decompressBlock : RawDataInterval → List UInt8)
    (buf : InputBuffer) (chromo start_coord end_coord : Int) (is_transcript_start : Bool)
    (hc : 0 ≤ chromo) (htree : map_find chromo buf.chromosome_trees = none) :
    loadOverlappingBlock decompressBlock buf chromo start_coord end_coord is_transcript_start =
        .returned { no_blocks := buf.no_blocks, chromosome_trees := buf.chromosome_trees,
                    block_queue := [], bytes := [] }
          is_transcript_start (-1, 0) ∧
      hasMoreBytes { no_blocks := buf.no_blocks, chromosome_trees := buf.chromosome_trees,
                     block_queue := [], bytes := [] } = false := by
  constructor
  · unfold loadOverlappingBlock
    rw [if_neg (by decide), if_neg (by omega)]
    simp only [htree]
  · rfl

/-- Witness of C9: chromosome 3 has no tree in `plain_trees`; the buffer held a queued
block and three bytes. -/
theorem loadOverlappingBlock_no_tree_witness :
    loadOverlappingBlock example_decoder
        ⟨false, plain_trees, [⟨36, 40, 3, 0, 201, 300, 5, true⟩], [1, 2, 3]⟩ 3 0 50 true =
        .returned { no_blocks := false, chromosome_trees := plain_trees,
                    block_queue := [], bytes := [] }
          true (-1, 0) ∧
      hasMoreBytes { no_blocks := false, chromosome_trees := plain_trees,
                     block_queue := [], bytes := [] } = false :=
  loadOverlappingBlock_no_tree example_decoder
    ⟨false, plain_trees, [⟨36, 40, 3, 0, 201, 300, 5, true⟩], [1, 2, 3]⟩ 3 0 50 true
    (by decide) (by decide)

/-- C10 fails on the code: both blocks of `plain_trees` have fewer than 6 alignments
before them, the last such block is the second one, and `loadOverlappingBlock` with
`at_num_alignments = 6` finds no starting block and exits: `found_block` is set only on
meeting a block whose count is not below the argument. -/
theorem loadOverlappingBlock_at_num_alignments_exits :
    (∃ b ∈ all_blocks plain_trees, (b.num_alignments : Int) < 6) ∧
      loadOverlappingBlock example_decoder ⟨false, plain_trees, [], []⟩ 0 0 0 false 6 =
        .exited := by
  refine ⟨⟨⟨36, 40, 3, 0, 201, 300, 5, true⟩, ?_, ?_⟩, ?_⟩
  · decide
  · decide
  · decide

/-! ## The scan for a number of alignments -/

theorem scan_blocks_found (K : Int) (l : List RawDataInterval) :
    ∀ sb : Option RawDataInterval,
      (scan_blocks K l sb).2 = true ↔ ∃ b ∈ l, ¬ (b.num_alignments : Int) < K := by
  induction l with
  | nil => intro sb; simp [scan_blocks]
  | cons c rest ih =>
    intro sb
    unfold scan_blocks
    by_cases h : (c.num_alignments : Int) < K
    · rw [if_pos h, ih]
      constructor
      · rintro ⟨b, hb, hn⟩
        exact ⟨b, List.mem_cons_of_mem _ hb, hn⟩
      · rintro ⟨b, hb, hn⟩
        rcases List.mem_cons.mp hb with rfl | hb
        · exact absurd h hn
        · exact ⟨b, hb, hn⟩
    · rw [if_neg h]
      exact ⟨fun _ => ⟨c, List.mem_cons_self _ _, h⟩, fun _ => rfl⟩

theorem scan_trees_found (K : Int) (trees : ChromosomeTrees) :
    ∀ sb : Option RawDataInterval,
      (scan_trees K trees sb).2 = true ↔
        ∃ b ∈ all_blocks trees, ¬ (b.num_alignments : Int) < K := by
  induction trees with
  | nil => intro sb; simp [scan_trees, all_blocks]
  | cons p rest ih =>
    intro sb
    obtain ⟨k, tree⟩ := p
    have hb := scan_blocks_found K tree.intervals sb
    unfold scan_trees
    cases hs : scan_blocks K tree.intervals sb with
    | mk sb1 found =>
      rw [hs] at hb
      cases found with
      | true =>
        simp only [all_blocks, List.mem_append]
        obtain ⟨b, hbm, hbn⟩ := hb.mp rfl
        exact ⟨fun _ => ⟨b, Or.inl hbm, hbn⟩, fun _ => trivial⟩
      | false =>
        simp only [all_blocks, List.mem_append]
        rw [ih]
        constructor
        · rintro ⟨b, hbm, hbn⟩
          exact ⟨b, Or.inr hbm, hbn⟩
        · rintro ⟨b, hbm | hbm, hbn⟩
          · exact absurd (hb.mpr ⟨b, hbm, hbn⟩) (by simp)
          · exact ⟨b, hbm, hbn⟩

/-- With `at_num_alignments = K >= 0`, `loadOverlappingBlock` reports that no starting
block exists and exits exactly when every indexed block has `num_alignments < K`. -/
theorem loadOverlappingBlock_exited_iff (decompressBlock : RawDataInterval → List UInt8)
    (buf : InputBuffer) (chromo start_coord end_coord : Int) (is_transcript_start : Bool)
    (K : Int) (hK : 0 ≤ K) :
    loadOverlappingBlock decompressBlock buf chromo start_coord end_coord is_transcript_start K
        = .exited ↔
      ∀ b ∈ all_blocks buf.chromosome_trees, (b.num_alignments : Int) < K := by
  have hf := scan_trees_found K buf.chromosome_trees none
  unfold loadOverlappingBlock
  rw [if_pos hK]
  cases hs : scan_trees K buf.chromosome_trees none with
  | mk sb found =>
    rw [hs] at hf
    simp only
    cases found with
    | false =>
      simp only [true_iff]
      intro b hb
      by_contra hn
      exact absurd (hf.mpr ⟨b, hb, hn⟩) (by simp)
    | true =>
      obtain ⟨b, hb, hn⟩ := hf.mp rfl
      cases sb with
      | none =>
        exact ⟨fun h => absurd h (by simp), fun h => absurd (h b hb) hn⟩
      | some s =>
        exact ⟨fun h => absurd h (by simp), fun h => absurd (h b hb) hn⟩

/-- C11 fails on the code, both ways. All three blocks of `crossing_trees` have fewer
than 4 alignments before them, and the call with `at_num_alignments = 4` exits for want
of a starting block. No block of `plain_trees` has fewer than 0 alignments, and the call
with `at_num_alignments = 0` does not report it: it goes on to read through the pointer
`start_block`, which was never assigned. -/
theorem loadOverlappingBlock_no_such_point_both_ways :
    ((∃ b ∈ all_blocks crossing_trees, (b.num_alignments : Int) < 4) ∧
      loadOverlappingBlock example_decoder ⟨false, crossing_trees, [], []⟩ 0 0 0 false 4 =
        .exited) ∧
    ((∀ b ∈ all_blocks plain_trees, ¬ (b.num_alignments : Int) < 0) ∧
      loadOverlappingBlock example_decoder ⟨false, plain_trees, [], []⟩ 0 0 0 false 0 =
        .undefinedBehaviour) := by
  refine ⟨⟨⟨⟨36, 40, 120, 1, 0, 50, 3, true⟩, ?_, ?_⟩, ?_⟩, ?_, ?_⟩
  · decide
  · decide
  · decide
  · decide
  · decide

/-! ## Reading bytes from the input buffer -/

theorem getNextByte_of_bytes (decompressBlock : RawDataInterval → List UInt8)
    (buf : InputBuffer) (c : UInt8) (rest : List UInt8) (h : buf.bytes = c :: rest) :
    getNextByte decompressBlock buf = .byte c { buf with bytes := rest } := by
  unfold getNextByte
  rw [if_neg (by rw [h]; simp)]
  simp only [h]

theorem getNextByte_of_queue (decompressBlock : RawDataInterval → List UInt8)
    (buf : InputBuffer) (block : RawDataInterval) (queue : List RawDataInterval) (c : UInt8)
    (rest : List UInt8) (hb : buf.bytes = []) (hq : buf.block_queue = block :: queue)
    (hd : decompressBlock block = c :: rest) :
    getNextByte decompressBlock buf =
      .byte c { buf with block_queue := queue, bytes := rest } := by
  unfold getNextByte
  rw [if_pos (by rw [hb]; simp)]
  unfold readMoreLZIPBlocks
  simp only [hq, hb, hd, List.nil_append]

theorem hasMoreBytes_false (buf : InputBuffer) (h : hasMoreBytes buf = false) :
    buf.bytes = [] ∧ buf.block_queue = [] := by
  unfold hasMoreBytes at h
  have h1 := of_decide_eq_false h
  constructor
  · cases hb : buf.bytes with
    | nil => rfl
    | cons c rest => exact absurd (Or.inl (by rw [hb]; simp)) h1
  · cases hq : buf.block_queue with
    | nil => rfl
    | cons c rest => exact absurd (Or.inr (by rw [hq]; simp)) h1

theorem hasMoreBytes_of_bytes (buf : InputBuffer) (c : UInt8) (rest : List UInt8)
    (h : buf.bytes = c :: rest) : hasMoreBytes buf = true := by
  unfold hasMoreBytes
  exact decide_eq_true (Or.inl (by rw [h]; simp))

theorem hasMoreBytes_of_queue (buf : InputBuffer) (block : RawDataInterval)
    (queue : List RawDataInterval) (h : buf.block_queue = block :: queue) :
    hasMoreBytes buf = true := by
  unfold hasMoreBytes
  exact decide_eq_true (Or.inr (by rw [h]; simp))

theorem take_loop_eq (bytes : List UInt8) :
    ∀ (n : Int) (local_bytes : List UInt8),
      take_loop n bytes local_bytes =
        (local_bytes ++ bytes.take n.toNat, bytes.drop n.toNat) := by
  induction bytes with
  | nil => intro n l; simp [take_loop]
  | cons b rest ih =>
    intro n l
    unfold take_loop
    by_cases h : n > 0
    · rw [if_pos h, ih]
      have hn : n.toNat = (n - 1).toNat + 1 := by omega
      rw [hn]
      simp
    · rw [if_neg h]
      have hn : n.toNat = 0 := by omega
      rw [hn]
      simp

theorem to_size_t_of_nonneg (n : Int) (h0 : 0 ≤ n) (h1 : n < 2147483648) :
    to_size_t n = n := by
  unfold to_size_t
  omega

/-- The vector returned by `getNextNBytes(n)` and the deque left, for `n` in the
non-negative range of `int`. -/
theorem getNextNBytes_eq (decompressBlock : RawDataInterval → List UInt8) (buf : InputBuffer)
    (n : Int) (h0 : 0 ≤ n) (h1 : n < 2147483648) :
    getNextNBytes decompressBlock buf n =
      if (buf.bytes.length : Int) < n then
        ((readMoreLZIPBlocks decompressBlock buf).bytes.take n.toNat,
          { readMoreLZIPBlocks decompressBlock buf with
            bytes := (readMoreLZIPBlocks decompressBlock buf).bytes.drop n.toNat })
      else (buf.bytes.take n.toNat, { buf with bytes := buf.bytes.drop n.toNat }) := by
  unfold getNextNBytes
  rw [to_size_t_of_nonneg n h0 h1]
  by_cases h : (buf.bytes.length : Int) < n
  · simp only [if_pos h, take_loop_eq, List.nil_append]
  · simp only [if_neg h, take_loop_eq, List.nil_append]

/-- The number of bytes `getNextNBytes(n)` can draw on: the deque, with the next pending
block when the deque holds fewer than `n` bytes. -/
theorem readMoreLZIPBlocks_bytes (decompressBlock : RawDataInterval → List UInt8)
    (buf : InputBuffer) :
    (readMoreLZIPBlocks decompressBlock buf).bytes =
      buf.bytes ++ ((buf.block_queue.take 1).map decompressBlock).flatten := by
  unfold readMoreLZIPBlocks
  cases hq : buf.block_queue with
  | nil => simp
  | cons b q => simp

theorem readMoreLZIPBlocks_queue (decompressBlock : RawDataInterval → List UInt8)
    (buf : InputBuffer) :
    (readMoreLZIPBlocks decompressBlock buf).block_queue = buf.block_queue.drop 1 := by
  unfold readMoreLZIPBlocks
  cases hq : buf.block_queue with
  | nil => simp [hq]
  | cons b q => simp

theorem logical_stream_split (decompressBlock : RawDataInterval → List UInt8)
    (buf : InputBuffer) :
    logical_stream decompressBlock buf =
      (buf.bytes ++ ((buf.block_queue.take 1).map decompressBlock).flatten) ++
        ((buf.block_queue.drop 1).map decompressBlock).flatten := by
  unfold logical_stream
  cases buf.block_queue with
  | nil => simp
  | cons b q => simp

theorem getNextNBytes_fst (decompressBlock : RawDataInterval → List UInt8) (buf : InputBuffer)
    (n : Int) (h0 : 0 ≤ n) (h1 : n < 2147483648) :
    (getNextNBytes decompressBlock buf n).1 =
      (within_reach decompressBlock buf n).take n.toNat := by
  rw [getNextNBytes_eq decompressBlock buf n h0 h1]
  unfold within_reach
  by_cases h : (buf.bytes.length : Int) < n
  · rw [if_pos h, if_pos h, readMoreLZIPBlocks_bytes]
  · rw [if_neg h, if_neg h]

/-! ### The claims on the reading of bytes -/

/-- C12 as stated fails. With an empty deque and a pending block that decodes to no byte,
`hasMoreBytes()` is true and `getNextByte` takes the front of an empty deque. With the
deque and the queue both empty it does the same: no error is raised. -/
theorem getNextByte_counterexample :
    (hasMoreBytes ⟨false, [], [empty_block], []⟩ = true ∧
      getNextByte example_decoder ⟨false, [], [empty_block], []⟩ = .undefinedBehaviour) ∧
    (hasMoreBytes ⟨false, [], [], []⟩ = false ∧
      getNextByte example_decoder ⟨false, [], [], []⟩ = .undefinedBehaviour) := by
  decide

/-- C12, amended. `getNextByte` returns a byte whenever the deque is non-empty, or the
deque is empty and the next pending block decodes to at least one byte: the byte is the
first byte of the logical stream, the rest of the stream is left in the buffer, and the
next pending block is taken off the queue and decoded exactly when the deque was
empty. -/
theorem getNextByte_returns (decompressBlock : RawDataInterval → List UInt8)
    (buf : InputBuffer)
    (h : buf.bytes ≠ [] ∨
      ∃ block queue, buf.block_queue = block :: queue ∧ decompressBlock block ≠ []) :
    ∃ (c : UInt8) (buf1 : InputBuffer),
      getNextByte decompressBlock buf = .byte c buf1 ∧
      logical_stream decompressBlock buf = c :: logical_stream decompressBlock buf1 ∧
      (buf.bytes ≠ [] → buf1.block_queue = buf.block_queue) ∧
      (buf.bytes = [] → buf1.block_queue = buf.block_queue.drop 1) := by
  cases hb : buf.bytes with
  | cons c rest =>
    refine ⟨c, { buf with bytes := rest }, getNextByte_of_bytes decompressBlock buf c rest hb,
      ?_, fun _ => rfl, fun hn => absurd hn (by simp)⟩
    unfold logical_stream
    rw [hb]
    rfl
  | nil =>
    rcases h with h | ⟨block, queue, hq, hd⟩
    · exact absurd hb h
    · cases hdec : decompressBlock block with
      | nil => exact absurd hdec hd
      | cons c rest =>
        refine ⟨c, { buf with block_queue := queue, bytes := rest },
          getNextByte_of_queue decompressBlock buf block queue c rest hb hq hdec,
          ?_, fun hn => absurd rfl hn, fun _ => ?_⟩
        · unfold logical_stream
          rw [hb, hq]
          simp [hdec]
        · rw [hq]
          rfl

/-- Witness of C12, amended: an empty deque and a pending block of two bytes. -/
theorem getNextByte_returns_witness :
    ∃ (c : UInt8) (buf1 : InputBuffer),
      getNextByte example_decoder ⟨false, [], [two_block], []⟩ = .byte c buf1 ∧
      logical_stream example_decoder ⟨false, [], [two_block], []⟩ =
        c :: logical_stream example_decoder buf1 ∧
      ((⟨false, [], [two_block], []⟩ : InputBuffer).bytes ≠ [] →
        buf1.block_queue = (⟨false, [], [two_block], []⟩ : InputBuffer).block_queue) ∧
      ((⟨false, [], [two_block], []⟩ : InputBuffer).bytes = [] →
        buf1.block_queue = (⟨false, [], [two_block], []⟩ : InputBuffer).block_queue.drop 1) :=
  getNextByte_returns example_decoder ⟨false, [], [two_block], []⟩
    (Or.inr ⟨two_block, [], rfl, by decide⟩)

/-- C13 as stated fails: with two bytes in the deque and nothing pending, the call
`getNextNBytes(5)` does not fail, it returns the two bytes. -/
theorem getNextNBytes_short_counterexample :
    logical_stream example_decoder ⟨false, [], [], [1, 2]⟩ = [1, 2] ∧
      getNextNBytes example_decoder ⟨false, [], [], [1, 2]⟩ 5 =
        ([1, 2], ⟨false, [], [], []⟩) := by
  decide

/-- C13, amended. For `n >= 0`, `getNextNBytes(n)` always returns: the vector is the
first `n` of the bytes within its reach (the deque, with the next pending block when the
deque holds fewer than `n` bytes), so it has exactly `n` bytes when at least `n` bytes
are within reach, and otherwise it is all of those bytes, a vector shorter than `n`. -/
theorem getNextNBytes_length (decompressBlock : RawDataInterval → List UInt8)
    (buf : InputBuffer) (n : Int) (h0 : 0 ≤ n) (h1 : n < 2147483648) :
    (getNextNBytes decompressBlock buf n).1 =
        (within_reach decompressBlock buf n).take n.toNat ∧
      (getNextNBytes decompressBlock buf n).1.length =
        min n.toNat (within_reach decompressBlock buf n).length ∧
      ((within_reach decompressBlock buf n).length < n.toNat →
        (getNextNBytes decompressBlock buf n).1 = within_reach decompressBlock buf n) := by
  have hf := getNextNBytes_fst decompressBlock buf n h0 h1
  refine ⟨hf, ?_, ?_⟩
  · rw [hf, List.length_take]
  · intro hlt
    rw [hf, List.take_of_length_le (le_of_lt hlt)]

/-- Witness of C13, amended: a call for 4 bytes with 1 byte in the deque and a pending
block of two bytes. -/
theorem getNextNBytes_length_witness :
    (getNextNBytes example_decoder ⟨false, [], [two_block, three_block], [1]⟩ 4).1 =
        (within_reach example_decoder ⟨false, [], [two_block, three_block], [1]⟩ 4).take
          (4 : Int).toNat ∧
      (getNextNBytes example_decoder ⟨false, [], [two_block, three_block], [1]⟩ 4).1.length =
        min (4 : Int).toNat
          (within_reach example_decoder ⟨false, [], [two_block, three_block], [1]⟩ 4).length ∧
      ((within_reach example_decoder ⟨false, [], [two_block, three_block], [1]⟩ 4).length <
          (4 : Int).toNat →
        (getNextNBytes example_decoder ⟨false, [], [two_block, three_block], [1]⟩ 4).1 =
          within_reach example_decoder ⟨false, [], [two_block, three_block], [1]⟩ 4) :=
  getNextNBytes_length example_decoder ⟨false, [], [two_block, three_block], [1]⟩ 4
    (by decide) (by decide)

/-- C14 as stated fails: the deque holds one byte and the two pending blocks decode to
two and to three bytes, six bytes in all; the call `getNextNBytes(4)` decodes one block
and returns three bytes. -/
theorem getNextNBytes_stream_counterexample :
    (logical_stream example_decoder ⟨false, [], [two_block, three_block], [1]⟩).length = 6 ∧
      getNextNBytes example_decoder ⟨false, [], [two_block, three_block], [1]⟩ 4 =
        ([1, 7, 7], ⟨false, [], [three_block], []⟩) := by
  decide

/-- C14, amended. For every `n >= 0` such that the deque, with the next pending block
when the deque holds fewer than `n` bytes, holds at least `n` bytes, `getNextNBytes(n)`
returns the next `n` bytes of the logical stream and leaves the rest of the stream in
the buffer; it decodes no block when the deque holds `n` bytes and the next pending
block otherwise. -/
theorem getNextNBytes_stream (decompressBlock : RawDataInterval → List UInt8)
    (buf : InputBuffer) (n : Int) (h0 : 0 ≤ n) (h1 : n < 2147483648)
    (h : n.toNat ≤ (within_reach decompressBlock buf n).length) :
    (getNextNBytes decompressBlock buf n).1 =
        (logical_stream decompressBlock buf).take n.toNat ∧
      logical_stream decompressBlock (getNextNBytes decompressBlock buf n).2 =
        (logical_stream decompressBlock buf).drop n.toNat ∧
      (getNextNBytes decompressBlock buf n).2.block_queue =
        if (buf.bytes.length : Int) < n then buf.block_queue.drop 1 else buf.block_queue := by
  have hf := getNextNBytes_fst decompressBlock buf n h0 h1
  have he := getNextNBytes_eq decompressBlock buf n h0 h1
  unfold within_reach at h hf
  by_cases hlt : (buf.bytes.length : Int) < n
  · rw [if_pos hlt] at h hf he
    rw [if_pos hlt, hf, he, logical_stream_split]
    refine ⟨?_, ?_, ?_⟩
    · rw [List.take_append_of_le_length h]
    · show ((readMoreLZIPBlocks decompressBlock buf).bytes.drop n.toNat) ++
        (((readMoreLZIPBlocks decompressBlock buf).block_queue.map decompressBlock).flatten) = _
      rw [readMoreLZIPBlocks_bytes, readMoreLZIPBlocks_queue, List.drop_append_of_le_length h]
    · exact readMoreLZIPBlocks_queue decompressBlock buf
  · rw [if_neg hlt] at h hf he
    rw [if_neg hlt, hf, he]
    unfold logical_stream
    refine ⟨?_, ?_, rfl⟩
    · rw [List.take_append_of_le_length h]
    · show (buf.bytes.drop n.toNat) ++ _ = _
      rw [List.drop_append_of_le_length h]

/-- Witness of C14, amended: a call for 3 bytes with 1 byte in the deque and a pending
block of two bytes. -/
theorem getNextNBytes_stream_witness :
    (getNextNBytes example_decoder ⟨false, [], [two_block, three_block], [1]⟩ 3).1 =
        (logical_stream example_decoder ⟨false, [], [two_block, three_block], [1]⟩).take
          (3 : Int).toNat ∧
      logical_stream example_decoder
          (getNextNBytes example_decoder ⟨false, [], [two_block, three_block], [1]⟩ 3).2 =
        (logical_stream example_decoder ⟨false, [], [two_block, three_block], [1]⟩).drop
          (3 : Int).toNat ∧
      (getNextNBytes example_decoder ⟨false, [], [two_block, three_block], [1]⟩ 3).2.block_queue =
        if (((⟨false, [], [two_block, three_block], [1]⟩ : InputBuffer).bytes.length : Nat) : Int)
            < 3
        then (⟨false, [], [two_block, three_block], [1]⟩ : InputBuffer).block_queue.drop 1
        else (⟨false, [], [two_block, three_block], [1]⟩ : InputBuffer).block_queue :=
  getNextNBytes_stream example_decoder ⟨false, [], [two_block, three_block], [1]⟩ 3
    (by decide) (by decide) (by decide)

theorem drain_unfold (decompressBlock : RawDataInterval → List UInt8) (fuel : Nat)
    (buf : InputBuffer) :
    drain decompressBlock fuel buf =
      if hasMoreBytes buf then
        match fuel with
        | 0 => .outOfFuel
        | fuel + 1 =>
          match getNextByte decompressBlock buf with
          | .undefinedBehaviour => .undefinedBehaviour
          | .byte c buf1 =>
            match drain decompressBlock fuel buf1 with
            | .drained bytes decoded => .drained (c :: bytes) (dequeued buf buf1 ++ decoded)
            | .undefinedBehaviour => .undefinedBehaviour
            | .outOfFuel => .outOfFuel
      else .drained [] [] := by
  cases fuel <;> rfl

theorem drain_step (decompressBlock : RawDataInterval → List UInt8) (fuel : Nat)
    (buf buf1 : InputBuffer) (c : UInt8) (bytes : List UInt8) (decoded : List RawDataInterval)
    (hm : hasMoreBytes buf = true) (hb : getNextByte decompressBlock buf = .byte c buf1)
    (hd : drain decompressBlock fuel buf1 = .drained bytes decoded) :
    drain decompressBlock (fuel + 1) buf =
      .drained (c :: bytes) (dequeued buf buf1 ++ decoded) := by
  rw [drain_unfold, if_pos hm]
  simp only [hb, hd]

/-- A session on a buffer whose pending blocks all decode to at least one byte reads the
whole logical stream and takes every pending block off the queue, in queue order. -/
theorem drain_logical_stream (decompressBlock : RawDataInterval → List UInt8) (fuel : Nat) :
    ∀ buf : InputBuffer, (∀ b ∈ buf.block_queue, decompressBlock b ≠ []) →
      (logical_stream decompressBlock buf).length ≤ fuel →
      drain decompressBlock fuel buf =
        .drained (logical_stream decompressBlock buf) buf.block_queue := by
  induction fuel with
  | zero =>
    intro buf hne hlen
    have hnil : logical_stream decompressBlock buf = [] :=
      List.eq_nil_of_length_eq_zero (Nat.le_zero.mp hlen)
    unfold logical_stream at hnil
    obtain ⟨hb, hq⟩ := List.append_eq_nil.mp hnil
    cases hqq : buf.block_queue with
    | nil =>
      have hm : hasMoreBytes buf = false := by
        unfold hasMoreBytes
        rw [hb, hqq]
        rfl
      rw [drain_unfold, hm]
      unfold logical_stream
      rw [hb, hqq]
      rfl
    | cons b q =>
      rw [hqq] at hq
      simp only [List.map_cons, List.flatten_cons, List.append_eq_nil] at hq
      exact absurd hq.1 (hne b (by rw [hqq]; exact List.mem_cons_self _ _))
  | succ n ih =>
    intro buf hne hlen
    cases hb : buf.bytes with
    | cons c rest =>
      have hls : logical_stream decompressBlock buf =
          c :: logical_stream decompressBlock { buf with bytes := rest } := by
        unfold logical_stream
        rw [hb]
        rfl
      rw [hls] at hlen ⊢
      have hd := ih { buf with bytes := rest } hne
        (by simp only [List.length_cons] at hlen; omega)
      rw [drain_step decompressBlock n buf _ c _ _ (hasMoreBytes_of_bytes buf c rest hb)
        (getNextByte_of_bytes decompressBlock buf c rest hb) hd]
      simp [dequeued]
    | nil =>
      cases hq : buf.block_queue with
      | nil =>
        have hm : hasMoreBytes buf = false := by
          unfold hasMoreBytes
          rw [hb, hq]
          rfl
        rw [drain_unfold, hm]
        unfold logical_stream
        rw [hb, hq]
        rfl
      | cons block queue =>
        cases hdec : decompressBlock block with
        | nil => exact absurd hdec (hne block (by rw [hq]; exact List.mem_cons_self _ _))
        | cons c rest =>
          have hls : logical_stream decompressBlock buf =
              c :: logical_stream decompressBlock
                { buf with block_queue := queue, bytes := rest } := by
            unfold logical_stream
            rw [hb, hq]
            simp [hdec]
          rw [hls] at hlen ⊢
          have hd := ih { buf with block_queue := queue, bytes := rest }
            (fun b hbm => hne b (by rw [hq]; exact List.mem_cons_of_mem _ hbm))
            (by simp only [List.length_cons] at hlen; omega)
          rw [drain_step decompressBlock n buf _ c _ _
            (hasMoreBytes_of_queue buf block queue hq)
            (getNextByte_of_queue decompressBlock buf block queue c rest hb hq hdec) hd]
          simp [dequeued, hq]

/-- C15 as stated fails: the deque holds the decoded head block and the second pending
block decodes to no byte; the session reads the head block and the first pending block,
finds `hasMoreBytes()` true, and `getNextByte` takes the front of an empty deque. -/
theorem drain_counterexample :
    (⟨false, [], [three_block, empty_block], example_decoder two_block⟩ : InputBuffer).bytes =
        example_decoder two_block ∧
      ∀ fuel : Nat, 10 ≤ fuel →
        drain example_decoder fuel
            ⟨false, [], [three_block, empty_block], example_decoder two_block⟩ =
          .undefinedBehaviour := by
  refine ⟨rfl, fun fuel hf => ?_⟩
  obtain ⟨k, rfl⟩ : ∃ k, fuel = k + 6 := ⟨fuel - 6, by omega⟩
  rfl

/-- C15, amended. For every state left by `loadOverlappingBlock` with decoded head block
`h` and pending queue `[b1, ..., bk]` whose blocks each decode to at least one byte, the
bytes returned by calling `getNextByte` while `hasMoreBytes()` is true are
`decode(h) ++ decode(b1) ++ ... ++ decode(bk)`, and the blocks taken off the queue and
decoded in the session are `b1, ..., bk`, each once, in queue order. -/
theorem drain_session (decompressBlock : RawDataInterval → List UInt8) (fuel : Nat)
    (buf : InputBuffer) (h : RawDataInterval) (hhead : buf.bytes = decompressBlock h)
    (hne : ∀ b ∈ buf.block_queue, decompressBlock b ≠ [])
    (hfuel : (logical_stream decompressBlock buf).length ≤ fuel) :
    drain decompressBlock fuel buf =
      .drained (decompressBlock h ++ (buf.block_queue.map decompressBlock).flatten)
        buf.block_queue := by
  rw [drain_logical_stream decompressBlock fuel buf hne hfuel]
  unfold logical_stream
  rw [hhead]

/-- Witness of C15, amended: the state left by the query `[150, 250]` on chromosome 0 of
`plain_trees`. -/
theorem drain_session_witness :
    drain example_decoder 5
        ⟨false, plain_trees, [three_block], example_decoder two_block⟩ =
      .drained (example_decoder two_block ++
          ((⟨false, plain_trees, [three_block], example_decoder two_block⟩ :
            InputBuffer).block_queue.map example_decoder).flatten)
        (⟨false, plain_trees, [three_block], example_decoder two_block⟩ :
          InputBuffer).block_queue :=
  drain_session example_decoder 5 ⟨false, plain_trees, [three_block], example_decoder two_block⟩
    two_block rfl (by decide) (by decide)

/-! ## The parsers -/

theorem find_char_eq_none (c : Char) (s : List Char) : find_char c s = none ↔ c ∉ s := by
  induction s with
  | nil => simp [find_char]
  | cons x xs ih =>
    unfold find_char
    by_cases h : x = c
    · simp [h]
    · rw [if_neg h, Option.map_eq_none', ih]
      simp [Ne.symm h]

theorem find_char_append (c : Char) (front back : List Char) (h : c ∉ front) :
    find_char c (front ++ c :: back) = some front.length := by
  induction front with
  | nil => simp [find_char]
  | cons x xs ih =>
    have hx : x ≠ c := fun e => h (by rw [e]; exact List.mem_cons_self _ _)
    have hxs : c ∉ xs := fun e => h (List.mem_cons_of_mem _ e)
    show find_char c (x :: (xs ++ c :: back)) = some (xs.length + 1)
    unfold find_char
    rw [if_neg hx, ih hxs]
    rfl

theorem isDigit_digitChar (d : Nat) (h : d < 10) : (Nat.digitChar d).isDigit = true := by
  interval_cases d <;> decide

theorem digit_value_digitChar (d : Nat) (h : d < 10) : digit_value (Nat.digitChar d) = d := by
  interval_cases d <;> decide

theorem isDigit_decimal_digits (fuel : Nat) :
    ∀ n : Nat, ∀ c ∈ decimal_digits fuel n, c.isDigit = true := by
  induction fuel with
  | zero => intro n c hc; simp [decimal_digits] at hc
  | succ f ih =>
    intro n c hc
    unfold decimal_digits at hc
    by_cases h : n < 10
    · rw [if_pos h, List.mem_singleton] at hc
      rw [hc]; exact isDigit_digitChar n h
    · rw [if_neg h, List.mem_append, List.mem_singleton] at hc
      rcases hc with hc | hc
      · exact ih _ c hc
      · rw [hc]; exact isDigit_digitChar _ (Nat.mod_lt _ (by decide))

theorem digits_value_append (xs : List Char) (c : Char) :
    digits_value (xs ++ [c]) = digits_value xs * 10 + digit_value c := by
  simp [digits_value, List.foldl_append]

theorem digits_value_decimal_digits (fuel : Nat) :
    ∀ n : Nat, n < fuel → digits_value (decimal_digits fuel n) = n := by
  induction fuel with
  | zero => intro n h; exact absurd h (Nat.not_lt_zero _)
  | succ f ih =>
    intro n hn
    unfold decimal_digits
    by_cases h : n < 10
    · rw [if_pos h]
      simp [digits_value, digit_value_digitChar n h]
    · rw [if_neg h, digits_value_append, ih (n / 10) (by omega),
        digit_value_digitChar _ (Nat.mod_lt _ (by decide))]
      omega

theorem decimal_digits_ne_nil (fuel n : Nat) : decimal_digits (fuel + 1) n ≠ [] := by
  unfold decimal_digits
  by_cases h : n < 10
  · rw [if_pos h]; simp
  · rw [if_neg h]; simp

theorem isDigit_decimal (n : Nat) : ∀ c ∈ decimal n, c.isDigit = true :=
  isDigit_decimal_digits (n + 1) n

theorem digits_value_decimal (n : Nat) : digits_value (decimal n) = n :=
  digits_value_decimal_digits (n + 1) n (Nat.lt_succ_self n)

theorem decimal_ne_nil (n : Nat) : decimal n ≠ [] := decimal_digits_ne_nil n n

theorem not_mem_decimal (n : Nat) (c : Char) (h : c.isDigit = false) : c ∉ decimal n := by
  intro hc
  rw [isDigit_decimal n c hc] at h
  exact absurd h (by simp)

theorem is_space_of_isDigit (c : Char) (h : c.isDigit = true) : is_space c = false := by
  unfold Char.isDigit at h
  unfold is_space
  have h1 : 48 ≤ c.toNat ∧ c.toNat ≤ 57 := by
    simp only [Bool.and_eq_true, decide_eq_true_eq] at h
    exact ⟨h.1, h.2⟩
  exact decide_eq_false (by omega)

theorem takeWhile_digits (xs rest : List Char) (hx : ∀ c ∈ xs, c.isDigit = true)
    (hrest : ∀ c, rest.head? = some c → c.isDigit = false) :
    (xs ++ rest).takeWhile Char.isDigit = xs := by
  induction xs with
  | nil =>
    cases rest with
    | nil => rfl
    | cons c r =>
      have hc : c.isDigit = false := hrest c rfl
      simp [List.takeWhile, hc]
  | cons x xs ih =>
    have hxd : x.isDigit = true := hx x (List.mem_cons_self _ _)
    have ih1 := ih (fun c hc => hx c (List.mem_cons_of_mem _ hc))
    simp [List.takeWhile, hxd, ih1]

/-- The number read at the front of a decimal numeral followed by something that is not
a digit is the number of the numeral. -/
theorem parse_number_decimal (n : Nat) (rest : List Char)
    (hrest : ∀ c, rest.head? = some c → c.isDigit = false) :
    parse_number (decimal n ++ rest) = some (n : Int) := by
  have hdig := isDigit_decimal n
  have hval := digits_value_decimal n
  have htw := takeWhile_digits (decimal n) rest hdig hrest
  cases hd : decimal n with
  | nil => exact absurd hd (decimal_ne_nil n)
  | cons d ds =>
    rw [hd] at hdig hval htw
    have hdd : d.isDigit = true := hdig d (List.mem_cons_self _ _)
    have hsp : is_space d = false := is_space_of_isDigit d hdd
    have hminus : d ≠ '-' := fun e => by rw [e] at hdd; exact absurd hdd (by decide)
    have hplus : d ≠ '+' := fun e => by rw [e] at hdd; exact absurd hdd (by decide)
    have hdrop : (d :: ds ++ rest).dropWhile is_space = d :: ds ++ rest := by
      simp [List.dropWhile, hsp]
    unfold parse_number
    simp only [hdrop]
    have hhead : (d :: ds ++ rest).head? = some d := rfl
    rw [hhead]
    have h1 : ¬ (some d = some '-' ∨ some d = some '+') := by
      simp [hminus, hplus]
    have h2 : ¬ (some d = some '-') := by simp [hminus]
    rw [if_neg h1, htw, if_neg (by simp), if_neg h2, hval]

theorem stoi_decimal (n : Nat) (rest : List Char) (hn : n < 2147483648)
    (hrest : ∀ c, rest.head? = some c → c.isDigit = false) :
    stoi (decimal n ++ rest) = some (n : Int) := by
  unfold stoi
  rw [parse_number_decimal n rest hrest]
  simp only
  rw [if_pos (by omega)]

theorem stoul_decimal (n : Nat) (rest : List Char) (hn : n < 18446744073709551616)
    (hrest : ∀ c, rest.head? = some c → c.isDigit = false) :
    stoul (decimal n ++ rest) = some n := by
  unfold stoul
  rw [parse_number_decimal n rest hrest]
  simp only
  rw [if_pos (by omega)]
  congr 1
  omega

theorem substr_whole (s : List Char) (pos : Nat) (h : pos ≤ s.length) :
    substr s pos none = some (s.drop pos) := by
  unfold substr
  rw [if_neg (by omega)]

theorem substr_some (s : List Char) (pos n : Nat) (h : pos ≤ s.length) :
    substr s pos (some n) = some ((s.drop pos).take n) := by
  unfold substr
  rw [if_neg (by omega)]

/-- The three slices that `parseInputInterval` takes of the string `chr<N>:<S>-<E>`: the
slice for the start is the numeral of `S` with the separator `-` after it. -/
theorem query_string_slices (N S E : Nat) :
    str_find ':' (query_string N S E) 0 = some (3 + (decimal N).length) ∧
      (substr (query_string N S E) 0 (some (3 + (decimal N).length))).bind
        (fun s => substr s 3 none) = some (decimal N) ∧
      str_find '-' (query_string N S E) (3 + (decimal N).length) =
        some (3 + (decimal N).length + 1 + (decimal S).length) ∧
      substr (query_string N S E) (3 + (decimal N).length + 1)
        (some (3 + (decimal N).length + 1 + (decimal S).length - (3 + (decimal N).length))) =
        some (decimal S ++ ['-']) ∧
      substr (query_string N S E) (3 + (decimal N).length + 1 + (decimal S).length + 1) none =
        some (decimal E) := by
  have hq : query_string N S E =
      (['c', 'h', 'r'] ++ decimal N) ++ ':' :: (decimal S ++ '-' :: decimal E) := by
    unfold query_string
    simp
  have hlen : (['c', 'h', 'r'] ++ decimal N).length = 3 + (decimal N).length := by
    simp only [List.length_append, List.length_cons, List.length_nil]
  have hcolon : ':' ∉ ['c', 'h', 'r'] ++ decimal N := by
    intro h
    rcases List.mem_append.mp h with h | h
    · exact absurd h (by decide)
    · exact not_mem_decimal N ':' (by decide) h
  have hdrop1 : (query_string N S E).drop (3 + (decimal N).length) =
      ':' :: (decimal S ++ '-' :: decimal E) := by
    rw [hq, ← hlen, List.drop_left]
  have hdrop2 : (query_string N S E).drop (3 + (decimal N).length + 1) =
      decimal S ++ '-' :: decimal E := by
    rw [← List.drop_drop, hdrop1]
    rfl
  have hdrop3 : (query_string N S E).drop (3 + (decimal N).length + 1 + (decimal S).length + 1)
      = decimal E := by
    rw [← List.drop_drop, ← List.drop_drop (n := (decimal S).length), hdrop2, List.drop_left]
    rfl
  have hsize : (query_string N S E).length =
      3 + (decimal N).length + 1 + (decimal S).length + 1 + (decimal E).length := by
    rw [hq]
    simp only [List.length_append, List.length_cons, List.length_nil]
    omega
  refine ⟨?_, ?_, ?_, ?_, ?_⟩
  · unfold str_find
    rw [List.drop_zero, hq, find_char_append ':' _ _ hcolon, hlen]
    rfl
  · rw [substr_some _ _ _ (Nat.zero_le _), List.drop_zero, hq, ← hlen, List.take_left]
    simp only [Option.some_bind]
    rw [substr_whole _ _ (by rw [hlen]; omega)]
    rfl
  · unfold str_find
    rw [hdrop1]
    have hdash : '-' ∉ ':' :: decimal S := by
      intro h
      rcases List.mem_cons.mp h with h | h
      · exact absurd h (by decide)
      · exact not_mem_decimal S '-' (by decide) h
    have h1 : ':' :: (decimal S ++ '-' :: decimal E) = (':' :: decimal S) ++ '-' :: decimal E :=
      rfl
    rw [h1, find_char_append '-' _ _ hdash]
    simp only [Option.map_some', List.length_cons]
    congr 1
    omega
  · rw [substr_some _ _ _ (by rw [hsize]; omega), hdrop2]
    have hk : 3 + (decimal N).length + 1 + (decimal S).length - (3 + (decimal N).length) =
        (decimal S).length + 1 := by omega
    rw [hk]
    have h2 : decimal S ++ '-' :: decimal E = (decimal S ++ ['-']) ++ decimal E := by simp
    rw [h2]
    have h3 : (decimal S).length + 1 = (decimal S ++ ['-']).length := by simp
    rw [h3, List.take_left]
  · rw [substr_whole _ _ (by rw [hsize]; omega), hdrop3]

theorem stoi_decimal_alone (n : Nat) (hn : n < 2147483648) :
    stoi (decimal n) = some (n : Int) := by
  have h := stoi_decimal n [] hn (fun c hc => absurd hc (by simp))
  rw [List.append_nil] at h
  exact h

/-! ### The claims on the parsers -/

/-- C16. For all non-negative `N`, `S`, `E` that fit an `int`, `parseInputInterval`
applied to `chr<N>:<S>-<E>` returns the interval `(N, S, E)`; the slice taken for the
start is the numeral of `S` followed by the separator `-`, and it reads as `S`. -/
theorem parseInputInterval_query (N S E : Nat) (hN : N < 2147483648) (hS : S < 2147483648)
    (hE : E < 2147483648) :
    parseInputInterval (query_string N S E) = .interval N S E ∧
      ∃ idx idx2 : Nat,
        str_find ':' (query_string N S E) 0 = some idx ∧
        str_find '-' (query_string N S E) idx = some idx2 ∧
        substr (query_string N S E) (idx + 1) (some (idx2 - idx)) = some (decimal S ++ ['-']) ∧
        stoi (decimal S ++ ['-']) = some (S : Int) := by
  obtain ⟨h1, h2, h3, h4, h5⟩ := query_string_slices N S E
  have hs : stoi (decimal S ++ ['-']) = some (S : Int) :=
    stoi_decimal S ['-'] hS (fun c hc => by
      simp only [List.head?_cons, Option.some.injEq] at hc
      rw [← hc]; decide)
  refine ⟨?_, 3 + (decimal N).length, 3 + (decimal N).length + 1 + (decimal S).length,
    h1, h3, h4, hs⟩
  unfold parseInputInterval
  simp only [h1, h2, h3, h4, h5, Option.some_bind, stoi_decimal_alone N hN, hs,
    stoi_decimal_alone E hE]

/-- Witness of C16: the query `chr2:5000000-100000000`. -/
theorem parseInputInterval_query_witness :
    parseInputInterval (query_string 2 5000000 100000000) =
        .interval (2 : Nat) (5000000 : Nat) (100000000 : Nat) ∧
      ∃ idx idx2 : Nat,
        str_find ':' (query_string 2 5000000 100000000) 0 = some idx ∧
        str_find '-' (query_string 2 5000000 100000000) idx = some idx2 ∧
        substr (query_string 2 5000000 100000000) (idx + 1) (some (idx2 - idx)) =
          some (decimal 5000000 ++ ['-']) ∧
        stoi (decimal 5000000 ++ ['-']) = some ((5000000 : Nat) : Int) :=
  parseInputInterval_query 2 5000000 100000000 (by decide) (by decide) (by decide)

/-- C17 as stated fails: the query `chrX:5` has a `:` and no `-`, and no parse error is
reported: the conversion of the chromosome, made before the `-` is looked for, throws. -/
theorem parseInputInterval_missing_counterexample :
    str_find ':' ['c', 'h', 'r', 'X', ':', '5'] 0 = some 4 ∧
      '-' ∉ ['c', 'h', 'r', 'X', ':', '5'] ∧
      parseInputInterval ['c', 'h', 'r', 'X', ':', '5'] = .threw := by
  decide

/-- C17, amended. For every query string that contains no `:`, `parseInputInterval`
reports a parse error. For every query string that contains no `-` at or after its first
`:`, it returns no interval: it reports a parse error when the text before the `:` gives
a chromosome number, and otherwise the exception of the conversion leaves the
function. -/
theorem parseInputInterval_missing (location : List Char)
    (h : ':' ∉ location ∨
      ∃ idx, str_find ':' location 0 = some idx ∧ '-' ∉ location.drop idx) :
    (':' ∉ location → parseInputInterval location = .parseError) ∧
      (∀ idx chr, str_find ':' location 0 = some idx →
        ((substr location 0 (some idx)).bind (fun s => substr s 3 none)).bind stoi = some chr →
        parseInputInterval location = .parseError) ∧
      (parseInputInterval location = .parseError ∨ parseInputInterval location = .threw) := by
  have hnone : ':' ∉ location → parseInputInterval location = .parseError := by
    intro hc
    have hf : str_find ':' location 0 = none := by
      unfold str_find
      rw [List.drop_zero, (find_char_eq_none ':' location).mpr hc]
      rfl
    unfold parseInputInterval
    simp only [hf]
  rcases h with h | ⟨idx, hidx, hdash⟩
  · refine ⟨hnone, ?_, Or.inl (hnone h)⟩
    intro idx chr hidx
    have hf : str_find ':' location 0 = none := by
      unfold str_find
      rw [List.drop_zero, (find_char_eq_none ':' location).mpr h]
      rfl
    rw [hf] at hidx
    exact absurd hidx (by simp)
  · have hf2 : str_find '-' location idx = none := by
      unfold str_find
      rw [(find_char_eq_none '-' _).mpr hdash]
      rfl
    have hparsed : ∀ chr,
        ((substr location 0 (some idx)).bind (fun s => substr s 3 none)).bind stoi = some chr →
        parseInputInterval location = .parseError := by
      intro chr hchr
      unfold parseInputInterval
      simp only [hidx, hchr, hf2]
    refine ⟨hnone, ?_, ?_⟩
    · intro idx1 chr hidx1 hchr
      rw [hidx] at hidx1
      rw [← Option.some.inj hidx1] at hchr
      exact hparsed chr hchr
    · cases hchr : ((substr location 0 (some idx)).bind (fun s => substr s 3 none)).bind stoi with
      | some chr => exact Or.inl (hparsed chr hchr)
      | none =>
        right
        unfold parseInputInterval
        simp only [hidx, hchr]

/-- Witness of C17, amended: the query `chr2:5000000` has no `-`. -/
theorem parseInputInterval_missing_witness :
    (':' ∉ ['c', 'h', 'r', '2', ':', '5'] →
        parseInputInterval ['c', 'h', 'r', '2', ':', '5'] = .parseError) ∧
      (∀ idx chr, str_find ':' ['c', 'h', 'r', '2', ':', '5'] 0 = some idx →
        ((substr ['c', 'h', 'r', '2', ':', '5'] 0 (some idx)).bind
          (fun s => substr s 3 none)).bind stoi = some chr →
        parseInputInterval ['c', 'h', 'r', '2', ':', '5'] = .parseError) ∧
      (parseInputInterval ['c', 'h', 'r', '2', ':', '5'] = .parseError ∨
        parseInputInterval ['c', 'h', 'r', '2', ':', '5'] = .threw) :=
  parseInputInterval_missing ['c', 'h', 'r', '2', ':', '5']
    (Or.inr ⟨4, by decide, by decide⟩)

theorem interval_map_find_cons (s k : List Char) (v : List TrueGenomicInterval)
    (m : IntervalMap) :
    interval_map_find s ((k, v) :: m) = if k = s then some v else interval_map_find s m := rfl

theorem interval_map_find_append (s k : List Char) (m : IntervalMap) :
    interval_map_find s (m ++ [(k, [])]) =
      match interval_map_find s m with
      | some v => some v
      | none => if k = s then some [] else none := by
  induction m with
  | nil => simp [interval_map_find]
  | cons p rest ih =>
    obtain ⟨k1, v1⟩ := p
    rw [List.cons_append, interval_map_find_cons, interval_map_find_cons]
    by_cases h : k1 = s
    · rw [if_pos h, if_pos h]
    · rw [if_neg h, if_neg h, ih]

theorem interval_map_find_push (s k : List Char) (e : TrueGenomicInterval) (m : IntervalMap) :
    interval_map_find s (interval_map_push k e m) =
      if k = s then (interval_map_find s m).map (· ++ [e]) else interval_map_find s m := by
  induction m with
  | nil => simp [interval_map_push, interval_map_find]
  | cons p rest ih =>
    obtain ⟨k1, v1⟩ := p
    unfold interval_map_push
    by_cases h1 : k1 = k
    · rw [if_pos h1]
      by_cases h2 : k = s
      · simp [interval_map_find, h1, h2]
      · have h3 : k1 ≠ s := by rw [h1]; exact h2
        simp [interval_map_find, h2, h3]
    · rw [if_neg h1]
      by_cases h2 : k = s
      · have h3 : k1 ≠ s := by rw [← h2]; exact h1
        simp only [interval_map_find, if_neg h3, ih, if_pos h2]
      · by_cases h3 : k1 = s
        · simp [interval_map_find, h2, h3]
        · simp only [interval_map_find, if_neg h3, ih, if_neg h2]

/-- The entries of a suffix after one line of that or of another suffix has been read. -/
theorem interval_map_find_line (s k : List Char) (e : TrueGenomicInterval) (m : IntervalMap) :
    interval_map_find s (interval_map_push k e (interval_map_ensure k m)) =
      if k = s then some ((interval_map_find s m).getD [] ++ [e])
      else interval_map_find s m := by
  rw [interval_map_find_push]
  unfold interval_map_ensure
  by_cases h : k = s
  · rw [if_pos h, if_pos h, h]
    cases hf : interval_map_find s m with
    | none =>
      rw [if_pos rfl, interval_map_find_append, hf]
      simp
    | some v =>
      rw [if_neg (by simp), hf]
      simp
  · rw [if_neg h, if_neg h]
    cases hf : interval_map_find k m with
    | none =>
      rw [if_pos rfl, interval_map_find_append]
      cases interval_map_find s m with
      | none => simp [h]
      | some v => rfl
    | some v => rw [if_neg (by simp)]

/-- The body of the loop of `parseGenomicIntervals` on a line of the format: the vector
of the suffix of the line gets one more entry, made of the text of the coordinates and
of the number of alignments. -/
theorem parse_line_text (make_interval : List Char → Nat → TrueGenomicInterval)
    (m : IntervalMap) (l : IndexLine) (hwf : l.wf) :
    parse_line make_interval m l.text =
      some (interval_map_push l.suffix (make_interval l.coordinates l.num_alignments)
        (interval_map_ensure l.suffix m)) := by
  obtain ⟨hsp, hnum⟩ := hwf
  have hdsp : ' ' ∉ decimal l.num_alignments := not_mem_decimal _ ' ' (by decide)
  have htext : l.text = l.suffix ++ ' ' :: (decimal l.num_alignments ++ ' ' :: l.coordinates) := by
    unfold IndexLine.text
    simp
  have hsize : l.text.length =
      l.suffix.length + 1 + (decimal l.num_alignments).length + 1 + l.coordinates.length := by
    rw [htext]
    simp only [List.length_append, List.length_cons]
    omega
  have hspace : str_find ' ' l.text 0 = some l.suffix.length := by
    unfold str_find
    rw [List.drop_zero, htext, find_char_append ' ' _ _ hsp]
    rfl
  have hdrop1 : l.text.drop (l.suffix.length + 1) =
      decimal l.num_alignments ++ ' ' :: l.coordinates := by
    rw [← List.drop_drop, htext, List.drop_left]
    rfl
  have hsecond : str_find ' ' l.text (l.suffix.length + 1) =
      some ((decimal l.num_alignments).length + (l.suffix.length + 1)) := by
    unfold str_find
    rw [hdrop1, find_char_append ' ' _ _ hdsp]
    rfl
  have hsuffix : substr l.text 0 (some l.suffix.length) = some l.suffix := by
    rw [substr_some _ _ _ (Nat.zero_le _), List.drop_zero, htext, List.take_left]
  have hfield : substr l.text (l.suffix.length + 1)
      (some ((decimal l.num_alignments).length + (l.suffix.length + 1))) =
      some (decimal l.num_alignments ++ ' ' :: l.coordinates.take l.suffix.length) := by
    rw [substr_some _ _ _ (by rw [hsize]; omega), hdrop1, List.take_append_eq_append_take,
      List.take_of_length_le (by omega)]
    have hk : (decimal l.num_alignments).length + (l.suffix.length + 1) -
        (decimal l.num_alignments).length = l.suffix.length + 1 := by omega
    rw [hk]
    rfl
  have hstoul : stoul (decimal l.num_alignments ++ ' ' :: l.coordinates.take l.suffix.length) =
      some l.num_alignments :=
    stoul_decimal _ _ hnum (fun c hc => by
      simp only [List.head?_cons, Option.some.injEq] at hc
      rw [← hc]; decide)
  have hcoord : substr l.text ((decimal l.num_alignments).length + (l.suffix.length + 1) + 1)
      none = some l.coordinates := by
    rw [substr_whole _ _ (by rw [hsize]; omega)]
    have hk : (decimal l.num_alignments).length + (l.suffix.length + 1) + 1 =
        (l.suffix.length + 1) + ((decimal l.num_alignments).length + 1) := by omega
    rw [hk, ← List.drop_drop, hdrop1]
    have h2 : decimal l.num_alignments ++ ' ' :: l.coordinates =
        (decimal l.num_alignments ++ [' ']) ++ l.coordinates := by simp
    have h3 : (decimal l.num_alignments).length + 1 =
        (decimal l.num_alignments ++ [' ']).length := by simp
    rw [h2, h3, List.drop_left]
  unfold parse_line
  simp only [hspace, plus_one, hsuffix, hsecond, hfield, Option.some_bind, hstoul, hcoord]

theorem parse_lines_find (make_interval : List Char → Nat → TrueGenomicInterval)
    (ls : List IndexLine) :
    ∀ m : IntervalMap, (∀ l ∈ ls, l.wf) →
      ∃ m1, parse_lines make_interval (ls.map IndexLine.text) m = some m1 ∧
        ∀ s : List Char, interval_map_find s m1 =
          if grouped make_interval ls s = [] then interval_map_find s m
          else some ((interval_map_find s m).getD [] ++ grouped make_interval ls s) := by
  induction ls with
  | nil =>
    intro m _
    exact ⟨m, rfl, fun s => by simp [grouped]⟩
  | cons l rest ih =>
    intro m hwf
    have hl := parse_line_text make_interval m l (hwf l (List.mem_cons_self _ _))
    obtain ⟨m1, hm1, hfind⟩ := ih
      (interval_map_push l.suffix (make_interval l.coordinates l.num_alignments)
        (interval_map_ensure l.suffix m))
      (fun x hx => hwf x (List.mem_cons_of_mem _ hx))
    refine ⟨m1, ?_, ?_⟩
    · simp only [List.map_cons, parse_lines, hl]
      exact hm1
    · intro s
      rw [hfind s, interval_map_find_line]
      by_cases hs : l.suffix = s
      · have hg : grouped make_interval (l :: rest) s =
            make_interval l.coordinates l.num_alignments :: grouped make_interval rest s := by
          simp [grouped, hs]
        rw [hg, if_pos hs, if_neg (List.cons_ne_nil _ _)]
        by_cases hr : grouped make_interval rest s = []
        · rw [if_pos hr, hr]
        · rw [if_neg hr]
          simp
      · have hg : grouped make_interval (l :: rest) s = grouped make_interval rest s := by
          simp [grouped, hs]
        rw [hg, if_neg hs]

/-- C18. For every sidecar index whose lines have the form
`<suffix> <num_alignments> <coordinates...>`, `parseGenomicIntervals` returns a map in
which the vector stored under each suffix has one entry per line of that suffix, in file
order, entry `j` being made of the coordinate text (everything after the second space)
and of the number of alignments of the `j`-th such line; a suffix that no line carries
has no vector. -/
theorem parseGenomicIntervals_partition
    (make_interval : List Char → Nat → TrueGenomicInterval) (ls : List IndexLine)
    (hwf : ∀ l ∈ ls, l.wf) :
    ∃ m, parseGenomicIntervals make_interval (ls.map IndexLine.text) = some m ∧
      ∀ s : List Char,
        interval_map_find s m =
          if (ls.filter (fun l => decide (l.suffix = s))) = [] then none
          else some ((ls.filter (fun l => decide (l.suffix = s))).map
            (fun l => make_interval l.coordinates l.num_alignments)) := by
  obtain ⟨m, hm, hfind⟩ := parse_lines_find make_interval ls [] hwf
  refine ⟨m, hm, fun s => ?_⟩
  rw [hfind s]
  unfold grouped
  by_cases h : ls.filter (fun l => decide (l.suffix = s)) = []
  · rw [if_pos (by rw [h]; rfl), if_pos h]
    rfl
  · rw [if_neg (by simpa using h), if_neg h]
    rfl

/-- Witness of C18: three lines for the streams `.offs.lz` and `.edits.lz`. -/
theorem parseGenomicIntervals_partition_witness :
    ∃ m, parseGenomicIntervals example_interval (example_lines.map IndexLine.text) = some m ∧
      ∀ s : List Char,
        interval_map_find s m =
          if (example_lines.filter (fun l => decide (l.suffix = s))) = [] then none
          else some ((example_lines.filter (fun l => decide (l.suffix = s))).map
            (fun l => example_interval l.coordinates l.num_alignments)) :=
  parseGenomicIntervals_partition example_interval example_lines (by decide)

/-! ## Invariants of the index build -/

theorem mem_map_assign (k : Int) (v : IntervalTree) (m : ChromosomeTrees)
    (p : Int × IntervalTree) (hp : p ∈ map_assign k v m) : p = (k, v) ∨ p ∈ m := by
  induction m with
  | nil =>
    simp only [map_assign, List.mem_singleton] at hp
    exact Or.inl hp
  | cons q rest ih =>
    obtain ⟨k1, v1⟩ := q
    unfold map_assign at hp
    by_cases h1 : k < k1
    · rw [if_pos h1] at hp
      rcases List.mem_cons.mp hp with h | h
      · exact Or.inl h
      · exact Or.inr h
    · rw [if_neg h1] at hp
      by_cases h2 : k = k1
      · rw [if_pos h2] at hp
        rcases List.mem_cons.mp hp with h | h
        · exact Or.inl h
        · exact Or.inr (List.mem_cons_of_mem _ h)
      · rw [if_neg h2] at hp
        rcases List.mem_cons.mp hp with h | h
        · exact Or.inr (by rw [h]; exact List.mem_cons_self _ _)
        · rcases ih h with h3 | h3
          · exact Or.inl h3
          · exact Or.inr (List.mem_cons_of_mem _ h3)

theorem map_find_mem (c : Int) (tree : IntervalTree) (m : ChromosomeTrees)
    (h : map_find c m = some tree) : (c, tree) ∈ m := by
  induction m with
  | nil => simp [map_find] at h
  | cons q rest ih =>
    obtain ⟨k1, v1⟩ := q
    unfold map_find at h
    by_cases h1 : c = k1
    · rw [if_pos h1] at h
      rw [h1, ← Option.some.inj h]
      exact List.mem_cons_self _ _
    · rw [if_neg h1] at h
      exact List.mem_cons_of_mem _ (ih h)

theorem keyed_createTree (k : Int) (l : List RawDataInterval) (m : ChromosomeTrees)
    (hm : keyed m) (hl : ∀ b ∈ l, b.chromosome = k) : keyed (createTree k l m) := by
  intro p hp b hb
  unfold createTree at hp
  rcases mem_map_assign k ⟨l⟩ m p hp with h | h
  · rw [h] at hb ⊢
    exact hl b hb
  · exact hm p h b hb

theorem keyed_span_loop (block : MyBlock) (interval : TrueGenomicInterval) (n : Nat) :
    ∀ (k : Int) (trees : ChromosomeTrees), keyed trees →
      keyed (span_loop block interval n k trees) := by
  induction n with
  | zero => intro k trees h; exact h
  | succ n ih =>
    intro k trees h
    show keyed (span_loop block interval n (k + 1) _)
    apply ih
    apply keyed_createTree _ _ _ h
    intro b hb
    rw [List.mem_singleton] at hb
    rw [hb]
    rfl

theorem TreeInv_seal (st : TreeState) (interval : TrueGenomicInterval) (h : TreeInv st) :
    TreeInv (tree_seal st interval) := by
  unfold tree_seal
  by_cases hc : st.prev_chromo ≠ interval.start.chromosome
  · rw [if_pos hc]
    exact ⟨keyed_createTree _ _ _ h.1 h.2, fun b hb => absurd hb (by simp)⟩
  · rw [if_neg hc]
    exact h

theorem TreeInv_emit (st : TreeState) (interval : TrueGenomicInterval) (block : MyBlock)
    (h : TreeInv st) (hp : st.prev_chromo = interval.start.chromosome) :
    TreeInv (tree_emit st interval block) := by
  by_cases hc : interval.start.chromosome = interval.end_.chromosome
  · rw [tree_emit_same st interval block hc]
    refine ⟨h.1, ?_⟩
    intro b hb
    rcases List.mem_append.mp hb with hb | hb
    · exact h.2 b hb
    · rw [List.mem_singleton] at hb
      rw [hb]
      exact hp.symm
  · rw [tree_emit_split st interval block hc]
    refine ⟨?_, ?_⟩
    · apply keyed_span_loop
      apply keyed_createTree _ _ _ h.1
      intro b hb
      rcases List.mem_append.mp hb with hb | hb
      · rw [h.2 b hb]; exact hp
      · rw [List.mem_singleton] at hb
        rw [hb]
        rfl
    · intro b hb
      rw [List.mem_singleton] at hb
      rw [hb]
      rfl

theorem TreeInv_body (st : TreeState) (interval : TrueGenomicInterval) (block : MyBlock)
    (h : TreeInv st) : TreeInv (tree_body st interval block) :=
  TreeInv_emit _ interval block (TreeInv_seal st interval h) (tree_seal_start st interval)

theorem tree_for_inv (lzip_blocks : List MyBlock) (tuples : List TrueGenomicInterval) :
    ∀ (i : Nat) (st st1 : TreeState), TreeInv st →
      tree_for lzip_blocks tuples i st = Sum.inr st1 → TreeInv st1 := by
  induction tuples with
  | nil =>
    intro i st st1 h hf
    rw [← Sum.inr.inj hf]
    exact h
  | cons t rest ih =>
    intro i st st1 h hf
    unfold tree_for at hf
    cases hb : lzip_blocks[i]? with
    | none => rw [hb] at hf; exact absurd hf (by simp)
    | some block =>
      rw [hb] at hf
      exact ih (i + 1) _ st1 (TreeInv_body st t block h) hf

/-- With a block for every tuple the loop over the tuples reads no block past the end. -/
theorem tree_for_total (lzip_blocks : List MyBlock) (tuples : List TrueGenomicInterval) :
    ∀ (i : Nat) (st : TreeState), i + tuples.length ≤ lzip_blocks.length →
      ∃ st1, tree_for lzip_blocks tuples i st = Sum.inr st1 := by
  induction tuples with
  | nil => intro i st _; exact ⟨st, rfl⟩
  | cons t rest ih =>
    intro i st hlen
    simp only [List.length_cons] at hlen
    have hi : i < lzip_blocks.length := by omega
    unfold tree_for
    rw [List.getElem?_eq_getElem hi]
    exact ih (i + 1) _ (by omega)

/-- For a non-empty tuple list with as many blocks as tuples, the build returns: it is
the final seal of the state that the loop leaves. -/
theorem createChromosomeIntervalTree_built (tuples : List TrueGenomicInterval)
    (lzip_blocks : List MyBlock) (trees : ChromosomeTrees) (first : TrueGenomicInterval)
    (rest : List TrueGenomicInterval) (hne : tuples = first :: rest)
    (hlen : lzip_blocks.length = tuples.length) :
    ∃ st, tree_for lzip_blocks tuples 0 ⟨first.start.chromosome, [], trees⟩ = Sum.inr st ∧
      createChromosomeIntervalTree tuples lzip_blocks trees =
        .built (createTree st.prev_chromo st.chromo_intervals st.chromosome_trees) := by
  obtain ⟨st, hst⟩ := tree_for_total lzip_blocks tuples 0 ⟨first.start.chromosome, [], trees⟩
    (by omega)
  refine ⟨st, hst, ?_⟩
  unfold createChromosomeIntervalTree
  rw [if_pos (le_of_eq hlen)]
  subst hne
  simp only [hst]

/-! ### The claims on the index build -/

/-- C19. For every non-empty tuple list with a block paired to every tuple, the build
returns, and every tree that it stores under a chromosome key `c` holds only indexed
blocks whose chromosome field is `c`. -/
theorem createChromosomeIntervalTree_keyed (tuples : List TrueGenomicInterval)
    (lzip_blocks : List MyBlock) (hne : tuples ≠ [])
    (hlen : lzip_blocks.length = tuples.length) :
    ∃ trees, createChromosomeIntervalTree tuples lzip_blocks [] = .built trees ∧
      ∀ (c : Int) (tree : IntervalTree), map_find c trees = some tree →
        ∀ b ∈ tree.intervals, b.chromosome = c := by
  cases htup : tuples with
  | nil => exact absurd htup hne
  | cons first rest =>
    rw [← htup]
    obtain ⟨st, hfor, hbuilt⟩ := createChromosomeIntervalTree_built tuples lzip_blocks []
      first rest htup hlen
    have hinv : TreeInv st :=
      tree_for_inv lzip_blocks tuples 0 _ st
        ⟨fun p hp => absurd hp (by simp), fun b hb => absurd hb (by simp)⟩ hfor
    refine ⟨_, hbuilt, ?_⟩
    intro c tree hfind b hb
    exact keyed_createTree _ _ _ hinv.1 hinv.2 (c, tree) (map_find_mem c tree _ hfind) b hb

/-- Witness of C19: the tuples `tuple_a` and `tuple_b` with the blocks `block_a` and
`block_b`. -/
theorem createChromosomeIntervalTree_keyed_witness :
    ∃ trees, createChromosomeIntervalTree [tuple_a, tuple_b] [block_a, block_b] [] =
        .built trees ∧
      ∀ (c : Int) (tree : IntervalTree), map_find c trees = some tree →
        ∀ b ∈ tree.intervals, b.chromosome = c :=
  createChromosomeIntervalTree_keyed [tuple_a, tuple_b] [block_a, block_b] (by decide)
    (by decide)

/-- C20 as stated fails: on the empty tuple list paired with the empty block list the
build does not complete: `genomic_intervals->at(0)` throws before the loop and before
the final seal. -/
theorem createChromosomeIntervalTree_empty_counterexample :
    createChromosomeIntervalTree [] [] [] = .outOfRange := by
  decide

/-- C20, amended. For every non-empty tuple list paired with as many blocks, the index
build completes, and it ends by sealing a final tree, whatever the running list holds:
the trees returned are `createTree(prev_chromo, chromo_intervals)` applied to the state
that the loop leaves. Sealing an empty list gives an empty tree, without error. -/
theorem createChromosomeIntervalTree_final_seal (tuples : List TrueGenomicInterval)
    (lzip_blocks : List MyBlock) (trees : ChromosomeTrees) (first : TrueGenomicInterval)
    (rest : List TrueGenomicInterval) (hne : tuples = first :: rest)
    (hlen : lzip_blocks.length = tuples.length) :
    (∃ st, tree_for lzip_blocks tuples 0 ⟨first.start.chromosome, [], trees⟩ = Sum.inr st ∧
      createChromosomeIntervalTree tuples lzip_blocks trees =
        .built (createTree st.prev_chromo st.chromo_intervals st.chromosome_trees)) ∧
      ∀ (c : Int) (m : ChromosomeTrees), map_find c (createTree c [] m) = some ⟨[]⟩ :=
  ⟨createChromosomeIntervalTree_built tuples lzip_blocks trees first rest hne hlen,
    fun c m => by rw [map_find_createTree, if_pos rfl]⟩

/-- Witness of C20, amended: the tuples `tuple_a` and `tuple_b` with the blocks `block_a`
and `block_b`. -/
theorem createChromosomeIntervalTree_final_seal_witness :
    (∃ st, tree_for [block_a, block_b] [tuple_a, tuple_b] 0
          ⟨tuple_a.start.chromosome, [], []⟩ = Sum.inr st ∧
      createChromosomeIntervalTree [tuple_a, tuple_b] [block_a, block_b] [] =
        .built (createTree st.prev_chromo st.chromo_intervals st.chromosome_trees)) ∧
      ∀ (c : Int) (m : ChromosomeTrees), map_find c (createTree c [] m) = some ⟨[]⟩ :=
  createChromosomeIntervalTree_final_seal [tuple_a, tuple_b] [block_a, block_b] [] tuple_a
    [tuple_b] rfl (by decide)

/-! ## The calls of `createTree` made by the index build -/

theorem replay_append (a b : List (Int × List RawDataInterval)) (m : ChromosomeTrees) :
    replay (a ++ b) m = replay b (replay a m) := by
  unfold replay
  rw [List.foldl_append]

theorem replay_cons (p : Int × List RawDataInterval) (log : List (Int × List RawDataInterval))
    (m : ChromosomeTrees) : replay (p :: log) m = replay log (createTree p.1 p.2 m) := rfl

theorem span_loop_replay (block : MyBlock) (interval : TrueGenomicInterval) (n : Nat) :
    ∀ (k : Int) (trees : ChromosomeTrees),
      span_loop block interval n k trees =
        replay (seal_log_span block interval n k) trees := by
  induction n with
  | zero => intro k trees; rfl
  | succ n ih =>
    intro k trees
    show span_loop block interval n (k + 1) _ = replay (_ :: seal_log_span block interval n (k + 1)) trees
    rw [ih, replay_cons]

theorem tree_body_replay (st : TreeState) (interval : TrueGenomicInterval) (block : MyBlock) :
    (tree_body st interval block).chromosome_trees =
      replay (seal_log_body st interval block) st.chromosome_trees := by
  unfold seal_log_body
  rw [replay_append]
  have hseal : (tree_seal st interval).chromosome_trees =
      replay (if st.prev_chromo ≠ interval.start.chromosome
        then [(st.prev_chromo, st.chromo_intervals)] else []) st.chromosome_trees := by
    unfold tree_seal
    by_cases h : st.prev_chromo ≠ interval.start.chromosome
    · rw [if_pos h, if_pos h]; rfl
    · rw [if_neg h, if_neg h]; rfl
  rw [← hseal]
  unfold tree_body
  by_cases hc : interval.start.chromosome = interval.end_.chromosome
  · rw [tree_emit_same _ interval block hc, if_pos hc]
    rfl
  · rw [tree_emit_split _ interval block hc, if_neg hc, replay_cons, ← span_loop_replay]

theorem tree_for_replay (lzip_blocks : List MyBlock) (tuples : List TrueGenomicInterval) :
    ∀ (i : Nat) (st st1 : TreeState), tree_for lzip_blocks tuples i st = Sum.inr st1 →
      st1.chromosome_trees =
        replay (seal_log_for lzip_blocks tuples i st) st.chromosome_trees := by
  induction tuples with
  | nil =>
    intro i st st1 hf
    rw [← Sum.inr.inj hf]
    rfl
  | cons t rest ih =>
    intro i st st1 hf
    unfold tree_for at hf
    unfold seal_log_for
    cases hb : lzip_blocks[i]? with
    | none => rw [hb] at hf; exact absurd hf (by simp)
    | some block =>
      rw [hb] at hf
      simp only
      rw [replay_append, ← tree_body_replay]
      exact ih (i + 1) _ st1 hf

theorem seal_log_span_nonempty (block : MyBlock) (interval : TrueGenomicInterval) (n : Nat) :
    ∀ (k : Int), ∀ p ∈ seal_log_span block interval n k, p.2 ≠ [] := by
  induction n with
  | zero => intro k p hp; simp [seal_log_span] at hp
  | succ n ih =>
    intro k p hp
    unfold seal_log_span at hp
    rcases List.mem_cons.mp hp with h | h
    · rw [h]; exact List.cons_ne_nil _ _
    · exact ih (k + 1) p h

theorem tree_body_nonempty (st : TreeState) (interval : TrueGenomicInterval) (block : MyBlock) :
    (tree_body st interval block).chromo_intervals ≠ [] := by
  unfold tree_body
  by_cases hc : interval.start.chromosome = interval.end_.chromosome
  · rw [tree_emit_same _ interval block hc]
    exact List.append_ne_nil_of_right_ne_nil _ (List.cons_ne_nil _ _)
  · rw [tree_emit_split _ interval block hc]
    exact List.cons_ne_nil _ _

theorem seal_log_body_nonempty (st : TreeState) (interval : TrueGenomicInterval)
    (block : MyBlock)
    (h : st.chromo_intervals ≠ [] ∨ st.prev_chromo = interval.start.chromosome) :
    ∀ p ∈ seal_log_body st interval block, p.2 ≠ [] := by
  intro p hp
  unfold seal_log_body at hp
  rcases List.mem_append.mp hp with hp | hp
  · by_cases hc : st.prev_chromo ≠ interval.start.chromosome
    · rw [if_pos hc, List.mem_singleton] at hp
      rcases h with h | h
      · rw [hp]; exact h
      · exact absurd h hc
    · rw [if_neg hc] at hp
      exact absurd hp (by simp)
  · by_cases hc : interval.start.chromosome = interval.end_.chromosome
    · rw [if_pos hc] at hp
      exact absurd hp (by simp)
    · rw [if_neg hc] at hp
      rcases List.mem_cons.mp hp with hp | hp
      · rw [hp]
        exact List.append_ne_nil_of_right_ne_nil _ (List.cons_ne_nil _ _)
      · exact seal_log_span_nonempty block interval _ 0 p hp

theorem seal_log_for_nonempty (lzip_blocks : List MyBlock) (tuples : List TrueGenomicInterval) :
    ∀ (i : Nat) (st : TreeState),
      (st.chromo_intervals ≠ [] ∨
        ∀ t, tuples.head? = some t → st.prev_chromo = t.start.chromosome) →
      ∀ p ∈ seal_log_for lzip_blocks tuples i st, p.2 ≠ [] := by
  induction tuples with
  | nil => intro i st _ p hp; simp [seal_log_for] at hp
  | cons t rest ih =>
    intro i st h p hp
    unfold seal_log_for at hp
    cases hb : lzip_blocks[i]? with
    | none => rw [hb] at hp; exact absurd hp (by simp)
    | some block =>
      rw [hb] at hp
      rcases List.mem_append.mp hp with hp | hp
      · refine seal_log_body_nonempty st t block ?_ p hp
        rcases h with h | h
        · exact Or.inl h
        · exact Or.inr (h t rfl)
      · exact ih (i + 1) _ (Or.inl (tree_body_nonempty st t block)) p hp

theorem tree_for_nonempty (lzip_blocks : List MyBlock) (tuples : List TrueGenomicInterval) :
    ∀ (i : Nat) (st st1 : TreeState), tree_for lzip_blocks tuples i st = Sum.inr st1 →
      (tuples ≠ [] ∨ st.chromo_intervals ≠ []) → st1.chromo_intervals ≠ [] := by
  induction tuples with
  | nil =>
    intro i st st1 hf h
    rw [← Sum.inr.inj hf]
    rcases h with h | h
    · exact absurd rfl h
    · exact h
  | cons t rest ih =>
    intro i st st1 hf _
    unfold tree_for at hf
    cases hb : lzip_blocks[i]? with
    | none => rw [hb] at hf; exact absurd hf (by simp)
    | some block =>
      rw [hb] at hf
      exact ih (i + 1) _ st1 hf (Or.inr (tree_body_nonempty st t block))

theorem map_find_replay (log : List (Int × List RawDataInterval)) :
    ∀ (m : ChromosomeTrees) (c : Int) (tree : IntervalTree),
      map_find c (replay log m) = some tree →
        (∃ p ∈ log, p.1 = c ∧ tree = ⟨p.2⟩) ∨ map_find c m = some tree := by
  induction log with
  | nil => intro m c tree h; exact Or.inr h
  | cons q rest ih =>
    intro m c tree h
    rw [replay_cons] at h
    rcases ih _ c tree h with ⟨p, hp, hpc, hpt⟩ | h1
    · exact Or.inl ⟨p, List.mem_cons_of_mem _ hp, hpc, hpt⟩
    · rw [map_find_createTree] at h1
      by_cases hc : c = q.1
      · rw [if_pos hc] at h1
        exact Or.inl ⟨q, List.mem_cons_self _ _, hc.symm, (Option.some.inj h1).symm⟩
      · rw [if_neg hc] at h1
        exact Or.inr h1

/-- C21. For every non-empty tuple list with a block paired to every tuple, the build
returns; the trees it leaves are those of its calls of `createTree`, in their order;
every such call, the one after the loop included, is given a non-empty list; and every
tree of the resulting map holds at least one block. -/
theorem createChromosomeIntervalTree_seals_nonempty (tuples : List TrueGenomicInterval)
    (lzip_blocks : List MyBlock) (hne : tuples ≠ [])
    (hlen : lzip_blocks.length = tuples.length) :
    ∃ trees, createChromosomeIntervalTree tuples lzip_blocks [] = .built trees ∧
      trees = replay (seal_log tuples lzip_blocks []) [] ∧
      (∀ p ∈ seal_log tuples lzip_blocks [], p.2 ≠ []) ∧
      ∀ (c : Int) (tree : IntervalTree), map_find c trees = some tree →
        tree.intervals ≠ [] := by
  cases htup : tuples with
  | nil => exact absurd htup hne
  | cons first rest =>
    rw [← htup]
    obtain ⟨st, hfor, hbuilt⟩ := createChromosomeIntervalTree_built tuples lzip_blocks []
      first rest htup hlen
    have hlog : seal_log tuples lzip_blocks [] =
        seal_log_for lzip_blocks tuples 0 ⟨first.start.chromosome, [], []⟩ ++
          [(st.prev_chromo, st.chromo_intervals)] := by
      unfold seal_log
      subst htup
      simp only [hfor]
    have hreplay : createTree st.prev_chromo st.chromo_intervals st.chromosome_trees =
        replay (seal_log tuples lzip_blocks []) [] := by
      rw [hlog, replay_append, ← tree_for_replay lzip_blocks tuples 0 _ st hfor]
      rfl
    have hall : ∀ p ∈ seal_log tuples lzip_blocks [], p.2 ≠ [] := by
      intro p hp
      rw [hlog] at hp
      rcases List.mem_append.mp hp with hp | hp
      · refine seal_log_for_nonempty lzip_blocks tuples 0 _ (Or.inr ?_) p hp
        intro t ht
        rw [htup] at ht
        simp only [List.head?_cons, Option.some.injEq] at ht
        rw [← ht]
      · rw [List.mem_singleton] at hp
        rw [hp]
        exact tree_for_nonempty lzip_blocks tuples 0 _ st hfor (Or.inl hne)
    refine ⟨_, hbuilt, hreplay, hall, ?_⟩
    intro c tree hfind
    rw [hreplay] at hfind
    rcases map_find_replay _ [] c tree hfind with ⟨p, hp, -, hpt⟩ | h
    · rw [hpt]
      exact hall p hp
    · exact absurd h (by simp [map_find])

/-- Witness of C21: the tuples `tuple_a` and `tuple_b` with the blocks `block_a` and
`block_b`. -/
theorem createChromosomeIntervalTree_seals_nonempty_witness :
    ∃ trees, createChromosomeIntervalTree [tuple_a, tuple_b] [block_a, block_b] [] =
        .built trees ∧
      trees = replay (seal_log [tuple_a, tuple_b] [block_a, block_b] []) [] ∧
      (∀ p ∈ seal_log [tuple_a, tuple_b] [block_a, block_b] [], p.2 ≠ []) ∧
      ∀ (c : Int) (tree : IntervalTree), map_find c trees = some tree →
        tree.intervals ≠ [] :=
  createChromosomeIntervalTree_seals_nonempty [tuple_a, tuple_b] [block_a, block_b]
    (by decide) (by decide)

/-! ## The index that the build leaves for ordered tuples -/

theorem covers_iff (c : Int) (t : TrueGenomicInterval) :
    covers c t = true ↔ t.start.chromosome ≤ c ∧ c ≤ t.end_.chromosome := by
  unfold covers
  exact decide_eq_true_iff

theorem frags_on_append (c : Int) (xs ys : List (TrueGenomicInterval × MyBlock)) :
    frags_on c (xs ++ ys) = frags_on c xs ++ frags_on c ys := by
  unfold frags_on
  rw [List.filterMap_append]

theorem frags_on_singleton_none (c : Int) (p : TrueGenomicInterval × MyBlock)
    (h : ¬ (p.1.start.chromosome ≤ c ∧ c ≤ p.1.end_.chromosome)) : frags_on c [p] = [] := by
  have hc : covers c p.1 = false := by
    rw [← Bool.not_eq_true, covers_iff]; exact h
  unfold frags_on
  simp [frag_on, hc]

theorem frags_on_singleton_some (c : Int) (p : TrueGenomicInterval × MyBlock)
    (h : p.1.start.chromosome ≤ c ∧ c ≤ p.1.end_.chromosome) :
    frags_on c [p] = [fragment p.2 p.1 c
      (if c = p.1.start.chromosome then p.1.start.offset else chromo_min)
      (if c = p.1.end_.chromosome then p.1.end_.offset else chromo_max)] := by
  have hc : covers c p.1 = true := (covers_iff c p.1).mpr h
  unfold frags_on
  simp [frag_on, hc]

theorem frags_on_eq_nil (c bound : Int) (done : List (TrueGenomicInterval × MyBlock))
    (hd : ∀ p ∈ done, p.1.end_.chromosome ≤ bound) (hc : bound < c) : frags_on c done = [] := by
  unfold frags_on
  rw [List.filterMap_eq_nil_iff]
  intro p hp
  have hcov : covers c p.1 = false := by
    rw [← Bool.not_eq_true, covers_iff]
    intro h
    have := hd p hp
    omega
  unfold frag_on
  rw [hcov]
  rfl

theorem tree_of_nil (old : Option IntervalTree) : tree_of old [] = old := rfl

theorem tree_of_ne_nil (old : Option IntervalTree) (l : List RawDataInterval) (h : l ≠ []) :
    tree_of old l = some ⟨l⟩ := by
  unfold tree_of
  rw [if_neg h]

/-- With a block for every tuple, the loop over the tuples is the fold of its body over
the tuples paired with their blocks. -/
theorem tree_for_foldl (lzip_blocks : List MyBlock) (tuples : List TrueGenomicInterval) :
    ∀ (i : Nat) (st : TreeState), i + tuples.length ≤ lzip_blocks.length →
      tree_for lzip_blocks tuples i st =
        Sum.inr ((tuples.zip (lzip_blocks.drop i)).foldl
          (fun s p => tree_body s p.1 p.2) st) := by
  induction tuples with
  | nil => intro i st _; rfl
  | cons t rest ih =>
    intro i st hlen
    simp only [List.length_cons] at hlen
    have hi : i < lzip_blocks.length := by omega
    unfold tree_for
    rw [List.getElem?_eq_getElem hi]
    simp only
    rw [ih (i + 1) _ (by omega), List.drop_eq_getElem_cons hi]
    rfl

/-- The recursive reading of the order of the tuples is the one by positions: the first
tuple starts at or after `lo`, every tuple ends at or after the chromosome it starts on,
and every tuple starts at or after the chromosome on which the tuple before it ends. -/
theorem ordered_from_iff (tuples : List TrueGenomicInterval) :
    ∀ (lo : Int), ordered_from lo tuples ↔
      (∀ t, tuples.head? = some t → lo ≤ t.start.chromosome) ∧
      (∀ t ∈ tuples, t.start.chromosome ≤ t.end_.chromosome) ∧
      (∀ (i : Nat) (t u : TrueGenomicInterval), tuples[i]? = some t →
        tuples[i + 1]? = some u → t.end_.chromosome ≤ u.start.chromosome) := by
  induction tuples with
  | nil =>
    intro lo
    refine ⟨fun _ => ⟨fun t h => ?_, fun t h => ?_, fun i t u h => ?_⟩, fun _ => trivial⟩
    · exact absurd h (by simp)
    · exact absurd h (List.not_mem_nil t)
    · exact absurd h (by simp)
  | cons x rest ih =>
    intro lo
    show (lo ≤ x.start.chromosome ∧ x.start.chromosome ≤ x.end_.chromosome ∧
      ordered_from x.end_.chromosome rest) ↔ _
    rw [ih x.end_.chromosome]
    constructor
    · rintro ⟨h1, h2, h3, h4, h5⟩
      refine ⟨fun t ht => ?_, fun t ht => ?_, fun i t u ht hu => ?_⟩
      · have : x = t := Option.some.inj ht
        rw [← this]; exact h1
      · rcases List.mem_cons.mp ht with h | h
        · rw [h]; exact h2
        · exact h4 t h
      · rw [List.getElem?_cons_succ] at hu
        cases i with
        | zero =>
          rw [List.getElem?_cons_zero] at ht
          have hx : x = t := Option.some.inj ht
          rw [← hx]
          rw [← List.head?_eq_getElem?] at hu
          exact h3 u hu
        | succ j =>
          rw [List.getElem?_cons_succ] at ht
          exact h5 j t u ht hu
    · rintro ⟨h1, h2, h3⟩
      refine ⟨h1 x rfl, h2 x (List.mem_cons_self x rest), fun t ht => ?_,
        fun t ht => h2 t (List.mem_cons_of_mem x ht),
        fun i t u ht hu => h3 (i + 1) t u (by rw [List.getElem?_cons_succ]; exact ht)
          (by rw [List.getElem?_cons_succ]; exact hu)⟩
      cases rest with
      | nil => exact absurd ht (by simp)
      | cons y ys =>
        have hy : y = t := Option.some.inj ht
        rw [← hy]
        exact h3 0 x y (List.getElem?_cons_zero) (by rw [List.getElem?_cons_succ, List.getElem?_cons_zero])

/-- The chromosomes of a tuple list are non-decreasing when every tuple ends at or after
the chromosome it starts on and starts at or after the chromosome on which the tuple
before it ends. -/
theorem chromosomes_ordered_iff (tuples : List TrueGenomicInterval) :
    chromosomes_ordered tuples ↔
      (∀ t ∈ tuples, t.start.chromosome ≤ t.end_.chromosome) ∧
      (∀ (i : Nat) (t u : TrueGenomicInterval), tuples[i]? = some t →
        tuples[i + 1]? = some u → t.end_.chromosome ≤ u.start.chromosome) := by
  cases tuples with
  | nil =>
    refine ⟨fun _ => ⟨fun t h => absurd h (List.not_mem_nil t), fun i t u h => ?_⟩,
      fun _ => trivial⟩
    exact absurd h (by simp)
  | cons x rest =>
    show ordered_from x.start.chromosome (x :: rest) ↔ _
    rw [ordered_from_iff]
    constructor
    · rintro ⟨_, h2, h3⟩
      exact ⟨h2, h3⟩
    · rintro ⟨h2, h3⟩
      refine ⟨fun t ht => ?_, h2, h3⟩
      have : x = t := Option.some.inj ht
      rw [← this]

/-- The seal at the head of the loop body keeps the state of the build, when the running
list is non-empty or no seal is made. -/
theorem BuildInv_seal (init : ChromosomeTrees) (done : List (TrueGenomicInterval × MyBlock))
    (st : TreeState) (t : TrueGenomicInterval) (hinv : BuildInv init done st)
    (hci : st.chromo_intervals ≠ [] ∨ st.prev_chromo = t.start.chromosome)
    (hle : st.prev_chromo ≤ t.start.chromosome) :
    BuildInv init done (tree_seal st t) := by
  obtain ⟨h1, h2, h3, h4⟩ := hinv
  by_cases h : st.prev_chromo ≠ t.start.chromosome
  · have hne : st.chromo_intervals ≠ [] := hci.resolve_right h
    have hlt : st.prev_chromo < t.start.chromosome := by omega
    have hs : tree_seal st t = ⟨t.start.chromosome, [],
        createTree st.prev_chromo st.chromo_intervals st.chromosome_trees⟩ := by
      unfold tree_seal; rw [if_pos h]
    rw [hs]
    unfold BuildInv
    refine ⟨?_, ?_, ?_, ?_⟩
    · intro c hc
      show map_find c (createTree _ _ _) = _
      rw [map_find_createTree]
      by_cases hcp : c = st.prev_chromo
      · rw [if_pos hcp, hcp, ← h3, tree_of_ne_nil _ _ hne]
      · rw [if_neg hcp]
        by_cases hcl : c < st.prev_chromo
        · exact h1 c hcl
        · rw [h2 c (by omega), frags_on_eq_nil c st.prev_chromo done h4 (by omega), tree_of_nil]
    · intro c hc
      have hc2 : t.start.chromosome ≤ c := hc
      have hcp : c ≠ st.prev_chromo := by omega
      show map_find c (createTree _ _ _) = _
      rw [map_find_createTree, if_neg hcp]
      exact h2 c (by omega)
    · show [] = frags_on t.start.chromosome done
      rw [frags_on_eq_nil _ st.prev_chromo done h4 hlt]
    · intro p hp
      show p.1.end_.chromosome ≤ t.start.chromosome
      have := h4 p hp
      omega
  · have hs : tree_seal st t = st := by unfold tree_seal; rw [if_neg h]
    rw [hs]
    exact ⟨h1, h2, h3, h4⟩

/-- The indexed blocks of a tuple, added to a state whose running chromosome is the start
chromosome of the tuple, keep the state of the build and leave a non-empty running list
on the end chromosome of the tuple. -/
theorem BuildInv_emit (init : ChromosomeTrees) (done : List (TrueGenomicInterval × MyBlock))
    (st : TreeState) (t : TrueGenomicInterval) (b : MyBlock) (hinv : BuildInv init done st)
    (hs : st.prev_chromo = t.start.chromosome)
    (hle : t.start.chromosome ≤ t.end_.chromosome) :
    BuildInv init (done ++ [(t, b)]) (tree_emit st t b) ∧
      (tree_emit st t b).prev_chromo = t.end_.chromosome ∧
      (tree_emit st t b).chromo_intervals ≠ [] := by
  obtain ⟨h1, h2, h3, h4⟩ := hinv
  by_cases h : t.start.chromosome = t.end_.chromosome
  · rw [tree_emit_same st t b h]
    unfold BuildInv
    refine ⟨⟨?_, ?_, ?_, ?_⟩, ?_, ?_⟩
    · intro c hc
      have hc2 : c < st.prev_chromo := hc
      have hn : ¬ (t.start.chromosome ≤ c ∧ c ≤ t.end_.chromosome) := by omega
      rw [frags_on_append, frags_on_singleton_none c (t, b) hn, List.append_nil]
      exact h1 c hc2
    · intro c hc
      exact h2 c hc
    · show st.chromo_intervals ++ _ = frags_on st.prev_chromo (done ++ [(t, b)])
      have hy : t.start.chromosome ≤ st.prev_chromo ∧ st.prev_chromo ≤ t.end_.chromosome := by
        omega
      rw [frags_on_append, frags_on_singleton_some st.prev_chromo (t, b) hy, ← h3]
      show _ ++ [fragment b t _ _ _] = _ ++ [fragment b t _ (if _ = t.start.chromosome then _ else _)
        (if _ = t.end_.chromosome then _ else _)]
      rw [if_pos hs, if_pos (hs.trans h), hs]
    · intro p hp
      show p.1.end_.chromosome ≤ st.prev_chromo
      rcases List.mem_append.mp hp with hp1 | hp1
      · exact h4 p hp1
      · rw [List.mem_singleton.mp hp1]
        show t.end_.chromosome ≤ st.prev_chromo
        omega
    · show st.prev_chromo = t.end_.chromosome
      omega
    · show st.chromo_intervals ++ _ ≠ []
      exact List.append_ne_nil_of_right_ne_nil _ (List.cons_ne_nil _ _)
  · have hlt : t.start.chromosome < t.end_.chromosome := by omega
    have hspan : ((t.end_.chromosome - t.start.chromosome - 1).toNat : Int) =
        t.end_.chromosome - t.start.chromosome - 1 := Int.toNat_of_nonneg (by omega)
    have hdone : ∀ c, t.start.chromosome < c → frags_on c done = [] := fun c hc =>
      frags_on_eq_nil c st.prev_chromo done h4 (by omega)
    rw [tree_emit_split st t b h]
    unfold BuildInv
    refine ⟨⟨?_, ?_, ?_, ?_⟩, rfl, List.cons_ne_nil _ _⟩
    · intro c hc
      have hc2 : c < t.end_.chromosome := hc
      show map_find c (span_loop _ _ _ _ _) = _
      rw [map_find_span_loop, map_find_createTree, frags_on_append]
      by_cases hmid : t.start.chromosome < c
      · have hy : t.start.chromosome ≤ c ∧ c ≤ t.end_.chromosome := by omega
        have hcs : c ≠ t.start.chromosome := by omega
        have hce : c ≠ t.end_.chromosome := by omega
        rw [if_pos (by omega), hdone c hmid, frags_on_singleton_some c (t, b) hy, List.nil_append,
          tree_of_ne_nil _ _ (List.cons_ne_nil _ _)]
        show _ = some ⟨[fragment b t c (if c = t.start.chromosome then _ else _)
          (if c = t.end_.chromosome then _ else _)]⟩
        rw [if_neg hcs, if_neg hce]
      · rw [if_neg (by omega)]
        by_cases hcs : c = t.start.chromosome
        · have hy : t.start.chromosome ≤ c ∧ c ≤ t.end_.chromosome := by omega
          have hce : c ≠ t.end_.chromosome := by omega
          rw [if_pos hcs, frags_on_singleton_some c (t, b) hy,
            tree_of_ne_nil _ _ (List.append_ne_nil_of_right_ne_nil _ (List.cons_ne_nil _ _))]
          show _ = some ⟨_ ++ [fragment b t c (if c = t.start.chromosome then _ else _)
            (if c = t.end_.chromosome then _ else _)]⟩
          rw [if_pos hcs, if_neg hce, h3, hs, hcs]
        · have hn : ¬ (t.start.chromosome ≤ c ∧ c ≤ t.end_.chromosome) := by omega
          rw [if_neg hcs, frags_on_singleton_none c (t, b) hn, List.append_nil]
          exact h1 c (by omega)
    · intro c hc
      have hc2 : t.end_.chromosome ≤ c := hc
      have hcs : c ≠ t.start.chromosome := by omega
      show map_find c (span_loop _ _ _ _ _) = _
      rw [map_find_span_loop, map_find_createTree, if_neg (by omega), if_neg hcs]
      exact h2 c (by omega)
    · show [_] = frags_on t.end_.chromosome (done ++ [(t, b)])
      have hy : t.start.chromosome ≤ t.end_.chromosome ∧ t.end_.chromosome ≤ t.end_.chromosome := by
        omega
      rw [frags_on_append, hdone _ hlt, frags_on_singleton_some _ (t, b) hy, List.nil_append]
      show _ = [fragment b t _ (if _ = t.start.chromosome then _ else _)
        (if _ = t.end_.chromosome then _ else _)]
      rw [if_neg (Ne.symm h), if_pos rfl]
    · intro p hp
      show p.1.end_.chromosome ≤ t.end_.chromosome
      rcases List.mem_append.mp hp with hp1 | hp1
      · have := h4 p hp1
        omega
      · rw [List.mem_singleton.mp hp1]

/-- One pass through the loop body keeps the state of the build, for a tuple that starts
at or after the running chromosome and ends at or after its start. -/
theorem BuildInv_body (init : ChromosomeTrees) (done : List (TrueGenomicInterval × MyBlock))
    (st : TreeState) (t : TrueGenomicInterval) (b : MyBlock) (hinv : BuildInv init done st)
    (hci : st.chromo_intervals ≠ [] ∨ st.prev_chromo = t.start.chromosome)
    (hle : st.prev_chromo ≤ t.start.chromosome)
    (hse : t.start.chromosome ≤ t.end_.chromosome) :
    BuildInv init (done ++ [(t, b)]) (tree_body st t b) ∧
      (tree_body st t b).prev_chromo = t.end_.chromosome ∧
      (tree_body st t b).chromo_intervals ≠ [] := by
  unfold tree_body
  exact BuildInv_emit init done (tree_seal st t) t b (BuildInv_seal init done st t hinv hci hle)
    (tree_seal_start st t) hse

/-- The loop keeps the state of the build over tuples of non-decreasing chromosomes. -/
theorem BuildInv_foldl (init : ChromosomeTrees) :
    ∀ (pairs done : List (TrueGenomicInterval × MyBlock)) (st : TreeState),
      BuildInv init done st →
      (st.chromo_intervals ≠ [] ∨
        ∀ p, pairs.head? = some p → st.prev_chromo = p.1.start.chromosome) →
      ordered_from st.prev_chromo (pairs.map Prod.fst) →
      BuildInv init (done ++ pairs) (pairs.foldl (fun s p => tree_body s p.1 p.2) st) ∧
        ((st.chromo_intervals ≠ [] ∨ pairs ≠ []) →
          (pairs.foldl (fun s p => tree_body s p.1 p.2) st).chromo_intervals ≠ []) := by
  intro pairs
  induction pairs with
  | nil =>
    intro done st hinv _ _
    rw [List.append_nil]
    refine ⟨hinv, fun h => ?_⟩
    rcases h with h | h
    · exact h
    · exact absurd rfl h
  | cons p rest ih =>
    intro done st hinv hci hord
    obtain ⟨t, b⟩ := p
    obtain ⟨ho1, ho2, ho3⟩ := hord
    have hci2 : st.chromo_intervals ≠ [] ∨ st.prev_chromo = t.start.chromosome := by
      rcases hci with h | h
      · exact Or.inl h
      · exact Or.inr (h (t, b) rfl)
    obtain ⟨hb1, hb2, hb3⟩ := BuildInv_body init done st t b hinv hci2 ho1 ho2
    have hord2 : ordered_from (tree_body st t b).prev_chromo (rest.map Prod.fst) := by
      rw [hb2]; exact ho3
    obtain ⟨hr1, hr2⟩ := ih (done ++ [(t, b)]) (tree_body st t b) hb1 (Or.inl hb3) hord2
    rw [List.append_assoc] at hr1
    exact ⟨hr1, fun _ => hr2 (Or.inl hb3)⟩

/-- For tuples of non-decreasing chromosomes, with a block for every tuple, the build
returns and leaves under every chromosome the tree of the indexed blocks of the tuples
that cover it, in the order of the tuples; the chromosomes that no tuple covers keep
the entry they had. -/
theorem createChromosomeIntervalTree_index (tuples : List TrueGenomicInterval)
    (lzip_blocks : List MyBlock) (init : ChromosomeTrees) (hne : tuples ≠ [])
    (hlen : lzip_blocks.length = tuples.length) (hord : chromosomes_ordered tuples) :
    ∃ trees, createChromosomeIntervalTree tuples lzip_blocks init = .built trees ∧
      ∀ c, map_find c trees =
        tree_of (map_find c init) (frags_on c (tuples.zip lzip_blocks)) := by
  cases tuples with
  | nil => exact absurd rfl hne
  | cons first rest =>
    cases lzip_blocks with
    | nil => simp at hlen
    | cons b bs =>
      obtain ⟨st, hst, hbuilt⟩ :=
        createChromosomeIntervalTree_built (first :: rest) (b :: bs) init first rest rfl hlen
      rw [tree_for_foldl (b :: bs) (first :: rest) 0 _ (by rw [hlen]; omega)] at hst
      have hst2 := Sum.inr.inj hst
      rw [List.drop_zero] at hst2
      have hinit : BuildInv init [] ⟨first.start.chromosome, [], init⟩ :=
        ⟨fun _ _ => rfl, fun _ _ => rfl, rfl, fun p hp => absurd hp (List.not_mem_nil p)⟩
      have hmap : ((first :: rest).zip (b :: bs)).map Prod.fst = first :: rest :=
        List.map_fst_zip _ _ (le_of_eq hlen.symm)
      obtain ⟨hf1, hf2⟩ := BuildInv_foldl init ((first :: rest).zip (b :: bs)) []
        ⟨first.start.chromosome, [], init⟩ hinit
        (Or.inr (fun p hp => by
          have hp2 : (first, b) = p := Option.some.inj hp
          rw [← hp2]))
        (by rw [hmap]; exact hord)
      rw [hst2, List.nil_append] at hf1
      have hf3 := hf2 (Or.inr (List.cons_ne_nil _ _))
      rw [hst2] at hf3
      obtain ⟨h1, h2, h3, h4⟩ := hf1
      refine ⟨_, hbuilt, fun c => ?_⟩
      rw [map_find_createTree]
      by_cases hcp : c = st.prev_chromo
      · rw [if_pos hcp, hcp, ← h3, tree_of_ne_nil _ _ hf3]
      · rw [if_neg hcp]
        by_cases hcl : c < st.prev_chromo
        · exact h1 c hcl
        · rw [h2 c (by omega), frags_on_eq_nil c st.prev_chromo _ h4 (by omega), tree_of_nil]

/-- The file offsets of the indexed blocks on a chromosome are those of the blocks of the
tuples that cover it, in the order of the tuples. -/
theorem frags_on_offsets (c : Int) (pairs : List (TrueGenomicInterval × MyBlock)) :
    (frags_on c pairs).map RawDataInterval.byte_offset =
      (pairs.filter (fun p => covers c p.1)).map (fun p => p.2.offset) := by
  induction pairs with
  | nil => rfl
  | cons p rest ih =>
    have hcons : frags_on c (p :: rest) = frags_on c [p] ++ frags_on c rest :=
      frags_on_append c [p] rest
    rw [hcons, List.map_append, ih]
    cases hc : covers c p.1 with
    | true =>
      rw [frags_on_singleton_some c p ((covers_iff c p.1).mp hc),
        List.filter_cons_of_pos (by show covers c p.1 = true; exact hc)]
      rfl
    | false =>
      have hn : ¬ (p.1.start.chromosome ≤ c ∧ c ≤ p.1.end_.chromosome) := by
        rw [← covers_iff, hc]; decide
      rw [frags_on_singleton_none c p hn,
        List.filter_cons_of_neg (by show ¬ covers c p.1 = true; rw [hc]; decide)]
      rfl

/-- A tuple that covers a chromosome has its indexed block among those of the chromosome. -/
theorem mem_frags_on (c : Int) (pairs : List (TrueGenomicInterval × MyBlock))
    (t : TrueGenomicInterval) (b : MyBlock) (hp : (t, b) ∈ pairs)
    (h : t.start.chromosome ≤ c ∧ c ≤ t.end_.chromosome) :
    fragment b t c (if c = t.start.chromosome then t.start.offset else chromo_min)
      (if c = t.end_.chromosome then t.end_.offset else chromo_max) ∈ frags_on c pairs := by
  unfold frags_on
  rw [List.mem_filterMap]
  refine ⟨(t, b), hp, ?_⟩
  unfold frag_on
  rw [(covers_iff c t).mpr h]
  rfl

/-- Tuples out of order lose a block: `tuple_c` spans the chromosomes 0 to 2 and `tuple_d`,
listed after it, lies on chromosome 1; the tree of chromosome 1 is sealed a second time
and holds no block of `block_a`. -/
theorem unordered_tuples_lose_block :
    ¬ chromosomes_ordered [tuple_c, tuple_d] ∧
      createChromosomeIntervalTree [tuple_c, tuple_d] [block_a, block_b] [] =
        .built crossing_trees ∧
      ∃ tree, map_find 1 crossing_trees = some tree ∧
        ∀ b ∈ tree.intervals, b.byte_offset ≠ block_a.offset := by
  refine ⟨by decide, by decide, ⟨[⟨36, 40, 120, 1, 0, 50, 3, true⟩]⟩, by decide, ?_⟩
  intro b hb
  rw [List.mem_singleton.mp hb]
  decide

/-- C22. For every non-empty tuple list of non-decreasing chromosomes, with a block paired
to every tuple, the build returns and no indexed block is lost: for every tuple `i` and
every chromosome `c` from its start chromosome to its end chromosome, the tree stored
under `c` holds an indexed block of `c` with the file offset and the size of the block
`i`, and the blocks of that tree are those of the tuples that cover `c`, in the order of
the tuples. -/
theorem createChromosomeIntervalTree_keeps_blocks (tuples : List TrueGenomicInterval)
    (lzip_blocks : List MyBlock) (init : ChromosomeTrees) (hne : tuples ≠ [])
    (hlen : lzip_blocks.length = tuples.length) (hord : chromosomes_ordered tuples) :
    ∃ trees, createChromosomeIntervalTree tuples lzip_blocks init = .built trees ∧
      ∀ (i : Nat) (t : TrueGenomicInterval) (block : MyBlock) (c : Int),
        tuples[i]? = some t → lzip_blocks[i]? = some block →
        t.start.chromosome ≤ c → c ≤ t.end_.chromosome →
        ∃ tree, map_find c trees = some tree ∧
          (∃ b ∈ tree.intervals, b.byte_offset = block.offset ∧
            b.block_size = block.compressed_size ∧ b.chromosome = c) ∧
          tree.intervals = frags_on c (tuples.zip lzip_blocks) ∧
          tree.intervals.map RawDataInterval.byte_offset =
            ((tuples.zip lzip_blocks).filter (fun p => covers c p.1)).map
              (fun p => p.2.offset) := by
  obtain ⟨trees, hbuilt, hfind⟩ :=
    createChromosomeIntervalTree_index tuples lzip_blocks init hne hlen hord
  refine ⟨trees, hbuilt, ?_⟩
  intro i t block c ht hb hsc hce
  have hzip : (tuples.zip lzip_blocks)[i]? = some (t, block) :=
    List.getElem?_zip_eq_some.mpr ⟨ht, hb⟩
  have hmem := mem_frags_on c (tuples.zip lzip_blocks) t block (List.getElem?_mem hzip)
    ⟨hsc, hce⟩
  have hne2 : frags_on c (tuples.zip lzip_blocks) ≠ [] := List.ne_nil_of_mem hmem
  refine ⟨⟨frags_on c (tuples.zip lzip_blocks)⟩, ?_, ⟨_, hmem, rfl, rfl, rfl⟩, rfl, ?_⟩
  · rw [hfind c, tree_of_ne_nil _ _ hne2]
  · exact frags_on_offsets c (tuples.zip lzip_blocks)

/-- Witness of C22: the tuples `tuple_a`, from chromosome 0 to chromosome 2, and `tuple_b`,
on chromosome 2, with the blocks `block_a` and `block_b`, built into an empty map. -/
theorem createChromosomeIntervalTree_keeps_blocks_witness :
    ∃ trees, createChromosomeIntervalTree [tuple_a, tuple_b] [block_a, block_b] [] =
        .built trees ∧
      ∀ (i : Nat) (t : TrueGenomicInterval) (block : MyBlock) (c : Int),
        [tuple_a, tuple_b][i]? = some t → [block_a, block_b][i]? = some block →
        t.start.chromosome ≤ c → c ≤ t.end_.chromosome →
        ∃ tree, map_find c trees = some tree ∧
          (∃ b ∈ tree.intervals, b.byte_offset = block.offset ∧
            b.block_size = block.compressed_size ∧ b.chromosome = c) ∧
          tree.intervals = frags_on c ([tuple_a, tuple_b].zip [block_a, block_b]) ∧
          tree.intervals.map RawDataInterval.byte_offset =
            (([tuple_a, tuple_b].zip [block_a, block_b]).filter (fun p => covers c p.1)).map
              (fun p => p.2.offset) :=
  createChromosomeIntervalTree_keeps_blocks [tuple_a, tuple_b] [block_a, block_b] []
    (by decide) (by decide) (by decide)

end Referee
